import Mathlib

/-!
Verification development for the element-tracking engine of the LinkHints
worker (`src/worker/ElementManager.js`).

The JavaScript source is shallowly embedded: DOM elements are identified by
natural numbers, the static facts the code reads off an element (tag name,
attributes, descendant list, ...) are collected in `ElemInfo` / `Env`
records, JavaScript `Set` / `Map` objects are insertion-ordered lists, and
the time-sliced `flushQueue` state machine is translated loop by loop with
its resumption cursors made explicit.  A `Deadline` is modelled as the
stream of boolean answers of successive `timeRemaining() <= 0` checks.
-/

set_option maxHeartbeats 1000000

namespace LinkHints

/-- DOM node identity (a JavaScript object reference). -/
abbrev Elem := Nat

/-- The element categories produced by the classifier
(`ElementType` in `src/shared/hints`): `clickable-event` is written
`clickableEvent`. -/
inductive ElementType where
  | link
  | clickable
  | clickableEvent
  | label
  | textarea
  | scrollable
  | selectable
deriving DecidableEq, Repr

/-- Insertion-ordered set insertion: JavaScript `Set.prototype.add` appends a
value that is not yet a member and does nothing otherwise. -/
def setAdd (x : Elem) (s : List Elem) : List Elem :=
  if x ∈ s then s else s ++ [x]

/-- JavaScript `Set.prototype.delete`: remove the (single) occurrence. -/
def setDel (x : Elem) : List Elem → List Elem
  | [] => []
  | y :: rest => if y = x then rest else y :: setDel x rest

/-- JavaScript `Map.prototype.get`. -/
def mapLookup {α β : Type} [DecidableEq α] (k : α) : List (α × β) → Option β
  | [] => none
  | (a, b) :: rest => if a = k then some b else mapLookup k rest

/-- JavaScript `Map.prototype.set`: replace in place if the key exists,
append otherwise (insertion order preserved). -/
def mapSet {α β : Type} [DecidableEq α] (k : α) (v : β) : List (α × β) → List (α × β)
  | [] => [(k, v)]
  | (a, b) :: rest => if a = k then (k, v) :: rest else (a, b) :: mapSet k v rest

/-- JavaScript `Map.prototype.delete`. -/
def mapDel {α β : Type} [DecidableEq α] (k : α) : List (α × β) → List (α × β)
  | [] => []
  | (a, b) :: rest => if a = k then rest else (a, b) :: mapDel k rest

/-! ## Classifier constants (the tweakable object `t` of ElementManager.js) -/

/-- `t.MAX_INTERSECTION_OBSERVED_ELEMENTS` (default `10e3`; tweakable). -/
def MAX_INTERSECTION_OBSERVED_ELEMENTS : Nat := 10000

/-- `t.ELEMENT_TYPES_LOW_QUALITY`. -/
def ELEMENT_TYPES_LOW_QUALITY : List ElementType := [ElementType.clickableEvent]

/-- `t.ELEMENT_TYPES_WORSE`. -/
def ELEMENT_TYPES_WORSE : List ElementType := [ElementType.scrollable, ElementType.selectable]

/-- `t.MIN_HEIGHT_BOX` (px). -/
def MIN_HEIGHT_BOX : ℚ := 110

/-- `t.MAX_HINT_X_PERCENTAGE_OF_WIDTH`. -/
def MAX_HINT_X_PERCENTAGE_OF_WIDTH : ℚ := 3 / 4

/-- `t.MAX_CLICKABLE_EVENT_AREA` (px). -/
def MAX_CLICKABLE_EVENT_AREA : ℚ := 1000000

/-- `t.MIN_SIZE_TEXT_RECT` (px). -/
def MIN_SIZE_TEXT_RECT : ℚ := 2

/-- `t.MIN_SIZE_ICON` (px). -/
def MIN_SIZE_ICON : ℚ := 10

/-- `t.PROTOCOLS_LINK`: `file:` is included only on the Chrome build
(`BROWSER === "chrome"`). -/
def PROTOCOLS_LINK (browserIsChrome : Bool) : List String :=
  ["http:", "https:", "ftp:", "chrome-extension:", "moz-extension:"] ++
    (if browserIsChrome then ["file:"] else [])

/-- `t.ROLES_CLICKABLE`. -/
def ROLES_CLICKABLE : List String :=
  ["button", "checkbox", "gridcell", "link", "menuitem", "menuitemcheckbox",
   "menuitemradio", "option", "radio", "searchbox", "spinbutton", "switch",
   "tab", "textbox", "treeitem"]

/-- `t.VALUES_NON_CONTENTEDITABLE`. -/
def VALUES_NON_CONTENTEDITABLE : List String := ["inherit", "false"]

/-- `ATTRIBUTES_CLICKABLE` (module-level constant). -/
def ATTRIBUTES_CLICKABLE : List String :=
  ["aria-checked", "aria-selected", "data-ember-action", "data-dismiss",
   "data-permalink-path", "data-image-url", "jsaction"]

/-! ## Static per-element facts read by `ElementManager#getElementType` -/

/-- The facts `getElementType` reads off a DOM element (besides the two
mutable marks, which are passed separately): tag name, `instanceof` tests,
attributes, the computed `contentEditable` state (absent, i.e. `undefined`,
for SVG elements), and its relation to the document roots. -/
structure ElemInfo where
  nodeName : String
  isHTMLAnchorElement : Bool
  /-- `element.getAttribute("href")`. -/
  hrefAttr : Option String
  /-- `element.protocol` (the resolved protocol of an anchor). -/
  protocol : String
  isHTMLInputElement : Bool
  /-- `element.type` of an input element. -/
  inputType : String
  contentEditable : Option String
  /-- `element === document.scrollingElement`. -/
  isScrollingElement : Bool
  /-- `element === document.documentElement || element === document.body`. -/
  isDocumentElementOrBody : Bool
  /-- `element.getAttribute("role")`. -/
  role : Option String
  /-- Modelled from the spec: `hasClickListenerProp(element)` reads the
  `CLICKABLE_EVENT_PROPS` list of `src/worker/injected.js`, which is not
  included in the sources; the spec describes it as a native click-handler
  mark, so it is kept as an opaque boolean fact about the element. -/
  hasClickListenerProp : Bool
  /-- The set of attribute names present on the element
  (for the `ATTRIBUTES_CLICKABLE` check). -/
  attributes : List String
deriving DecidableEq, Repr

/-- `getLinkElementType` (ElementManager.js, lines 1964-1977): anchors whose
`href` attribute is a non-empty string other than `"#"` and whose resolved
protocol is allowed are `link`; every other anchor is `clickable`. -/
def getLinkElementType (browserIsChrome : Bool) (e : ElemInfo) : ElementType :=
  match e.hrefAttr with
  | some hrefAttr =>
      if hrefAttr ≠ "" ∧ hrefAttr ≠ "#" ∧ (PROTOCOLS_LINK browserIsChrome).contains e.protocol
      then ElementType.link
      else ElementType.clickable
  | none => ElementType.clickable

/-- The `contentEditable` test of `getElementType`:
`element.contentEditable != null && !t.VALUES_NON_CONTENTEDITABLE.has(element.contentEditable)`. -/
def isContentEditableOn (ce : Option String) : Bool :=
  match ce with
  | none => false
  | some v => ¬ VALUES_NON_CONTENTEDITABLE.contains v

/-- The `ATTRIBUTES_CLICKABLE` test of `getElementType`:
`Array.from(t.ATTRIBUTES_CLICKABLE).some(attr => element.hasAttribute(attr))`. -/
def hasClickableAttribute (e : ElemInfo) : Bool :=
  ATTRIBUTES_CLICKABLE.any (fun attr => e.attributes.contains attr)

/-- The `role` test of `getElementType`:
`role != null && t.ROLES_CLICKABLE.has(role)`. -/
def hasClickableRole (e : ElemInfo) : Bool :=
  match e.role with
  | none => false
  | some r => ROLES_CLICKABLE.contains r

/-- `ElementManager#getElementType` (lines 1047-1127).  The `switch` on
`element.nodeName` is rendered as a chain of disjoint tests; `topWindow`
is `window.top === window`, and the two mutable marks
(`this.elementsWithScrollbars.has(element)`,
`this.elementsWithClickListeners.has(element)`) are passed as booleans. -/
def getElementType (browserIsChrome topWindow : Bool)
    (hasScrollbarMark hasClickListenerMark : Bool) (e : ElemInfo) : Option ElementType :=
  if e.nodeName = "A" then
    if e.isHTMLAnchorElement then some (getLinkElementType browserIsChrome e) else none
  else if e.nodeName = "BUTTON" ∨ e.nodeName = "SELECT" ∨ e.nodeName = "SUMMARY" ∨
      e.nodeName = "AUDIO" ∨ e.nodeName = "VIDEO" then
    some ElementType.clickable
  else if e.nodeName = "INPUT" then
    if e.isHTMLInputElement ∧ e.inputType ≠ "hidden" then some ElementType.clickable else none
  else if e.nodeName = "FORM" then
    none
  else if e.nodeName = "TEXTAREA" then
    some ElementType.textarea
  else if isContentEditableOn e.contentEditable then
    some ElementType.textarea
  else if hasScrollbarMark ∧ ¬ (e.isScrollingElement ∧ topWindow) then
    some ElementType.scrollable
  else if e.isDocumentElementOrBody then
    none
  else if hasClickableRole e then
    some ElementType.clickable
  else if e.hasClickListenerProp ∨ hasClickListenerMark ∨ hasClickableAttribute e then
    some ElementType.clickableEvent
  else if e.nodeName = "LABEL" then
    some ElementType.label
  else
    none

/-! ## The Deduper (ElementManager.js, lines 1144-1202) -/

/-- Hint alignment. -/
inductive Align where
  | left
  | right
deriving DecidableEq, Repr

/-- String form of an alignment, as used inside the position key. -/
def alignToString : Align → String
  | Align.left => "left"
  | Align.right => "right"

/-- JavaScript `Math.round`: round half toward positive infinity. -/
def jsRound (q : ℚ) : ℤ := ⌊q + 1 / 2⌋

/-- `HintMeasurements` (from `src/shared/hints`): the anchor point, its
alignment, the rightmost extent and the ordering weight of a hint. -/
structure HintMeasurements where
  x : ℚ
  y : ℚ
  align : Align
  maxX : ℚ
  weight : ℝ

/-- `VisibleElement` (from `src/shared/hints`), extended with the
element's `labels` DOM property, which `Deduper.add` reads off
`visibleElement.element` (`some` for form controls carrying a `labels`
`NodeList`, `none` otherwise). -/
structure VisibleElem where
  element : Elem
  type : ElementType
  measurements : HintMeasurements
  hasClickListener : Bool
  labels : Option (List Elem)

/-- `hintPositionKey` (lines 1196-1202). -/
def hintPositionKey (m : HintMeasurements) : String :=
  toString (jsRound m.x) ++ "," ++ toString (jsRound m.y) ++ "," ++ alignToString m.align

/-- Modelled from the spec: the `partition` helper imported from
`src/shared/main` (not included in the sources) splits a list by a
predicate into the sublist of matching elements and the sublist of the
others, which the spec describes as partitioning a group by low-quality
category vs. others. -/
def partitionBy {α : Type} (p : α → Bool) (xs : List α) : List α × List α :=
  xs.partition p

/-- The `Deduper` state: a map from a quantized position key to the
candidates seen there so far, plus a rejection set. -/
structure Deduper where
  positionMap : List (String × List VisibleElem)
  rejected : List Elem

/-- A fresh `Deduper` (`new Deduper()`). -/
def emptyDeduper : Deduper := ⟨[], []⟩

/-- `Deduper#add` (lines 1151-1189): first the associated labels of the
element are rejected outright, then the element is appended to its
position-key group, and if the group now holds both low-quality and other
members, every low-quality member is rejected. -/
def Deduper.add (d : Deduper) (v : VisibleElem) : Deduper :=
  let d :=
    match v.labels with
    | some ls => { d with rejected := ls.foldl (fun r l => setAdd l r) d.rejected }
    | none => d
  let key := hintPositionKey v.measurements
  match mapLookup key d.positionMap with
  | none => { d with positionMap := mapSet key [v] d.positionMap }
  | some elements =>
      let elements := elements ++ [v]
      let d := { d with positionMap := mapSet key elements d.positionMap }
      let parts := partitionBy (fun ve => ELEMENT_TYPES_LOW_QUALITY.contains ve.type) elements
      if parts.1.length > 0 ∧ parts.2.length > 0 then
        { d with rejected := parts.1.foldl (fun r ve => setAdd ve.element r) d.rejected }
      else d

/-- `Deduper#rejects` (lines 1191-1193). -/
def Deduper.rejects (d : Deduper) (v : VisibleElem) : Bool :=
  d.rejected.contains v.element

/-! ## Geometry (hint anchor points, ElementManager.js lines 1347-1732) -/

/-- An axis-aligned box in frame-local coordinates (`Box` of
`src/shared/main`): `x`, `y` is the top-left corner. -/
structure Box where
  x : ℚ
  y : ℚ
  width : ℚ
  height : ℚ
deriving DecidableEq, Repr

/-- A `ClientRect` / `DOMRect`. -/
structure Rect where
  x : ℚ
  y : ℚ
  width : ℚ
  height : ℚ
deriving DecidableEq, Repr

/-- `rect.left`. -/
def Rect.left (r : Rect) : ℚ := r.x

/-- `rect.top`. -/
def Rect.top (r : Rect) : ℚ := r.y

/-- `rect.right`. -/
def Rect.right (r : Rect) : ℚ := r.x + r.width

/-- `rect.bottom`. -/
def Rect.bottom (r : Rect) : ℚ := r.y + r.height

/-- A hint anchor point with alignment (`Point` of `src/shared/hints`). -/
structure Point where
  x : ℚ
  y : ℚ
  align : Align
deriving DecidableEq, Repr

/-- `getXY` (lines 1861-1868): the left edge x and the vertical center y of
a box. -/
def getXY (box : Box) : ℚ × ℚ :=
  (box.x, box.y + box.height / 2)

/-- `getXY` applied to a ClientRect (the source function accepts both). -/
def getXYRect (rect : Rect) : ℚ × ℚ :=
  (rect.x, rect.y + rect.height / 2)

/-- `area` (lines 1870-1872). -/
def area (rect : Rect) : ℚ := rect.width * rect.height

/-- `isWithin` (lines 1723-1732). -/
def isWithin (point : Point) (box : Box) : Bool :=
  decide (point.x ≥ box.x ∧
    point.x ≤ box.x + box.width * MAX_HINT_X_PERCENTAGE_OF_WIDTH ∧
    point.y ≥ box.y ∧
    point.y < box.y + box.height)

/-- The DOM facts `getFirstImagePoint` and `getBorderAndPaddingPoint` read
off one image candidate (a `SELECTOR_IMAGE` match): its bounding rect, the
result of the `getVisibleBox` helper of `src/shared/main` (not included in
the sources, so kept as a fact), its computed left border plus padding,
and whether it is a file input or an image input with a non-empty `src`. -/
structure ImageInfo where
  rect : Rect
  visibleBox : Option Box
  borderPlusPaddingLeft : ℚ
  isFileOrFilledImageInput : Bool
deriving DecidableEq, Repr

/-- `getBorderAndPaddingPoint` (lines 1543-1564), with the computed-style
border/padding sum and the input-type test supplied as facts. -/
def getBorderAndPaddingPoint (bpLeft : ℚ) (isFileOrFilledImageInput : Bool)
    (rect : Rect) (visibleBox : Box) : Point :=
  ⟨rect.left + bpLeft, (getXY visibleBox).2,
    if isFileOrFilledImageInput then Align.left else Align.right⟩

/-- `getFirstImagePoint` (lines 1505-1541): the first image candidate with
a visible box wins; its point is the border/padding-adjusted point with
alignment by image height. -/
def getFirstImagePoint : List ImageInfo → Option (Point × Rect)
  | [] => none
  | image :: rest =>
      match image.visibleBox with
      | some visibleBox =>
          let p := getBorderAndPaddingPoint image.borderPlusPaddingLeft
            image.isFileOrFilledImageInput image.rect visibleBox
          some (⟨p.x, p.y,
            if image.rect.height ≥ MIN_HEIGHT_BOX then Align.left else Align.right⟩,
            image.rect)
      | none => getFirstImagePoint rest

/-- `getBestNonEmptyTextPoint` (lines 1618-1721).  The whitespace-trimmed
text-run client rects (produced in the source by `walkTextNodes` of
`src/shared/main`, not included in the sources, plus `Range.getClientRects`)
are supplied as the `textRects` fact; the filter, the two `reduce` passes,
the same-line restriction and the single-line icon refinement follow the
source. -/
def getBestNonEmptyTextPoint (textRects : List Rect) (images : List ImageInfo)
    (elementRect : Rect) (isAcceptable : Point → Bool) (preferTextStart : Bool) :
    Option Point :=
  let rects := textRects.filter (fun rect =>
    decide (rect.width ≥ MIN_SIZE_TEXT_RECT ∧ rect.height ≥ MIN_SIZE_TEXT_RECT) &&
      isAcceptable ⟨(getXYRect rect).1, (getXYRect rect).2, Align.right⟩)
  match rects with
  | [] => none
  | first :: rest =>
      if preferTextStart then
        let leftMostRect := rest.foldl (fun a b =>
          if b.top < a.top then b
          else if b.top = a.top ∧ b.left < a.left then b else a) first
        some ⟨(getXYRect leftMostRect).1, (getXYRect leftMostRect).2, Align.right⟩
      else
        let largestRect := rest.foldl (fun a b =>
          if b.height > a.height then b
          else if b.height = a.height ∧ b.width > a.width then b else a) first
        let sameLineRects := (first :: rest).filter (fun rect =>
          decide (rect.top < largestRect.bottom ∧ rect.bottom > largestRect.top))
        match sameLineRects with
        | [] =>
            -- Unreachable: `largestRect` is one of the kept rects (all of
            -- positive height), so it always passes its own same-line test;
            -- the JavaScript `reduce` assumes non-emptiness the same way.
            none
        | s1 :: srest =>
            let leftMostRect := srest.foldl (fun a b =>
              if b.left < a.left then b
              else if b.left = a.left ∧ b.top < a.top then b else a) s1
            let isSingleLine := sameLineRects.length = (first :: rest).length
            let textPoint : Point :=
              ⟨(getXYRect leftMostRect).1, (getXYRect leftMostRect).2, Align.right⟩
            if isSingleLine ∧ leftMostRect.left ≥ elementRect.left + MIN_SIZE_ICON then
              match getFirstImagePoint images with
              | some ip =>
                  if ip.1.x < leftMostRect.left ∧ isAcceptable ip.1 then some ip.1
                  else some textPoint
              | none => some textPoint
            else some textPoint

/-- The DOM facts `getSingleRectPoint` reads off the element besides its
classification and rectangles: `instanceof` tests, the input type, and the
inputs of the text/image subroutines. -/
structure GeomElem where
  isHTMLInputElement : Bool
  inputType : String
  isHTMLSelectElement : Bool
  isHTMLCanvasElement : Bool
  textRects : List Rect
  images : List ImageInfo
  borderPlusPaddingLeft : ℚ
  isFileOrFilledImageInput : Bool
deriving DecidableEq, Repr

/-- `getSingleRectPoint` (lines 1347-1466): scrollable elements anchor at
the right edge; textareas and tall elements at the left edge; otherwise
text anchor, then image anchor, then (checkbox/radio) the `getXY` point
with right alignment, then (inputs/selects) the border/padding point,
falling back to the left edge. -/
def getSingleRectPoint (ge : GeomElem) (elementType : ElementType)
    (rect : Rect) (visibleBox : Box) : Point :=
  if elementType = ElementType.scrollable then
    ⟨visibleBox.x + visibleBox.width - 1, (getXY visibleBox).2, Align.right⟩
  else if elementType = ElementType.textarea ∨
      (elementType ≠ ElementType.selectable ∧ rect.height ≥ MIN_HEIGHT_BOX) then
    ⟨(getXY visibleBox).1, (getXY visibleBox).2, Align.left⟩
  else
    let isAcceptable := fun (p : Point) => isWithin p visibleBox
    let textPoint : Option Point :=
      if ¬ (ge.isHTMLSelectElement ∨ ge.isHTMLCanvasElement) then
        getBestNonEmptyTextPoint ge.textRects ge.images rect isAcceptable
          (elementType = ElementType.selectable)
      else none
    match textPoint with
    | some p => p
    | none =>
        let imageStep : Option Point :=
          match getFirstImagePoint ge.images with
          | some ip =>
              if isAcceptable ip.1 ∨ rect.height < ip.2.height then some ip.1 else none
          | none => none
        match imageStep with
        | some p => p
        | none =>
            if ge.isHTMLInputElement ∧ (ge.inputType = "checkbox" ∨ ge.inputType = "radio") then
              ⟨(getXY visibleBox).1, (getXY visibleBox).2, Align.right⟩
            else
              let bppStep : Option Point :=
                if ge.isHTMLInputElement ∨ ge.isHTMLSelectElement then
                  let p := getBorderAndPaddingPoint ge.borderPlusPaddingLeft
                    ge.isFileOrFilledImageInput rect visibleBox
                  if isAcceptable p then some p else none
                else none
              match bppStep with
              | some p => p
              | none => ⟨(getXY visibleBox).1, (getXY visibleBox).2, Align.left⟩


/-! ## The change queue (ElementManager.js, lines 175-863) -/

/-- A deadline: the stream of boolean answers of the successive
`deadline.timeRemaining() <= 0` checks within one `flushQueue` call
(`true` means the budget is exhausted and the code must yield). -/
def Deadline := Nat → Bool

/-- The unbounded budget used by the `getVisibleElements` drain
(`infiniteDeadline`, lines 223-225). -/
def infiniteDeadline : Deadline := fun _ => false

/-- `MutationType` (line 203). -/
inductive MutationType where
  | added
  | removed
  | changed
deriving DecidableEq, Repr

/-- One mutation record (`Record`, lines 175-180); `attributeName` is only
ever tested against `null`. -/
structure Rec where
  addedNodes : List Elem
  removedNodes : List Elem
  attributeName : Option String
  target : Elem
deriving DecidableEq, Repr

/-- The four inner resumption cursors of a `Records` queue item (the
`addedNodeIndex`, `removedNodeIndex`, `childIndex` and `children` fields
that `flushQueue` mutates in place on the item). -/
structure Cursors where
  addedNodeIndex : Nat
  removedNodeIndex : Nat
  childIndex : Nat
  children : Option (List Elem)
deriving DecidableEq, Repr

/-- Fresh cursors, as set by `queueRecords` (lines 376-390). -/
def Cursors.fresh : Cursors := ⟨0, 0, 0, none⟩

/-- `QueueItem` (lines 182-201). -/
inductive QueueItem where
  | records (records : List Rec) (recordIndex : Nat) (cur : Cursors) (removalsOnly : Bool)
  | clickableChanged (target : Elem) (clickable : Bool)
  | overflowChanged (target : Elem)
deriving DecidableEq, Repr

/-- `Queue` (lines 1130-1134). -/
structure Queue where
  items : List QueueItem
  index : Nat
  addedElements : List Elem
deriving DecidableEq, Repr

/-- `makeEmptyQueue` (lines 1136-1142). -/
def makeEmptyQueue : Queue := ⟨[], 0, []⟩

/-- The mutable registry state of an `ElementManager` touched by the queue
machinery: the `elements` map, the two visible sets, the two
identity-keyed marks, the observation sets of the two intersection
observers, the `bailed` flag, and the per-element pending value of the
injected `EVENT_ATTRIBUTE` (`true` for the clickable value, `false` for
the unclickable one), consumed by `consumeEventAttribute`. -/
structure MState where
  elements : List (Elem × ElementType)
  visibleElements : List Elem
  visibleFrames : List Elem
  elementsWithClickListeners : List Elem
  elementsWithScrollbars : List Elem
  observed : List Elem
  frameObserved : List Elem
  eventAttrs : List (Elem × Bool)
  bailed : Bool
deriving DecidableEq, Repr

/-- The static DOM facts the queue machinery reads: which nodes are
`HTMLElement`s, which are frames, the `querySelectorAll("*")` descendant
lists, the per-element classifier facts, the `isScrollable` test of the
`overflow`/`underflow` handler (lines 1797-1818, a computed-style and
scroll-extent fact, kept opaque), the browser build and whether this is
the top window.  The tweakable tracking ceiling
`t.MAX_INTERSECTION_OBSERVED_ELEMENTS` is a field (its default is the
constant `MAX_INTERSECTION_OBSERVED_ELEMENTS`). -/
structure Env where
  isHTMLElement : Elem → Bool
  isFrame : Elem → Bool
  descendants : Elem → List Elem
  info : Elem → ElemInfo
  isScrollable : Elem → Bool
  browserIsChrome : Bool
  topWindow : Bool
  maxTracked : Nat

/-- `this.getElementType(element)` as invoked from `addOrRemoveElement`:
the classifier over the static facts and the two mutable marks. -/
def classifyElem (env : Env) (st : MState) (e : Elem) : Option ElementType :=
  getElementType env.browserIsChrome env.topWindow
    (e ∈ st.elementsWithScrollbars) (e ∈ st.elementsWithClickListeners) (env.info e)

/-- `ElementManager#bail` (lines 341-358): a no-op when already bailed;
otherwise disconnect the intersection observer (drop its observation set),
clear the visible set and set the flag. -/
def bail (st : MState) : MState :=
  if st.bailed then st
  else { st with observed := [], visibleElements := [], bailed := true }

/-- `ElementManager#consumeEventAttribute` (lines 622-635). -/
def consumeEventAttribute (e : Elem) (st : MState) : MState :=
  match mapLookup e st.eventAttrs with
  | some true =>
      { st with elementsWithClickListeners := setAdd e st.elementsWithClickListeners,
                eventAttrs := mapDel e st.eventAttrs }
  | some false =>
      { st with elementsWithClickListeners := setDel e st.elementsWithClickListeners,
                eventAttrs := mapDel e st.eventAttrs }
  | none => st

/-- `ElementManager#addOrRemoveElement` (lines 559-620). -/
def addOrRemoveElement (env : Env) (mt : MutationType) (element : Elem)
    (st : MState) : MState :=
  let st := consumeEventAttribute element st
  if env.isFrame element = true then
    match mt with
    | MutationType.added =>
        { st with frameObserved := setAdd element st.frameObserved }
    | MutationType.removed =>
        { st with frameObserved := setDel element st.frameObserved,
                  visibleFrames := setDel element st.visibleFrames }
    | MutationType.changed => st
  else
    let type := match mt with
      | MutationType.removed => none
      | _ => classifyElem env st element
    match type with
    | none =>
        if mt ≠ MutationType.added then
          { st with elements := mapDel element st.elements,
                    visibleElements := setDel element st.visibleElements,
                    observed := setDel element st.observed }
        else st
    | some ty =>
        let st := { st with elements := mapSet element ty st.elements }
        if ¬ st.bailed then
          let st := { st with observed := setAdd element st.observed }
          if st.elements.length > env.maxTracked then bail st else st
        else st

/-- The state threaded through the `Records` loops: the registry plus the
`queue.addedElements` set. -/
structure RunSt where
  reg : MState
  added : List Elem
deriving DecidableEq, Repr

/-- Result of the per-child loops: a yield (saving `item.childIndex`) or
completion (the deadline call counter is threaded on). -/
inductive ChildStep where
  | yielded (childIndex : Nat) (s : RunSt)
  | done (s : RunSt) (k : Nat)
deriving DecidableEq, Repr

/-- Result of one added-node / removed-node body: a yield (saving
`item.childIndex` and `item.children`) or continuation. -/
inductive NodeBodyRes where
  | yielded (childIndex : Nat) (children : Option (List Elem)) (s : RunSt)
  | cont (childIndex : Nat) (children : Option (List Elem)) (s : RunSt) (k : Nat)
deriving DecidableEq, Repr

/-- Result of the added-nodes / removed-nodes loops over the cursor
record. -/
inductive CursorStep where
  | yielded (cur : Cursors) (s : RunSt)
  | done (cur : Cursors) (s : RunSt) (k : Nat)
deriving DecidableEq, Repr

/-- Result of the records loop: also carries `item.recordIndex`. -/
inductive RecsStep where
  | yielded (recordIndex : Nat) (cur : Cursors) (s : RunSt)
  | done (recordIndex : Nat) (cur : Cursors) (s : RunSt) (k : Nat)
deriving DecidableEq, Repr

/-- The loop over the descendants of one added node (lines 738-751):
`startChildIndex` is the value of `item.childIndex` captured at entry to
the `if (children != null ...)` block; already-added children are
skipped. -/
def addChildrenLoop (env : Env) (d : Deadline) (children : List Elem)
    (startChildIndex childIndex : Nat) (s : RunSt) (k : Nat) : ChildStep :=
  if h : childIndex < children.length then
    if childIndex > startChildIndex ∧ d k = true then ChildStep.yielded childIndex s
    else
      let k2 := if childIndex > startChildIndex then k + 1 else k
      let child := children.get ⟨childIndex, h⟩
      let s2 := if child ∈ s.added then s
        else RunSt.mk (addOrRemoveElement env MutationType.added child s.reg)
          (setAdd child s.added)
      addChildrenLoop env d children startChildIndex (childIndex + 1) s2 k2
  else ChildStep.done s k
termination_by children.length - childIndex

/-- The loop over the descendants of one removed node (lines 786-803):
every child is removed and un-marked as added. -/
def removedChildrenLoop (env : Env) (d : Deadline) (children : List Elem)
    (startChildIndex childIndex : Nat) (s : RunSt) (k : Nat) : ChildStep :=
  if h : childIndex < children.length then
    if childIndex > startChildIndex ∧ d k = true then ChildStep.yielded childIndex s
    else
      let k2 := if childIndex > startChildIndex then k + 1 else k
      let child := children.get ⟨childIndex, h⟩
      let s2 := RunSt.mk (addOrRemoveElement env MutationType.removed child s.reg)
        (setDel child s.added)
      removedChildrenLoop env d children startChildIndex (childIndex + 1) s2 k2
  else ChildStep.done s k
termination_by children.length - childIndex

/-- The `if (children != null && children.length > 0)` block of the
added-nodes loop plus the cursor resets of lines 754-755. -/
def runAddChildren (env : Env) (d : Deadline) (children : List Elem)
    (childIndex : Nat) (s : RunSt) (k : Nat) : NodeBodyRes :=
  if children.length > 0 then
    match addChildrenLoop env d children childIndex childIndex s k with
    | ChildStep.yielded ci s => NodeBodyRes.yielded ci (some children) s
    | ChildStep.done s k => NodeBodyRes.cont 0 none s k
  else NodeBodyRes.cont 0 none s k

/-- The corresponding block of the removed-nodes loop (lines 786-806). -/
def runRemovedChildren (env : Env) (d : Deadline) (children : List Elem)
    (childIndex : Nat) (s : RunSt) (k : Nat) : NodeBodyRes :=
  if children.length > 0 then
    match removedChildrenLoop env d children childIndex childIndex s k with
    | ChildStep.yielded ci s => NodeBodyRes.yielded ci (some children) s
    | ChildStep.done s k => NodeBodyRes.cont 0 none s k
  else NodeBodyRes.cont 0 none s k

/-- The body of one added-node iteration (lines 690-756): when resuming
with saved `children` the element step is skipped; an element already in
`queue.addedElements` is skipped entirely (the `continue`, which leaves
the cursors untouched); otherwise the element is added, marked, and the
unconditional `timeRemaining()` check of line 730 runs. -/
def addedNodeBody (env : Env) (d : Deadline) (element : Elem)
    (childIndex : Nat) (children0 : Option (List Elem)) (s : RunSt) (k : Nat) :
    NodeBodyRes :=
  match children0 with
  | some children => runAddChildren env d children childIndex s k
  | none =>
      if env.isHTMLElement element = true then
        if element ∈ s.added then NodeBodyRes.cont childIndex none s k
        else
          let children := env.descendants element
          let s2 := RunSt.mk (addOrRemoveElement env MutationType.added element s.reg)
            (setAdd element s.added)
          if d k = true then NodeBodyRes.yielded childIndex (some children) s2
          else runAddChildren env d children childIndex s2 (k + 1)
      else NodeBodyRes.cont 0 none s k

/-- The body of one removed-node iteration (lines 772-806). -/
def removedNodeBody (env : Env) (d : Deadline) (element : Elem)
    (childIndex : Nat) (children0 : Option (List Elem)) (s : RunSt) (k : Nat) :
    NodeBodyRes :=
  match children0 with
  | some children => runRemovedChildren env d children childIndex s k
  | none =>
      if env.isHTMLElement element = true then
        let children := env.descendants element
        let s2 := RunSt.mk (addOrRemoveElement env MutationType.removed element s.reg)
          (setDel element s.added)
        if d k = true then NodeBodyRes.yielded childIndex (some children) s2
        else runRemovedChildren env d children childIndex s2 (k + 1)
      else NodeBodyRes.cont 0 none s k

/-- The added-nodes loop of one record (lines 676-757);
`startAddedNodeIndex` is captured at entry to the record body. -/
def addedNodesLoop (env : Env) (d : Deadline) (rec : Rec)
    (startAddedNodeIndex : Nat) (cur : Cursors) (s : RunSt) (k : Nat) : CursorStep :=
  if h : cur.addedNodeIndex < rec.addedNodes.length then
    if cur.addedNodeIndex > startAddedNodeIndex ∧ d k = true then CursorStep.yielded cur s
    else
      match addedNodeBody env d (rec.addedNodes.get ⟨cur.addedNodeIndex, h⟩)
          cur.childIndex cur.children s
          (if cur.addedNodeIndex > startAddedNodeIndex then k + 1 else k) with
      | NodeBodyRes.yielded ci ch s =>
          CursorStep.yielded { cur with childIndex := ci, children := ch } s
      | NodeBodyRes.cont ci ch s k =>
          addedNodesLoop env d rec startAddedNodeIndex
            { cur with
                addedNodeIndex := cur.addedNodeIndex + 1,
                childIndex := ci, children := ch } s k
  else CursorStep.done cur s k
termination_by rec.addedNodes.length - cur.addedNodeIndex
decreasing_by simp; omega

/-- The removed-nodes loop of one record (lines 759-807). -/
def removedNodesLoop (env : Env) (d : Deadline) (rec : Rec)
    (startRemovedNodeIndex : Nat) (cur : Cursors) (s : RunSt) (k : Nat) : CursorStep :=
  if h : cur.removedNodeIndex < rec.removedNodes.length then
    if cur.removedNodeIndex > startRemovedNodeIndex ∧ d k = true then CursorStep.yielded cur s
    else
      match removedNodeBody env d (rec.removedNodes.get ⟨cur.removedNodeIndex, h⟩)
          cur.childIndex cur.children s
          (if cur.removedNodeIndex > startRemovedNodeIndex then k + 1 else k) with
      | NodeBodyRes.yielded ci ch s =>
          CursorStep.yielded { cur with childIndex := ci, children := ch } s
      | NodeBodyRes.cont ci ch s k =>
          removedNodesLoop env d rec startRemovedNodeIndex
            { cur with
                removedNodeIndex := cur.removedNodeIndex + 1,
                childIndex := ci, children := ch } s k
  else CursorStep.done cur s k
termination_by rec.removedNodes.length - cur.removedNodeIndex
decreasing_by simp; omega

/-- The tail of one record-body iteration (lines 759-817): the removed
nodes, then the index resets of lines 809-810 and the attribute re-check
of lines 812-817. -/
def recordAfterAdded (env : Env) (d : Deadline) (rec : Rec) (removalsOnly : Bool)
    (cur : Cursors) (s : RunSt) (k : Nat) : CursorStep :=
  match removedNodesLoop env d rec cur.removedNodeIndex cur s k with
  | CursorStep.yielded cur s => CursorStep.yielded cur s
  | CursorStep.done cur s k =>
      CursorStep.done { cur with addedNodeIndex := 0, removedNodeIndex := 0 }
        (if ¬ removalsOnly ∧ rec.attributeName ≠ none ∧
            env.isHTMLElement rec.target = true then
          RunSt.mk (addOrRemoveElement env MutationType.changed rec.target s.reg) s.added
        else s) k

/-- The record body: the added-nodes loop (skipped for removals-only
batches) followed by the rest of the record. -/
def recordBody (env : Env) (d : Deadline) (rec : Rec) (removalsOnly : Bool)
    (cur : Cursors) (s : RunSt) (k : Nat) : CursorStep :=
  if removalsOnly then recordAfterAdded env d rec removalsOnly cur s k
  else
    match addedNodesLoop env d rec cur.addedNodeIndex cur s k with
    | CursorStep.yielded cur s => CursorStep.yielded cur s
    | CursorStep.done cur s k => recordAfterAdded env d rec removalsOnly cur s k

/-- The records loop of a `Records` item (lines 661-818);
`startRecordIndex` is captured at entry to the `case "Records"`. -/
def recordsLoop (env : Env) (d : Deadline) (records : List Rec) (removalsOnly : Bool)
    (startRecordIndex recordIndex : Nat) (cur : Cursors) (s : RunSt) (k : Nat) : RecsStep :=
  if h : recordIndex < records.length then
    if recordIndex > startRecordIndex ∧ d k = true then RecsStep.yielded recordIndex cur s
    else
      match recordBody env d (records.get ⟨recordIndex, h⟩) removalsOnly cur s
          (if recordIndex > startRecordIndex then k + 1 else k) with
      | CursorStep.yielded cur s => RecsStep.yielded recordIndex cur s
      | CursorStep.done cur s k =>
          recordsLoop env d records removalsOnly startRecordIndex (recordIndex + 1) cur s k
  else RecsStep.done recordIndex cur s k
termination_by records.length - recordIndex

/-- The whole manager state seen by `flushQueue`: the queue and the
registry. -/
structure FullState where
  queue : Queue
  reg : MState
deriving DecidableEq, Repr

/-- The `ClickableChanged` case of `flushQueue` (lines 822-833). -/
def clickableChangedStep (env : Env) (target : Elem) (clickable : Bool)
    (reg : MState) : MState :=
  if env.isHTMLElement target = true then
    let reg :=
      if clickable then
        { reg with elementsWithClickListeners := setAdd target reg.elementsWithClickListeners }
      else
        { reg with elementsWithClickListeners := setDel target reg.elementsWithClickListeners }
    addOrRemoveElement env MutationType.changed target reg
  else reg

/-- The `OverflowChanged` case of `flushQueue` (lines 835-853): re-check
`isScrollable` and re-classify only when the scrollbar mark actually
toggles. -/
def overflowChangedStep (env : Env) (target : Elem) (reg : MState) : MState :=
  if env.isHTMLElement target = true then
    if env.isScrollable target = true then
      if target ∉ reg.elementsWithScrollbars then
        let reg := { reg with
          elementsWithScrollbars := setAdd target reg.elementsWithScrollbars }
        addOrRemoveElement env MutationType.changed target reg
      else reg
    else if target ∈ reg.elementsWithScrollbars then
      let reg := { reg with
        elementsWithScrollbars := setDel target reg.elementsWithScrollbars }
      addOrRemoveElement env MutationType.changed target reg
    else reg
  else reg

/-- The outer queue loop of `flushQueue` (lines 647-863): `startQueueIndex`
is captured at entry; a yield saves the mutated item back into the items
list and returns; when the loop runs off the end the queue is replaced by
`makeEmptyQueue` (and the removal observer disconnected). -/
def flushLoop (env : Env) (d : Deadline) (startQueueIndex : Nat)
    (fs : FullState) (k : Nat) : FullState :=
  if h : fs.queue.index < fs.queue.items.length then
    if fs.queue.index > startQueueIndex ∧ d k = true then fs
    else
      match fs.queue.items.get ⟨fs.queue.index, h⟩ with
      | QueueItem.records records _recordIndex cur removalsOnly =>
          match recordsLoop env d records removalsOnly _recordIndex _recordIndex cur
              (RunSt.mk fs.reg fs.queue.addedElements)
              (if fs.queue.index > startQueueIndex then k + 1 else k) with
          | RecsStep.yielded ri cur s =>
              FullState.mk
                (Queue.mk
                  (fs.queue.items.set fs.queue.index
                    (QueueItem.records records ri cur removalsOnly))
                  fs.queue.index s.added)
                s.reg
          | RecsStep.done ri cur s k =>
              flushLoop env d startQueueIndex
                (FullState.mk
                  (Queue.mk
                    (fs.queue.items.set fs.queue.index
                      (QueueItem.records records ri cur removalsOnly))
                    (fs.queue.index + 1) s.added)
                  s.reg) k
      | QueueItem.clickableChanged target clickable =>
          flushLoop env d startQueueIndex
            (FullState.mk
              (Queue.mk fs.queue.items (fs.queue.index + 1) fs.queue.addedElements)
              (clickableChangedStep env target clickable fs.reg))
            (if fs.queue.index > startQueueIndex then k + 1 else k)
      | QueueItem.overflowChanged target =>
          flushLoop env d startQueueIndex
            (FullState.mk
              (Queue.mk fs.queue.items (fs.queue.index + 1) fs.queue.addedElements)
              (overflowChangedStep env target fs.reg))
            (if fs.queue.index > startQueueIndex then k + 1 else k)
  else
    FullState.mk makeEmptyQueue fs.reg
termination_by fs.queue.items.length - fs.queue.index
decreasing_by all_goals simp [List.length_set]; omega

/-- `ElementManager#flushQueue` (lines 637-863) under a deadline. -/
def flushQueue (env : Env) (d : Deadline) (fs : FullState) : FullState :=
  flushLoop env d fs.queue.index fs 0

/-- Repeated `flushQueue` calls, one deadline per scheduled idle
callback. -/
def multiFlush (env : Env) (ds : List Deadline) (fs : FullState) : FullState :=
  ds.foldl (fun s dl => flushQueue env dl s) fs

/-! ### Straight-line reference drains (what an unbounded budget computes) -/

/-- Unbounded drain of the added-children loop. -/
def addChildrenAll (env : Env) (children : List Elem) (childIndex : Nat)
    (s : RunSt) : RunSt :=
  if h : childIndex < children.length then
    let child := children.get ⟨childIndex, h⟩
    let s2 := if child ∈ s.added then s
      else RunSt.mk (addOrRemoveElement env MutationType.added child s.reg)
        (setAdd child s.added)
    addChildrenAll env children (childIndex + 1) s2
  else s
termination_by children.length - childIndex

/-- Unbounded drain of the removed-children loop. -/
def removedChildrenAll (env : Env) (children : List Elem) (childIndex : Nat)
    (s : RunSt) : RunSt :=
  if h : childIndex < children.length then
    let child := children.get ⟨childIndex, h⟩
    let s2 := RunSt.mk (addOrRemoveElement env MutationType.removed child s.reg)
      (setDel child s.added)
    removedChildrenAll env children (childIndex + 1) s2
  else s
termination_by children.length - childIndex

/-- Unbounded drain of one added-node body; returns the cursor values the
body leaves behind together with the state. -/
def addedNodeAll (env : Env) (element : Elem) (childIndex : Nat)
    (children0 : Option (List Elem)) (s : RunSt) :
    Nat × Option (List Elem) × RunSt :=
  match children0 with
  | some children => (0, none, addChildrenAll env children childIndex s)
  | none =>
      if env.isHTMLElement element = true then
        if element ∈ s.added then (childIndex, none, s)
        else
          let s2 := RunSt.mk (addOrRemoveElement env MutationType.added element s.reg)
            (setAdd element s.added)
          (0, none, addChildrenAll env (env.descendants element) childIndex s2)
      else (0, none, s)

/-- Unbounded drain of one removed-node body. -/
def removedNodeAll (env : Env) (element : Elem) (childIndex : Nat)
    (children0 : Option (List Elem)) (s : RunSt) :
    Nat × Option (List Elem) × RunSt :=
  match children0 with
  | some children => (0, none, removedChildrenAll env children childIndex s)
  | none =>
      if env.isHTMLElement element = true then
        let s2 := RunSt.mk (addOrRemoveElement env MutationType.removed element s.reg)
          (setDel element s.added)
        (0, none, removedChildrenAll env (env.descendants element) childIndex s2)
      else (0, none, s)

/-- Unbounded drain of the added-nodes loop. -/
def addedNodesAll (env : Env) (rec : Rec) (cur : Cursors) (s : RunSt) :
    Cursors × RunSt :=
  if h : cur.addedNodeIndex < rec.addedNodes.length then
    let r := addedNodeAll env (rec.addedNodes.get ⟨cur.addedNodeIndex, h⟩)
      cur.childIndex cur.children s
    addedNodesAll env rec
      { cur with
          addedNodeIndex := cur.addedNodeIndex + 1,
          childIndex := r.1, children := r.2.1 } r.2.2
  else (cur, s)
termination_by rec.addedNodes.length - cur.addedNodeIndex
decreasing_by simp; omega

/-- Unbounded drain of the removed-nodes loop. -/
def removedNodesAll (env : Env) (rec : Rec) (cur : Cursors) (s : RunSt) :
    Cursors × RunSt :=
  if h : cur.removedNodeIndex < rec.removedNodes.length then
    let r := removedNodeAll env (rec.removedNodes.get ⟨cur.removedNodeIndex, h⟩)
      cur.childIndex cur.children s
    removedNodesAll env rec
      { cur with
          removedNodeIndex := cur.removedNodeIndex + 1,
          childIndex := r.1, children := r.2.1 } r.2.2
  else (cur, s)
termination_by rec.removedNodes.length - cur.removedNodeIndex
decreasing_by simp; omega

/-- The cursor resets and attribute re-check ending one record body. -/
def recordFinish (env : Env) (rec : Rec) (removalsOnly : Bool)
    (r : Cursors × RunSt) : Cursors × RunSt :=
  ({ r.1 with addedNodeIndex := 0, removedNodeIndex := 0 },
    if ¬ removalsOnly ∧ rec.attributeName ≠ none ∧
        env.isHTMLElement rec.target = true then
      RunSt.mk (addOrRemoveElement env MutationType.changed rec.target r.2.reg) r.2.added
    else r.2)

/-- Unbounded drain of the tail of one record body. -/
def recordAfterAddedAll (env : Env) (rec : Rec) (removalsOnly : Bool)
    (cur : Cursors) (s : RunSt) : Cursors × RunSt :=
  recordFinish env rec removalsOnly (removedNodesAll env rec cur s)

/-- Unbounded drain of one record body. -/
def recordAll (env : Env) (rec : Rec) (removalsOnly : Bool) (cur : Cursors)
    (s : RunSt) : Cursors × RunSt :=
  if removalsOnly then recordAfterAddedAll env rec removalsOnly cur s
  else recordAfterAddedAll env rec removalsOnly (addedNodesAll env rec cur s).1
    (addedNodesAll env rec cur s).2

/-- Unbounded drain of the records loop. -/
def recordsAll (env : Env) (records : List Rec) (removalsOnly : Bool)
    (recordIndex : Nat) (cur : Cursors) (s : RunSt) : RunSt :=
  if h : recordIndex < records.length then
    recordsAll env records removalsOnly (recordIndex + 1)
      (recordAll env (records.get ⟨recordIndex, h⟩) removalsOnly cur s).1
      (recordAll env (records.get ⟨recordIndex, h⟩) removalsOnly cur s).2
  else s
termination_by records.length - recordIndex

/-- Unbounded drain of the remaining queue items: the registry and
added-elements state after processing items from `index` on. -/
def flushItemsAll (env : Env) (items : List QueueItem) (index : Nat)
    (reg : MState) (added : List Elem) : MState × List Elem :=
  if h : index < items.length then
    match items.get ⟨index, h⟩ with
    | QueueItem.records records recordIndex cur removalsOnly =>
        flushItemsAll env items (index + 1)
          (recordsAll env records removalsOnly recordIndex cur (RunSt.mk reg added)).reg
          (recordsAll env records removalsOnly recordIndex cur (RunSt.mk reg added)).added
    | QueueItem.clickableChanged target clickable =>
        flushItemsAll env items (index + 1)
          (clickableChangedStep env target clickable reg) added
    | QueueItem.overflowChanged target =>
        flushItemsAll env items (index + 1) (overflowChangedStep env target reg) added
  else (reg, added)
termination_by items.length - index

/-- The state a full (unbounded) drain reaches: the processed registry and
a reset queue. -/
def flushAll (env : Env) (fs : FullState) : FullState :=
  FullState.mk makeEmptyQueue
    (flushItemsAll env fs.queue.items fs.queue.index fs.reg fs.queue.addedElements).1

/-! ## Hint weight (ElementManager.js, lines 1874-1904) -/

/-- JavaScript `Math.max(...values)` over a spread list (the callers pass
non-empty lists; the empty case, `-Infinity` in JavaScript, is mapped to 0
and never reached under the non-emptiness hypotheses). -/
def maxOf : List ℚ → ℚ
  | [] => 0
  | x :: xs => xs.foldl max x

/-- `Math.log2`, idealized over the reals. -/
noncomputable def jsLog2 (x : ℝ) : ℝ := Real.logb 2 x

/-- `Math.log10`, idealized over the reals. -/
noncomputable def jsLog10 (x : ℝ) : ℝ := Real.logb 10 x

/-- `hintWeight` (lines 1874-1904): round the smaller of the largest box
width and the largest box height, apply a logarithm (base 10 for the
`ELEMENT_TYPES_WORSE` categories, base 2 otherwise) and floor the result
at 1. -/
noncomputable def hintWeight (elementType : ElementType) (visibleBoxes : List Box) : ℝ :=
  let weight := jsRound (min (maxOf (visibleBoxes.map Box.width))
    (maxOf (visibleBoxes.map Box.height)))
  let lg := if ELEMENT_TYPES_WORSE.contains elementType then jsLog10 else jsLog2
  max 1 (lg (weight : ℝ))

/-! ## Candidate selection and the manager lifetime -/

/-- The candidate-set selection of `getVisibleElements` (lines 956-963):
passed candidates win, else selectable queries scan the whole document,
else a bailed manager scans the whole registry (`this.elements.keys()`),
else the intersection-tracked visible set.  `allElements` stands for
`document.getElementsByTagName("*")`. -/
def getVisibleElementsCandidates (passedCandidates : Option (List Elem))
    (selectable : Bool) (allElements : List Elem) (st : MState) : List Elem :=
  match passedCandidates with
  | some cs => cs
  | none =>
      if selectable then allElements
      else if st.bailed then st.elements.map Prod.fst
      else st.visibleElements

/-- `ElementManager#onIntersection` for one non-probe entry (lines
404-412). -/
def onIntersectionStep (e : Elem) (isIntersecting : Bool) (st : MState) : MState :=
  if isIntersecting then { st with visibleElements := setAdd e st.visibleElements }
  else { st with visibleElements := setDel e st.visibleElements }

/-- `ElementManager#onFrameIntersection` for one entry (lines 422-435);
non-frame targets are ignored. -/
def onFrameIntersectionStep (isFrameElem : Bool) (e : Elem) (isIntersecting : Bool)
    (st : MState) : MState :=
  if isFrameElem then
    if isIntersecting then { st with visibleFrames := setAdd e st.visibleFrames }
    else { st with visibleFrames := setDel e st.visibleFrames }
  else st

/-- The manager-state transitions of one lifetime, between `start` and
`stop`: queue flushes under arbitrary deadlines, queueing a new item
(`queueItem`, lines 371-374), and the two intersection-observer
callbacks. -/
inductive MOp where
  | flush (d : Deadline)
  | enqueue (item : QueueItem)
  | intersect (target : Elem) (isIntersecting : Bool)
  | frameIntersect (target : Elem) (isIntersecting : Bool)

/-- One lifetime step. -/
def mopStep (env : Env) (op : MOp) (fs : FullState) : FullState :=
  match op with
  | MOp.flush d => flushQueue env d fs
  | MOp.enqueue item =>
      FullState.mk
        (Queue.mk (fs.queue.items ++ [item]) fs.queue.index fs.queue.addedElements)
        fs.reg
  | MOp.intersect e isIn => FullState.mk fs.queue (onIntersectionStep e isIn fs.reg)
  | MOp.frameIntersect e isIn =>
      FullState.mk fs.queue (onFrameIntersectionStep (env.isFrame e) e isIn fs.reg)

/-- A run of lifetime steps. -/
def runOps (env : Env) (ops : List MOp) (fs : FullState) : FullState :=
  ops.foldl (fun s op => mopStep env op s) fs

/-- The state carried by a child-loop outcome. -/
def ChildStep.st : ChildStep → RunSt
  | ChildStep.yielded _ s => s
  | ChildStep.done s _ => s

/-- The state carried by a node-body outcome. -/
def NodeBodyRes.st : NodeBodyRes → RunSt
  | NodeBodyRes.yielded _ _ s => s
  | NodeBodyRes.cont _ _ s _ => s

/-- The state carried by a cursor-loop outcome. -/
def CursorStep.st : CursorStep → RunSt
  | CursorStep.yielded _ s => s
  | CursorStep.done _ s _ => s

/-- The state carried by a records-loop outcome. -/
def RecsStep.st : RecsStep → RunSt
  | RecsStep.yielded _ _ s => s
  | RecsStep.done _ _ s _ => s

/-! ## The work measure of a queue -/

/-- Elementary units of work in one added or removed node processed from
scratch: the element step, the bookkeeping step consuming the saved
children list, and one step per descendant. -/
def nodeFull (env : Env) (n : Elem) : Nat := 2 + (env.descendants n).length

/-- Work remaining in a node list from index `i` on. -/
def listWorkFrom (env : Env) (nodes : List Elem) (i : Nat) : Nat :=
  ((nodes.drop i).map (nodeFull env)).sum

/-- Work remaining in the node a cursor points at: everything if its
element step has not run, else the unprocessed saved children plus the
bookkeeping step. -/
def nodeRem (env : Env) (n : Elem) (ci : Nat) (ch : Option (List Elem)) : Nat :=
  match ch with
  | none => nodeFull env n
  | some cs => cs.length - ci + 1

/-- Work remaining in one node phase (added or removed) of a record. -/
def phaseWork (env : Env) (nodes : List Elem) (idx ci : Nat)
    (ch : Option (List Elem)) : Nat :=
  match ch with
  | none => listWorkFrom env nodes idx
  | some cs => (cs.length - ci + 1) + listWorkFrom env nodes (idx + 1)

/-- Work remaining in one record under its cursors: the record-completion
step, plus the two phases; the shared child cursor belongs to the added
phase while it is active, to the removed phase afterwards. -/
def recordWork (env : Env) (rec : Rec) (ro : Bool) (cur : Cursors) : Nat :=
  1 + (match ro with
      | true =>
          phaseWork env rec.removedNodes cur.removedNodeIndex cur.childIndex cur.children
      | false =>
          if cur.addedNodeIndex < rec.addedNodes.length then
            phaseWork env rec.addedNodes cur.addedNodeIndex cur.childIndex cur.children +
              listWorkFrom env rec.removedNodes cur.removedNodeIndex
          else
            phaseWork env rec.removedNodes cur.removedNodeIndex cur.childIndex cur.children)

/-- Work of a record processed from fresh cursors. -/
def recordFullWork (env : Env) (rec : Rec) (ro : Bool) : Nat :=
  recordWork env rec ro Cursors.fresh

/-- Work remaining in a records batch from record `ri` on. -/
def recordsWork (env : Env) (records : List Rec) (ro : Bool) (ri : Nat)
    (cur : Cursors) : Nat :=
  if h : ri < records.length then
    recordWork env (records.get ⟨ri, h⟩) ro cur +
      ((records.drop (ri + 1)).map (fun r => recordFullWork env r ro)).sum
  else 0

/-- Work of one queue item (every item costs at least its own
completion step). -/
def itemWork (env : Env) : QueueItem → Nat
  | QueueItem.records records ri cur ro => 1 + recordsWork env records ro ri cur
  | QueueItem.clickableChanged _ _ => 1
  | QueueItem.overflowChanged _ => 1

/-- Work remaining in a queue: the unprocessed items. -/
def queueWork (env : Env) (fs : FullState) : Nat :=
  ((fs.queue.items.drop fs.queue.index).map (itemWork env)).sum

/-- Consistency of a record cursor, as the code maintains it: no saved
children means the child index was reset, and a saved children list
belongs to a still-active node of one of the two phases. -/
def curInv (rec : Rec) (ro : Bool) (cur : Cursors) : Prop :=
  (cur.children = none → cur.childIndex = 0) ∧
  (cur.children ≠ none →
    match ro with
    | true => cur.removedNodeIndex < rec.removedNodes.length
    | false => cur.addedNodeIndex < rec.addedNodes.length ∨
        cur.removedNodeIndex < rec.removedNodes.length)

/-- Cursor consistency of one stored queue item. -/
def itemInv : QueueItem → Prop
  | QueueItem.records records ri cur ro =>
      ∀ h : ri < records.length, curInv (records.get ⟨ri, h⟩) ro cur
  | QueueItem.clickableChanged _ _ => True
  | QueueItem.overflowChanged _ => True

/-- Cursor consistency of every stored queue item (fresh queues satisfy
it, and `flushQueue` preserves it). -/
def queueInv (fs : FullState) : Prop := ∀ item ∈ fs.queue.items, itemInv item

/-! ## Concrete example data -/

/-- Classifier facts of a plain `<div role="button">`. -/
def exInfoC1 : ElemInfo :=
  ⟨"DIV", false, none, "", false, "", none, false, false, some "button", false, []⟩

/-- A small concrete DOM: every node is an `HTMLElement`, none is a frame,
element `1` has the single descendant `2`, and the tracking ceiling is the
default. -/
def exEnvC1 : Env :=
  ⟨fun _ => true, fun _ => false, fun e => if e = 1 then [2] else [],
    fun _ => exInfoC1, fun _ => false, false, true,
    MAX_INTERSECTION_OBSERVED_ELEMENTS⟩

/-- An empty registry. -/
def exRegC1 : MState := ⟨[], [], [], [], [], [], [], [], false⟩

/-- A queue holding one mutation batch (element `1` added) followed by a
`ClickableChanged` message for element `1`. -/
def exFSC1 : FullState :=
  ⟨⟨[QueueItem.records [⟨[1], [], none, 0⟩] 0 Cursors.fresh false,
     QueueItem.clickableChanged 1 true], 0, []⟩, exRegC1⟩

/-- A deadline whose `timeRemaining()` is already `≤ 0` at every check. -/
def exExpired : Deadline := fun _ => true

/-- A bailed registry holding one element, with a stale visible set. -/
def exStBailedC2 : MState := ⟨[(1, ElementType.link)], [3], [], [], [], [], [], [], true⟩

/-- A not-yet-bailed registry with a tracked visible set. -/
def exStFreshC2 : MState := ⟨[(1, ElementType.link)], [3], [], [], [], [4], [], [], false⟩

/-- An empty not-yet-bailed registry about to cross the ceiling. -/
def exStTrigC2 : MState := ⟨[], [], [], [], [], [], [], [], false⟩

/-- The small DOM with the tracking ceiling turned down to zero. -/
def exEnvC2 : Env :=
  ⟨fun _ => true, fun _ => false, fun _ => [], fun _ => exInfoC1,
    fun _ => false, false, true, 0⟩

/-- A bailed manager with one queued message. -/
def exFSC2 : FullState := ⟨⟨[QueueItem.overflowChanged 2], 0, []⟩, exStBailedC2⟩

/-- A lifetime: enqueue, observer callbacks and flushes under expired and
unbounded deadlines. -/
def exOpsC2 : List MOp :=
  [MOp.enqueue (QueueItem.clickableChanged 1 true), MOp.intersect 3 false,
   MOp.flush exExpired, MOp.frameIntersect 4 true, MOp.flush infiniteDeadline]

/-- The small concrete DOM again, for the progress scenario. -/
def exEnvC10 : Env :=
  ⟨fun _ => true, fun _ => false, fun e => if e = 1 then [2] else [],
    fun _ => exInfoC1, fun _ => false, false, true,
    MAX_INTERSECTION_OBSERVED_ELEMENTS⟩

/-- A non-empty queue: one mutation batch (element 1 added, element 2
removed) and one clickable-changed message, all with fresh cursors. -/
def exFSC10 : FullState :=
  ⟨⟨[QueueItem.records [⟨[1], [2], none, 0⟩] 0 Cursors.fresh false,
     QueueItem.clickableChanged 1 true], 0, []⟩,
    ⟨[], [], [], [], [], [], [], [], false⟩⟩

/-- The small concrete DOM again, for the add-then-remove scenario. -/
def exEnvC3 : Env :=
  ⟨fun _ => true, fun _ => false, fun e => if e = 1 then [2] else [],
    fun _ => exInfoC1, fun _ => false, false, true,
    MAX_INTERSECTION_OBSERVED_ELEMENTS⟩

/-- An empty registry for the add-then-remove scenario. -/
def exRegC3 : MState := ⟨[], [], [], [], [], [], [], [], false⟩

/-! ## Theorems -/

/-- Membership in `setAdd`. -/
theorem mem_setAdd (x y : Elem) (s : List Elem) : x ∈ setAdd y s ↔ x ∈ s ∨ x = y := by
  rw [setAdd]
  split_ifs with h
  · constructor
    · exact Or.inl
    · rintro (hx | rfl) <;> assumption
  · simp

/-- Membership after folding `setAdd` over a list of sources. -/
theorem mem_foldl_setAdd_map {α : Type} (f : α → Elem) (x : Elem) (xs : List α)
    (acc : List Elem) :
    x ∈ xs.foldl (fun r a => setAdd (f a) r) acc ↔ x ∈ acc ∨ x ∈ xs.map f := by
  induction xs generalizing acc with
  | nil => simp
  | cons a rest ih =>
      rw [List.foldl_cons, ih, mem_setAdd]
      simp only [List.map_cons, List.mem_cons]
      tauto

/-- Membership after folding `setAdd` over a list of elements. -/
theorem mem_foldl_setAdd (x : Elem) (xs acc : List Elem) :
    x ∈ xs.foldl (fun r l => setAdd l r) acc ↔ x ∈ acc ∨ x ∈ xs := by
  have h := mem_foldl_setAdd_map (fun l => l) x xs acc
  simpa using h

/-- Adding a first element at a fresh key only records it in the position
map (and rejects its labels, absent here). -/
theorem Deduper.add_first (v : VisibleElem) (hl : v.labels = none) :
    emptyDeduper.add v =
      ⟨[(hintPositionKey v.measurements, [v])], []⟩ := by
  rw [Deduper.add]
  simp [hl, emptyDeduper, mapLookup, mapSet]

/-- C4: for exactly two measured elements added to the Deduper whose
quantized position keys are identical and that have no label associations,
if exactly one of them has a low-quality category, the deduper rejects
that one and only that one; if both or neither are low-quality, the
deduper rejects neither. -/
theorem deduper_same_position_pair (v1 v2 : VisibleElem)
    (hkey : hintPositionKey v1.measurements = hintPositionKey v2.measurements)
    (hl1 : v1.labels = none) (hl2 : v2.labels = none)
    (hne : v1.element ≠ v2.element) :
    ((ELEMENT_TYPES_LOW_QUALITY.contains v1.type = true ∧
        ELEMENT_TYPES_LOW_QUALITY.contains v2.type = false) →
      ((emptyDeduper.add v1).add v2).rejects v1 = true ∧
      ((emptyDeduper.add v1).add v2).rejects v2 = false) ∧
    ((ELEMENT_TYPES_LOW_QUALITY.contains v1.type = false ∧
        ELEMENT_TYPES_LOW_QUALITY.contains v2.type = true) →
      ((emptyDeduper.add v1).add v2).rejects v2 = true ∧
      ((emptyDeduper.add v1).add v2).rejects v1 = false) ∧
    (ELEMENT_TYPES_LOW_QUALITY.contains v1.type =
        ELEMENT_TYPES_LOW_QUALITY.contains v2.type →
      ((emptyDeduper.add v1).add v2).rejects v1 = false ∧
      ((emptyDeduper.add v1).add v2).rejects v2 = false) := by
  have hstep : (emptyDeduper.add v1).add v2 =
      (let elements := [v1, v2]
       let d : Deduper :=
         ⟨mapSet (hintPositionKey v2.measurements) elements
            [(hintPositionKey v1.measurements, [v1])], []⟩
       let parts := partitionBy
         (fun ve => ELEMENT_TYPES_LOW_QUALITY.contains ve.type) elements
       if parts.1.length > 0 ∧ parts.2.length > 0 then
         { d with rejected := parts.1.foldl (fun r ve => setAdd ve.element r) d.rejected }
       else d) := by
    rw [Deduper.add_first v1 hl1, Deduper.add]
    simp [hl2, ← hkey, mapLookup]
  rw [hstep]
  simp only [partitionBy, List.partition_eq_filter_filter]
  have memOf : ∀ ty : ElementType, ELEMENT_TYPES_LOW_QUALITY.contains ty = true →
      ty ∈ ELEMENT_TYPES_LOW_QUALITY := fun _ h => by simpa using h
  have notMemOf : ∀ ty : ElementType, ELEMENT_TYPES_LOW_QUALITY.contains ty = false →
      ty ∉ ELEMENT_TYPES_LOW_QUALITY := fun _ h => by simpa using h
  refine ⟨?_, ?_, ?_⟩
  · rintro ⟨h1, h2⟩
    simp [Deduper.rejects, List.filter_cons, memOf _ h1, notMemOf _ h2,
      mem_setAdd, hne, Ne.symm hne]
  · rintro ⟨h1, h2⟩
    simp [Deduper.rejects, List.filter_cons, notMemOf _ h1, memOf _ h2,
      mem_setAdd, hne, Ne.symm hne]
  · intro h12
    cases h1 : ELEMENT_TYPES_LOW_QUALITY.contains v1.type
    · have h2 : ELEMENT_TYPES_LOW_QUALITY.contains v2.type = false := h12.symm.trans h1
      simp [Deduper.rejects, List.filter_cons, notMemOf _ h1, notMemOf _ h2]
    · have h2 : ELEMENT_TYPES_LOW_QUALITY.contains v2.type = true := h12.symm.trans h1
      simp [Deduper.rejects, List.filter_cons, memOf _ h1, memOf _ h2]

/-- Witness for C4: a clickable-event wrapper and a clickable element at
the same quantized position; only the wrapper is rejected. -/
theorem deduper_same_position_pair_witness :
    ((emptyDeduper.add
        ⟨1, ElementType.clickableEvent, ⟨10, 20, Align.left, 50, 0⟩, true, none⟩).add
        ⟨2, ElementType.clickable, ⟨10, 20, Align.left, 60, 0⟩, false, none⟩).rejects
      ⟨1, ElementType.clickableEvent, ⟨10, 20, Align.left, 50, 0⟩, true, none⟩ = true ∧
    ((emptyDeduper.add
        ⟨1, ElementType.clickableEvent, ⟨10, 20, Align.left, 50, 0⟩, true, none⟩).add
        ⟨2, ElementType.clickable, ⟨10, 20, Align.left, 60, 0⟩, false, none⟩).rejects
      ⟨2, ElementType.clickable, ⟨10, 20, Align.left, 60, 0⟩, false, none⟩ = false := by
  exact (deduper_same_position_pair
    ⟨1, ElementType.clickableEvent, ⟨10, 20, Align.left, 50, 0⟩, true, none⟩
    ⟨2, ElementType.clickable, ⟨10, 20, Align.left, 60, 0⟩, false, none⟩
    rfl rfl rfl (by decide)).1 (by constructor <;> decide)

/-- C5: order-independence of label suppression: adding a form control and
one of its associated labels to the Deduper, in either order, always
rejects the label and never the control. -/
theorem deduper_label_suppression (vc vl : VisibleElem) (ls : List Elem)
    (hlabels : vc.labels = some ls) (hmem : vl.element ∈ ls)
    (hvlabels : vl.labels = none)
    (hcgood : ELEMENT_TYPES_LOW_QUALITY.contains vc.type = false)
    (hcnotls : vc.element ∉ ls) :
    (((emptyDeduper.add vc).add vl).rejects vl = true ∧
     ((emptyDeduper.add vc).add vl).rejects vc = false) ∧
    (((emptyDeduper.add vl).add vc).rejects vl = true ∧
     ((emptyDeduper.add vl).add vc).rejects vc = false) := by
  have hne : vc.element ≠ vl.element := fun h => hcnotls (h ▸ hmem)
  have hfold : ∀ x : Elem, x ∈ ls.foldl (fun r l => setAdd l r) [] ↔ x ∈ ls := by
    intro x
    rw [mem_foldl_setAdd]
    simp
  have hmemvl : ∀ R : List Elem, vl.element ∈ setAdd vl.element R := by
    intro R
    rw [mem_setAdd]
    exact Or.inr rfl
  have hnomemvc : ∀ R : List Elem, (∀ x ∈ R, x ∈ ls) → vc.element ∉ setAdd vl.element R := by
    intro R hR hmemv
    rcases (mem_setAdd _ _ _).mp hmemv with h | h
    · exact hcnotls (hR _ h)
    · exact hne h
  have hfold2 : ∀ x : Elem, x ∈ ls.foldl (fun r l => setAdd l r) [] → x ∈ ls := by
    intro x hx
    exact (hfold x).mp hx
  constructor
  · -- control first, then label
    have hc1 : emptyDeduper.add vc =
        ⟨[(hintPositionKey vc.measurements, [vc])],
          ls.foldl (fun r l => setAdd l r) []⟩ := by
      rw [Deduper.add]
      simp [hlabels, emptyDeduper, mapLookup, mapSet]
    by_cases hk : hintPositionKey vl.measurements = hintPositionKey vc.measurements
    · have hstep : (emptyDeduper.add vc).add vl =
          (let elements := [vc, vl]
           let d : Deduper :=
             ⟨mapSet (hintPositionKey vl.measurements) elements
                [(hintPositionKey vc.measurements, [vc])],
              ls.foldl (fun r l => setAdd l r) []⟩
           let parts := partitionBy
             (fun ve => ELEMENT_TYPES_LOW_QUALITY.contains ve.type) elements
           if parts.1.length > 0 ∧ parts.2.length > 0 then
             { d with rejected := parts.1.foldl (fun r ve => setAdd ve.element r) d.rejected }
           else d) := by
        rw [hc1, Deduper.add]
        simp [hvlabels, hk, mapLookup]
      rw [hstep]
      simp only [partitionBy, List.partition_eq_filter_filter]
      have mc : vc.type ∉ ELEMENT_TYPES_LOW_QUALITY := by simpa using hcgood
      by_cases mb : vl.type ∈ ELEMENT_TYPES_LOW_QUALITY
      · simp [Deduper.rejects, List.filter_cons, mc, mb, mem_setAdd, hfold,
          hcnotls, hne, hmem]
      · simp [Deduper.rejects, List.filter_cons, mc, mb, hfold, hcnotls, hmem]
    · have hstep : (emptyDeduper.add vc).add vl =
          ⟨mapSet (hintPositionKey vl.measurements) [vl]
             [(hintPositionKey vc.measurements, [vc])],
           ls.foldl (fun r l => setAdd l r) []⟩ := by
        rw [hc1, Deduper.add]
        simp [hvlabels, mapLookup, Ne.symm hk]
      rw [hstep]
      simp [Deduper.rejects, hfold, hcnotls, hmem]
  · -- label first, then control
    have hc1 : emptyDeduper.add vl =
        ⟨[(hintPositionKey vl.measurements, [vl])], []⟩ :=
      Deduper.add_first vl hvlabels
    by_cases hk : hintPositionKey vc.measurements = hintPositionKey vl.measurements
    · have hstep : (emptyDeduper.add vl).add vc =
          (let elements := [vl, vc]
           let d : Deduper :=
             ⟨mapSet (hintPositionKey vc.measurements) elements
                [(hintPositionKey vl.measurements, [vl])],
              ls.foldl (fun r l => setAdd l r) []⟩
           let parts := partitionBy
             (fun ve => ELEMENT_TYPES_LOW_QUALITY.contains ve.type) elements
           if parts.1.length > 0 ∧ parts.2.length > 0 then
             { d with rejected := parts.1.foldl (fun r ve => setAdd ve.element r) d.rejected }
           else d) := by
        rw [hc1, Deduper.add]
        simp [hlabels, hk, mapLookup]
      rw [hstep]
      simp only [partitionBy, List.partition_eq_filter_filter]
      have mc : vc.type ∉ ELEMENT_TYPES_LOW_QUALITY := by simpa using hcgood
      by_cases mb : vl.type ∈ ELEMENT_TYPES_LOW_QUALITY
      · simp [Deduper.rejects, List.filter_cons, mc, mb, mem_setAdd, hfold,
          hcnotls, hne, hmem]
      · simp [Deduper.rejects, List.filter_cons, mc, mb, hfold, hcnotls, hmem]
    · have hstep : (emptyDeduper.add vl).add vc =
          ⟨mapSet (hintPositionKey vc.measurements) [vc]
             [(hintPositionKey vl.measurements, [vl])],
           ls.foldl (fun r l => setAdd l r) []⟩ := by
        rw [hc1, Deduper.add]
        simp [hlabels, mapLookup, Ne.symm hk]
      rw [hstep]
      simp [Deduper.rejects, hfold, hcnotls, hmem]

/-- Witness for C5: a label (element 3) wrapping a tracked checkbox
(element 4): after both additions, in either order, the label is rejected
and the checkbox kept. -/
theorem deduper_label_suppression_witness :
    (((emptyDeduper.add
        ⟨4, ElementType.clickable, ⟨5, 6, Align.right, 9, 0⟩, false, some [3]⟩).add
        ⟨3, ElementType.label, ⟨5, 6, Align.right, 9, 0⟩, false, none⟩).rejects
      ⟨3, ElementType.label, ⟨5, 6, Align.right, 9, 0⟩, false, none⟩ = true ∧
     ((emptyDeduper.add
        ⟨4, ElementType.clickable, ⟨5, 6, Align.right, 9, 0⟩, false, some [3]⟩).add
        ⟨3, ElementType.label, ⟨5, 6, Align.right, 9, 0⟩, false, none⟩).rejects
      ⟨4, ElementType.clickable, ⟨5, 6, Align.right, 9, 0⟩, false, some [3]⟩ = false) ∧
    (((emptyDeduper.add
        ⟨3, ElementType.label, ⟨5, 6, Align.right, 9, 0⟩, false, none⟩).add
        ⟨4, ElementType.clickable, ⟨5, 6, Align.right, 9, 0⟩, false, some [3]⟩).rejects
      ⟨3, ElementType.label, ⟨5, 6, Align.right, 9, 0⟩, false, none⟩ = true ∧
     ((emptyDeduper.add
        ⟨3, ElementType.label, ⟨5, 6, Align.right, 9, 0⟩, false, none⟩).add
        ⟨4, ElementType.clickable, ⟨5, 6, Align.right, 9, 0⟩, false, some [3]⟩).rejects
      ⟨4, ElementType.clickable, ⟨5, 6, Align.right, 9, 0⟩, false, some [3]⟩ = false) := by
  exact deduper_label_suppression
    ⟨4, ElementType.clickable, ⟨5, 6, Align.right, 9, 0⟩, false, some [3]⟩
    ⟨3, ElementType.label, ⟨5, 6, Align.right, 9, 0⟩, false, none⟩
    [3] rfl (by decide) rfl (by decide) (by decide)


/-- C9 counterexample: for a single 5x5 visible box of a `clickable`
element the weight is `log2 5`, which lies strictly between 2 and 3 and
hence is not an integer, contradicting the claim that the produced weight
is an integer. -/
theorem hint_weight_counterexample :
    ¬ ∃ n : ℤ, hintWeight ElementType.clickable [⟨0, 0, 5, 5⟩] = (n : ℝ) := by
  have hval : hintWeight ElementType.clickable [⟨0, 0, 5, 5⟩] = Real.logb 2 5 := by
    have h5 : ((jsRound (min (maxOf ([(⟨0, 0, 5, 5⟩ : Box)].map Box.width))
        (maxOf ([(⟨0, 0, 5, 5⟩ : Box)].map Box.height))) : ℤ) : ℝ) = 5 := by
      norm_num [jsRound, maxOf, Box.width, Box.height]
    rw [hintWeight]
    simp only [ELEMENT_TYPES_WORSE, List.contains, h5]
    rw [if_neg (by decide)]
    have hgt : (2 : ℝ) < Real.logb 2 5 := by
      rw [Real.lt_logb_iff_rpow_lt (by norm_num) (by norm_num)]
      rw [show ((2 : ℝ) ^ (2 : ℝ)) = (2 : ℝ) ^ (2 : ℕ) by
        rw [← Real.rpow_natCast 2 2]; norm_num]
      norm_num
    simp only [jsLog2, h5]
    exact max_eq_right (by linarith)
  rw [hval]
  rintro ⟨n, hn⟩
  have hgt : (2 : ℝ) < Real.logb 2 5 := by
    rw [Real.lt_logb_iff_rpow_lt (by norm_num) (by norm_num)]
    rw [show ((2 : ℝ) ^ (2 : ℝ)) = (2 : ℝ) ^ (2 : ℕ) by
      rw [← Real.rpow_natCast 2 2]; norm_num]
    norm_num
  have hlt : Real.logb 2 5 < 3 := by
    rw [Real.logb_lt_iff_lt_rpow (by norm_num) (by norm_num)]
    rw [show ((2 : ℝ) ^ (3 : ℝ)) = (2 : ℝ) ^ (3 : ℕ) by
      rw [← Real.rpow_natCast 2 3]; norm_num]
    norm_num
  rw [hn] at hgt hlt
  have h2 : (2 : ℤ) < n := by exact_mod_cast hgt
  have h3 : n < (3 : ℤ) := by exact_mod_cast hlt
  omega

/-- C9 (amended): for every non-empty list of visible boxes and every
element category, the hint weight equals
`max 1 (lg (round (min (max box width) (max box height))))` where `lg` is
log base 10 for the worse categories (scrollable, selectable) and log
base 2 otherwise; the produced weight is a real number of minimum value 1,
ordered along the rounded size (but not an integer in general). -/
theorem hint_weight_formula (ty : ElementType) (boxes : List Box)
    (h : boxes ≠ []) :
    (hintWeight ty boxes =
      max 1 ((if ELEMENT_TYPES_WORSE.contains ty then jsLog10 else jsLog2)
        ((jsRound (min (maxOf (boxes.map Box.width))
          (maxOf (boxes.map Box.height))) : ℤ) : ℝ))) ∧
    1 ≤ hintWeight ty boxes ∧
    (∀ boxes2 : List Box, boxes2 ≠ [] →
      1 ≤ jsRound (min (maxOf (boxes.map Box.width)) (maxOf (boxes.map Box.height))) →
      jsRound (min (maxOf (boxes.map Box.width)) (maxOf (boxes.map Box.height))) ≤
        jsRound (min (maxOf (boxes2.map Box.width)) (maxOf (boxes2.map Box.height))) →
      hintWeight ty boxes ≤ hintWeight ty boxes2) := by
  refine ⟨rfl, le_max_left 1 _, ?_⟩
  intro boxes2 _h2 h1 hle
  rw [hintWeight, hintWeight]
  apply max_le_max le_rfl
  set w1 := jsRound (min (maxOf (boxes.map Box.width)) (maxOf (boxes.map Box.height)))
  set w2 := jsRound (min (maxOf (boxes2.map Box.width)) (maxOf (boxes2.map Box.height)))
  have hw1 : (0 : ℝ) < (w1 : ℝ) := by exact_mod_cast lt_of_lt_of_le Int.zero_lt_one h1
  have hw12 : ((w1 : ℝ)) ≤ ((w2 : ℝ)) := by exact_mod_cast hle
  split_ifs
  · exact Real.logb_le_logb_of_le (by norm_num) hw1 hw12
  · exact Real.logb_le_logb_of_le (by norm_num) hw1 hw12

/-- Witness for C9 at a concrete scrollable element with one 100x1000
box: the weight is `max 1 (log10 100)`. -/
theorem hint_weight_formula_witness :
    hintWeight ElementType.scrollable [⟨0, 0, 100, 1000⟩] =
      max 1 ((if ELEMENT_TYPES_WORSE.contains ElementType.scrollable then jsLog10 else jsLog2)
        ((jsRound (min (maxOf ([(⟨0, 0, 100, 1000⟩ : Box)].map Box.width))
          (maxOf ([(⟨0, 0, 100, 1000⟩ : Box)].map Box.height))) : ℤ) : ℝ)) := by
  exact (hint_weight_formula ElementType.scrollable [⟨0, 0, 100, 1000⟩]
    (by simp)).1

/-- C8 counterexample: a lone 20x20 radio input (no text anchor, no
images): the chosen point has right alignment but its x coordinate is the
left edge of the visible box, not the right edge, contradicting the claim
that the anchor point lies at the element's right edge. -/
theorem radio_anchor_point_counterexample :
    (getSingleRectPoint ⟨true, "radio", false, false, [], [], 0, false⟩
        ElementType.clickable ⟨0, 0, 20, 20⟩ ⟨0, 0, 20, 20⟩).align = Align.right ∧
    (getSingleRectPoint ⟨true, "radio", false, false, [], [], 0, false⟩
        ElementType.clickable ⟨0, 0, 20, 20⟩ ⟨0, 0, 20, 20⟩).x = 0 ∧
    (0 : ℚ) ≠ (⟨0, 0, 20, 20⟩ : Box).x + (⟨0, 0, 20, 20⟩ : Box).width := by
  have h : getSingleRectPoint ⟨true, "radio", false, false, [], [], 0, false⟩
      ElementType.clickable ⟨0, 0, 20, 20⟩ ⟨0, 0, 20, 20⟩ =
      ⟨0, 0 + 20 / 2, Align.right⟩ := by
    rw [getSingleRectPoint]
    norm_num [MIN_HEIGHT_BOX, getBestNonEmptyTextPoint, getFirstImagePoint, getXY]
    rfl
  rw [h]
  norm_num

/-- C8 (amended): for every `<input type="radio">` (or checkbox) element
measured alone — a single client rectangle shorter than the minimum-height
threshold, with no acceptable text-node anchor and no descendant image —
the chosen hint anchor is the `getXY` point of the visible box (its left
edge x, vertically centered) with `right` alignment, never a point
produced by the text-anchor branch. -/
theorem radio_anchor_point (ge : GeomElem) (elementType : ElementType)
    (rect : Rect) (visibleBox : Box)
    (hinput : ge.isHTMLInputElement = true)
    (htype : ge.inputType = "checkbox" ∨ ge.inputType = "radio")
    (hty1 : elementType ≠ ElementType.scrollable)
    (hty2 : elementType ≠ ElementType.textarea)
    (hty3 : elementType ≠ ElementType.selectable)
    (hshort : rect.height < MIN_HEIGHT_BOX)
    (hsel : ge.isHTMLSelectElement = false)
    (hcanvas : ge.isHTMLCanvasElement = false)
    (htext : getBestNonEmptyTextPoint ge.textRects ge.images rect
      (fun p => isWithin p visibleBox) false = none)
    (himg : getFirstImagePoint ge.images = none) :
    getSingleRectPoint ge elementType rect visibleBox =
      ⟨(getXY visibleBox).1, (getXY visibleBox).2, Align.right⟩ := by
  rw [getSingleRectPoint]
  rw [if_neg hty1, if_neg (by push_neg; exact ⟨hty2, fun _ => hshort⟩)]
  simp only [hsel, hcanvas, or_self, Bool.false_eq_true, not_false_iff, if_true,
    decide_eq_false hty3, htext, himg, hinput, htype]
  simp [htype]

/-- Witness for C8 at the concrete 20x20 radio input. -/
theorem radio_anchor_point_witness :
    getSingleRectPoint ⟨true, "radio", false, false, [], [], 0, false⟩
        ElementType.clickable ⟨0, 0, 20, 20⟩ ⟨0, 0, 20, 20⟩ =
      ⟨(getXY ⟨0, 0, 20, 20⟩).1, (getXY ⟨0, 0, 20, 20⟩).2, Align.right⟩ := by
  exact radio_anchor_point ⟨true, "radio", false, false, [], [], 0, false⟩
    ElementType.clickable ⟨0, 0, 20, 20⟩ ⟨0, 0, 20, 20⟩
    rfl (Or.inr rfl) (by decide) (by decide) (by decide)
    (by norm_num [MIN_HEIGHT_BOX]) rfl rfl rfl rfl

/-- Characterization of `getLinkElementType`: it yields `link` exactly for a
present, non-empty, non-`"#"` href attribute with an allowed protocol. -/
theorem getLinkElementType_eq_link_iff (chrome : Bool) (e : ElemInfo) :
    getLinkElementType chrome e = ElementType.link ↔
      ∃ s, e.hrefAttr = some s ∧ s ≠ "" ∧ s ≠ "#" ∧
        e.protocol ∈ PROTOCOLS_LINK chrome := by
  rcases h : e.hrefAttr with _ | s
  · simp [getLinkElementType, h]
  · rw [getLinkElementType, h]
    simp only []
    split_ifs with hcond
    · simp only [true_iff]
      exact ⟨s, rfl, hcond.1, hcond.2.1, List.elem_iff.mp hcond.2.2⟩
    · constructor
      · intro hfalse; cases hfalse
      · rintro ⟨s2, hs2, h1, h2, h3⟩
        injection hs2 with hh; subst hh
        exact absurd ⟨h1, h2, List.elem_iff.mpr h3⟩ hcond

/-- `getLinkElementType` returns either `link` or `clickable`. -/
theorem getLinkElementType_link_or_clickable (chrome : Bool) (e : ElemInfo) :
    getLinkElementType chrome e = ElementType.link ∨
      getLinkElementType chrome e = ElementType.clickable := by
  rw [getLinkElementType]
  rcases e.hrefAttr with _ | s
  · exact Or.inr rfl
  · simp only []
    split_ifs
    · exact Or.inl rfl
    · exact Or.inr rfl

/-- C6: for every anchor element (`nodeName = "A"`, an `HTMLAnchorElement`),
classification returns `link` if and only if its href attribute is a
non-empty string other than `"#"` and its resolved protocol is in the
allowed set (`http:`, `https:`, `ftp:`, `chrome-extension:`,
`moz-extension:`, plus `file:` only on the Chrome build); any other anchor
element is classified `clickable`. -/
theorem anchor_classification (chrome top sb cl : Bool) (e : ElemInfo)
    (hA : e.nodeName = "A") (hInst : e.isHTMLAnchorElement = true) :
    (getElementType chrome top sb cl e = some ElementType.link ↔
      ∃ s, e.hrefAttr = some s ∧ s ≠ "" ∧ s ≠ "#" ∧
        e.protocol ∈ PROTOCOLS_LINK chrome) ∧
    (getElementType chrome top sb cl e = some ElementType.link ∨
      getElementType chrome top sb cl e = some ElementType.clickable) := by
  have hget : getElementType chrome top sb cl e = some (getLinkElementType chrome e) := by
    rw [getElementType]
    simp [hA, hInst]
  rw [hget]
  simp only [Option.some_inj]
  exact ⟨getLinkElementType_eq_link_iff chrome e,
    getLinkElementType_link_or_clickable chrome e⟩

/-- Witness for C6 at a concrete https anchor on the Chrome build. -/
theorem anchor_classification_witness :
    getElementType true true false false
      ⟨"A", true, some "https://example.test/", "https:", false, "",
        none, false, false, none, false, []⟩ = some ElementType.link := by
  exact (anchor_classification true true false false
      ⟨"A", true, some "https://example.test/", "https:", false, "",
        none, false, false, none, false, []⟩ rfl rfl).1.mpr
    ⟨"https://example.test/", rfl, by decide, by decide, by decide⟩

/-- C7: for the document root `<html>` or `<body>` element, classification
never returns `clickable`, `clickable-event` or `label` (it returns `none`
in those cases), but the earlier checks still apply: a
non-inherit/non-false `contentEditable` state yields `textarea`, and a
scrollbar mark yields `scrollable` except when the element is the
document root scrolling element in the top-level viewing context. -/
theorem root_element_classification (chrome top sb cl : Bool) (e : ElemInfo)
    (hroot : e.isDocumentElementOrBody = true)
    (hname : e.nodeName = "HTML" ∨ e.nodeName = "BODY") :
    (getElementType chrome top sb cl e ≠ some ElementType.clickable ∧
     getElementType chrome top sb cl e ≠ some ElementType.clickableEvent ∧
     getElementType chrome top sb cl e ≠ some ElementType.label) ∧
    (isContentEditableOn e.contentEditable = true →
      getElementType chrome top sb cl e = some ElementType.textarea) ∧
    (isContentEditableOn e.contentEditable = false →
      (sb = true ∧ ¬ (e.isScrollingElement = true ∧ top = true) →
        getElementType chrome top sb cl e = some ElementType.scrollable) ∧
      ((sb = true → e.isScrollingElement = true ∧ top = true) →
        getElementType chrome top sb cl e = none)) := by
  have hswitch : getElementType chrome top sb cl e =
      (if isContentEditableOn e.contentEditable then some ElementType.textarea
       else if sb ∧ ¬ (e.isScrollingElement ∧ top) then some ElementType.scrollable
       else none) := by
    rcases hname with h | h <;>
      · rw [getElementType]
        simp only [h]
        norm_num
        split_ifs with h1 h2 <;> simp_all [getElementType]
  rw [hswitch]
  refine ⟨?_, ?_, ?_⟩
  · split_ifs <;> simp
  · intro hce
    simp [hce]
  · intro hce
    constructor
    · rintro ⟨hsb, hnot⟩
      simp only [hce, Bool.false_eq_true, if_false]
      rw [if_pos]
      exact ⟨by simp [hsb], by simpa using hnot⟩
    · intro himp
      simp only [hce, Bool.false_eq_true, if_false]
      rw [if_neg]
      rintro ⟨hsb, hnot⟩
      rcases himp (by simpa using hsb) with ⟨h1, h2⟩
      exact hnot.elim (by simp [h1, h2])

/-- Witness for C7: the root `<html>` element with a scrollbar mark inside a
frame (not the top window) classifies `scrollable`. -/
theorem root_element_classification_witness :
    getElementType false false true true
      ⟨"HTML", false, none, "", false, "", some "inherit", true, true,
        some "button", true, ["jsaction"]⟩ = some ElementType.scrollable := by
  refine (((root_element_classification false false true true
      ⟨"HTML", false, none, "", false, "", some "inherit", true, true,
        some "button", true, ["jsaction"]⟩ rfl (Or.inl rfl)).2.2 (by decide)).1 ?_)
  exact ⟨rfl, by decide⟩

/-! ### Time-slice invariance: the child loops -/

/-- Under the unbounded budget the added-children loop never yields and
computes the straight-line drain. -/
theorem addChildrenLoop_inf (env : Env) (children : List Elem) :
    ∀ n startChildIndex childIndex s k, children.length - childIndex ≤ n →
      ∃ k2, addChildrenLoop env infiniteDeadline children startChildIndex childIndex s k =
        ChildStep.done (addChildrenAll env children childIndex s) k2 := by
  intro n
  induction n with
  | zero =>
      intro sc ci s k hle
      have hnot : ¬ ci < children.length := by omega
      rw [addChildrenLoop, addChildrenAll]
      simp [hnot]
  | succ n ih =>
      intro sc ci s k hle
      by_cases h : ci < children.length
      · rw [addChildrenLoop, addChildrenAll]
        rw [dif_pos h, dif_pos h]
        rw [if_neg (by simp [infiniteDeadline])]
        exact ih sc (ci + 1) _ _ (by omega)
      · rw [addChildrenLoop, addChildrenAll]
        simp [h]

/-- A yield of the added-children loop preserves the straight-line drain:
resuming from the saved cursor reaches the same state. -/
theorem addChildrenLoop_yield (env : Env) (d : Deadline) (children : List Elem) :
    ∀ n startChildIndex childIndex s k ci' s',
      children.length - childIndex ≤ n →
      addChildrenLoop env d children startChildIndex childIndex s k =
        ChildStep.yielded ci' s' →
      addChildrenAll env children ci' s' = addChildrenAll env children childIndex s := by
  intro n
  induction n with
  | zero =>
      intro sc ci s k ci' s' hle heq
      have hnot : ¬ ci < children.length := by omega
      rw [addChildrenLoop] at heq
      simp [hnot] at heq
  | succ n ih =>
      intro sc ci s k ci' s' hle heq
      by_cases h : ci < children.length
      · rw [addChildrenLoop, dif_pos h] at heq
        by_cases hg : ci > sc ∧ d k = true
        · rw [if_pos hg] at heq
          injection heq with h1 h2
          subst h1; subst h2
          rfl
        · rw [if_neg hg] at heq
          have := ih sc (ci + 1) _ _ ci' s' (by omega) heq
          rw [this]
          conv_rhs => rw [addChildrenAll, dif_pos h]
      · rw [addChildrenLoop] at heq
        simp [h] at heq

/-- A completed run of the added-children loop computes the straight-line
drain. -/
theorem addChildrenLoop_done (env : Env) (d : Deadline) (children : List Elem) :
    ∀ n startChildIndex childIndex s k s' k',
      children.length - childIndex ≤ n →
      addChildrenLoop env d children startChildIndex childIndex s k =
        ChildStep.done s' k' →
      s' = addChildrenAll env children childIndex s := by
  intro n
  induction n with
  | zero =>
      intro sc ci s k s' k' hle heq
      have hnot : ¬ ci < children.length := by omega
      rw [addChildrenLoop] at heq
      rw [addChildrenAll]
      simp [hnot] at heq ⊢
      exact heq.1.symm
  | succ n ih =>
      intro sc ci s k s' k' hle heq
      by_cases h : ci < children.length
      · rw [addChildrenLoop, dif_pos h] at heq
        by_cases hg : ci > sc ∧ d k = true
        · rw [if_pos hg] at heq
          cases heq
        · rw [if_neg hg] at heq
          have := ih sc (ci + 1) _ _ s' k' (by omega) heq
          rw [this]
          conv_rhs => rw [addChildrenAll, dif_pos h]
      · rw [addChildrenLoop] at heq
        rw [addChildrenAll]
        simp [h] at heq ⊢
        exact heq.1.symm

/-- Under the unbounded budget the removed-children loop never yields. -/
theorem removedChildrenLoop_inf (env : Env) (children : List Elem) :
    ∀ n startChildIndex childIndex s k, children.length - childIndex ≤ n →
      ∃ k2, removedChildrenLoop env infiniteDeadline children startChildIndex childIndex s k =
        ChildStep.done (removedChildrenAll env children childIndex s) k2 := by
  intro n
  induction n with
  | zero =>
      intro sc ci s k hle
      have hnot : ¬ ci < children.length := by omega
      rw [removedChildrenLoop, removedChildrenAll]
      simp [hnot]
  | succ n ih =>
      intro sc ci s k hle
      by_cases h : ci < children.length
      · rw [removedChildrenLoop, removedChildrenAll]
        rw [dif_pos h, dif_pos h]
        rw [if_neg (by simp [infiniteDeadline])]
        exact ih sc (ci + 1) _ _ (by omega)
      · rw [removedChildrenLoop, removedChildrenAll]
        simp [h]

/-- A yield of the removed-children loop preserves the straight-line
drain. -/
theorem removedChildrenLoop_yield (env : Env) (d : Deadline) (children : List Elem) :
    ∀ n startChildIndex childIndex s k ci' s',
      children.length - childIndex ≤ n →
      removedChildrenLoop env d children startChildIndex childIndex s k =
        ChildStep.yielded ci' s' →
      removedChildrenAll env children ci' s' =
        removedChildrenAll env children childIndex s := by
  intro n
  induction n with
  | zero =>
      intro sc ci s k ci' s' hle heq
      have hnot : ¬ ci < children.length := by omega
      rw [removedChildrenLoop] at heq
      simp [hnot] at heq
  | succ n ih =>
      intro sc ci s k ci' s' hle heq
      by_cases h : ci < children.length
      · rw [removedChildrenLoop, dif_pos h] at heq
        by_cases hg : ci > sc ∧ d k = true
        · rw [if_pos hg] at heq
          injection heq with h1 h2
          subst h1; subst h2
          rfl
        · rw [if_neg hg] at heq
          have := ih sc (ci + 1) _ _ ci' s' (by omega) heq
          rw [this]
          conv_rhs => rw [removedChildrenAll, dif_pos h]
      · rw [removedChildrenLoop] at heq
        simp [h] at heq

/-- A completed run of the removed-children loop computes the
straight-line drain. -/
theorem removedChildrenLoop_done (env : Env) (d : Deadline) (children : List Elem) :
    ∀ n startChildIndex childIndex s k s' k',
      children.length - childIndex ≤ n →
      removedChildrenLoop env d children startChildIndex childIndex s k =
        ChildStep.done s' k' →
      s' = removedChildrenAll env children childIndex s := by
  intro n
  induction n with
  | zero =>
      intro sc ci s k s' k' hle heq
      have hnot : ¬ ci < children.length := by omega
      rw [removedChildrenLoop] at heq
      rw [removedChildrenAll]
      simp [hnot] at heq ⊢
      exact heq.1.symm
  | succ n ih =>
      intro sc ci s k s' k' hle heq
      by_cases h : ci < children.length
      · rw [removedChildrenLoop, dif_pos h] at heq
        by_cases hg : ci > sc ∧ d k = true
        · rw [if_pos hg] at heq
          cases heq
        · rw [if_neg hg] at heq
          have := ih sc (ci + 1) _ _ s' k' (by omega) heq
          rw [this]
          conv_rhs => rw [removedChildrenAll, dif_pos h]
      · rw [removedChildrenLoop] at heq
        rw [removedChildrenAll]
        simp [h] at heq ⊢
        exact heq.1.symm

/-! ### Time-slice invariance: the node bodies -/

/-- `addChildrenAll` on an exhausted cursor is the identity. -/
theorem addChildrenAll_of_ge (env : Env) (children : List Elem) (ci : Nat)
    (s : RunSt) (h : ¬ ci < children.length) :
    addChildrenAll env children ci s = s := by
  rw [addChildrenAll]
  simp [h]

/-- `removedChildrenAll` on an exhausted cursor is the identity. -/
theorem removedChildrenAll_of_ge (env : Env) (children : List Elem) (ci : Nat)
    (s : RunSt) (h : ¬ ci < children.length) :
    removedChildrenAll env children ci s = s := by
  rw [removedChildrenAll]
  simp [h]

/-- Unbounded run of the added-children block. -/
theorem runAddChildren_inf (env : Env) (children : List Elem) (ci : Nat)
    (s : RunSt) (k : Nat) :
    ∃ k2, runAddChildren env infiniteDeadline children ci s k =
      NodeBodyRes.cont 0 none (addChildrenAll env children ci s) k2 := by
  rw [runAddChildren]
  by_cases h : children.length > 0
  · rw [if_pos h]
    obtain ⟨k2, heq⟩ := addChildrenLoop_inf env children (children.length - ci) ci ci s k le_rfl
    rw [heq]
    exact ⟨k2, rfl⟩
  · rw [if_neg h]
    rw [addChildrenAll_of_ge env children ci s (by omega)]
    exact ⟨k, rfl⟩

/-- A yield of the added-children block saves the children list and
preserves the drain. -/
theorem runAddChildren_yield (env : Env) (d : Deadline) (children : List Elem)
    (ci : Nat) (s : RunSt) (k : Nat) (ci' : Nat) (ch' : Option (List Elem)) (s' : RunSt)
    (heq : runAddChildren env d children ci s k = NodeBodyRes.yielded ci' ch' s') :
    ch' = some children ∧
      addChildrenAll env children ci' s' = addChildrenAll env children ci s := by
  rw [runAddChildren] at heq
  by_cases h : children.length > 0
  · rw [if_pos h] at heq
    cases hstep : addChildrenLoop env d children ci ci s k with
    | yielded ci2 s2 =>
        rw [hstep] at heq
        injection heq with h1 h2 h3
        subst h1; subst h2; subst h3
        exact ⟨rfl, addChildrenLoop_yield env d children (children.length - ci)
          ci ci s k _ _ le_rfl hstep⟩
    | done s2 k2 =>
        rw [hstep] at heq
        cases heq
  · rw [if_neg h] at heq
    cases heq

/-- A completed run of the added-children block resets the cursors and
computes the drain. -/
theorem runAddChildren_done (env : Env) (d : Deadline) (children : List Elem)
    (ci : Nat) (s : RunSt) (k : Nat) (ci' : Nat) (ch' : Option (List Elem))
    (s' : RunSt) (k' : Nat)
    (heq : runAddChildren env d children ci s k = NodeBodyRes.cont ci' ch' s' k') :
    ci' = 0 ∧ ch' = none ∧ s' = addChildrenAll env children ci s := by
  rw [runAddChildren] at heq
  by_cases h : children.length > 0
  · rw [if_pos h] at heq
    cases hstep : addChildrenLoop env d children ci ci s k with
    | yielded ci2 s2 =>
        rw [hstep] at heq
        cases heq
    | done s2 k2 =>
        rw [hstep] at heq
        injection heq with h1 h2 h3 h4
        subst h1; subst h2; subst h3
        exact ⟨rfl, rfl, (addChildrenLoop_done env d children (children.length - ci)
          ci ci s k _ _ le_rfl hstep)⟩
  · rw [if_neg h] at heq
    injection heq with h1 h2 h3 h4
    subst h1; subst h2; subst h3
    exact ⟨rfl, rfl, (addChildrenAll_of_ge env children ci s (by omega)).symm⟩

/-- Unbounded run of the removed-children block. -/
theorem runRemovedChildren_inf (env : Env) (children : List Elem) (ci : Nat)
    (s : RunSt) (k : Nat) :
    ∃ k2, runRemovedChildren env infiniteDeadline children ci s k =
      NodeBodyRes.cont 0 none (removedChildrenAll env children ci s) k2 := by
  rw [runRemovedChildren]
  by_cases h : children.length > 0
  · rw [if_pos h]
    obtain ⟨k2, heq⟩ := removedChildrenLoop_inf env children (children.length - ci) ci ci s k le_rfl
    rw [heq]
    exact ⟨k2, rfl⟩
  · rw [if_neg h]
    rw [removedChildrenAll_of_ge env children ci s (by omega)]
    exact ⟨k, rfl⟩

/-- A yield of the removed-children block saves the children list and
preserves the drain. -/
theorem runRemovedChildren_yield (env : Env) (d : Deadline) (children : List Elem)
    (ci : Nat) (s : RunSt) (k : Nat) (ci' : Nat) (ch' : Option (List Elem)) (s' : RunSt)
    (heq : runRemovedChildren env d children ci s k = NodeBodyRes.yielded ci' ch' s') :
    ch' = some children ∧
      removedChildrenAll env children ci' s' = removedChildrenAll env children ci s := by
  rw [runRemovedChildren] at heq
  by_cases h : children.length > 0
  · rw [if_pos h] at heq
    cases hstep : removedChildrenLoop env d children ci ci s k with
    | yielded ci2 s2 =>
        rw [hstep] at heq
        injection heq with h1 h2 h3
        subst h1; subst h2; subst h3
        exact ⟨rfl, removedChildrenLoop_yield env d children (children.length - ci)
          ci ci s k _ _ le_rfl hstep⟩
    | done s2 k2 =>
        rw [hstep] at heq
        cases heq
  · rw [if_neg h] at heq
    cases heq

/-- A completed run of the removed-children block resets the cursors and
computes the drain. -/
theorem runRemovedChildren_done (env : Env) (d : Deadline) (children : List Elem)
    (ci : Nat) (s : RunSt) (k : Nat) (ci' : Nat) (ch' : Option (List Elem))
    (s' : RunSt) (k' : Nat)
    (heq : runRemovedChildren env d children ci s k = NodeBodyRes.cont ci' ch' s' k') :
    ci' = 0 ∧ ch' = none ∧ s' = removedChildrenAll env children ci s := by
  rw [runRemovedChildren] at heq
  by_cases h : children.length > 0
  · rw [if_pos h] at heq
    cases hstep : removedChildrenLoop env d children ci ci s k with
    | yielded ci2 s2 =>
        rw [hstep] at heq
        cases heq
    | done s2 k2 =>
        rw [hstep] at heq
        injection heq with h1 h2 h3 h4
        subst h1; subst h2; subst h3
        exact ⟨rfl, rfl, (removedChildrenLoop_done env d children (children.length - ci)
          ci ci s k _ _ le_rfl hstep)⟩
  · rw [if_neg h] at heq
    injection heq with h1 h2 h3 h4
    subst h1; subst h2; subst h3
    exact ⟨rfl, rfl, (removedChildrenAll_of_ge env children ci s (by omega)).symm⟩

/-- Unbounded run of one added-node body computes `addedNodeAll`. -/
theorem addedNodeBody_inf (env : Env) (element : Elem) (ci : Nat)
    (ch : Option (List Elem)) (s : RunSt) (k : Nat) :
    ∃ k2, addedNodeBody env infiniteDeadline element ci ch s k =
      NodeBodyRes.cont (addedNodeAll env element ci ch s).1
        (addedNodeAll env element ci ch s).2.1
        (addedNodeAll env element ci ch s).2.2 k2 := by
  cases ch with
  | some children =>
      simp only [addedNodeBody, addedNodeAll]
      exact runAddChildren_inf env children ci s k
  | none =>
      simp only [addedNodeBody, addedNodeAll]
      by_cases hh : env.isHTMLElement element = true
      · rw [if_pos hh, if_pos hh]
        by_cases hm : element ∈ s.added
        · rw [if_pos hm, if_pos hm]
          exact ⟨k, rfl⟩
        · rw [if_neg hm, if_neg hm]
          rw [if_neg (by simp [infiniteDeadline])]
          exact runAddChildren_inf env _ ci _ (k + 1)
      · rw [if_neg hh, if_neg hh]
        exact ⟨k, rfl⟩

/-- A yield of one added-node body preserves `addedNodeAll`. -/
theorem addedNodeBody_yield (env : Env) (d : Deadline) (element : Elem)
    (ci : Nat) (ch : Option (List Elem)) (s : RunSt) (k : Nat)
    (ci' : Nat) (ch' : Option (List Elem)) (s' : RunSt)
    (heq : addedNodeBody env d element ci ch s k = NodeBodyRes.yielded ci' ch' s') :
    addedNodeAll env element ci' ch' s' = addedNodeAll env element ci ch s := by
  cases ch with
  | some children =>
      simp only [addedNodeBody] at heq
      obtain ⟨hch, hAll⟩ := runAddChildren_yield env d children ci s k ci' ch' s' heq
      subst hch
      simp only [addedNodeAll]
      rw [hAll]
  | none =>
      simp only [addedNodeBody] at heq
      by_cases hh : env.isHTMLElement element = true
      · rw [if_pos hh] at heq
        by_cases hm : element ∈ s.added
        · rw [if_pos hm] at heq
          cases heq
        · rw [if_neg hm] at heq
          by_cases hd : d k = true
          · rw [if_pos hd] at heq
            injection heq with h1 h2 h3
            subst h1; subst h2; subst h3
            simp only [addedNodeAll]
            rw [if_pos hh, if_neg hm]
          · rw [if_neg hd] at heq
            obtain ⟨hch, hAll⟩ := runAddChildren_yield env d _ ci _ (k + 1) ci' ch' s' heq
            subst hch
            simp only [addedNodeAll]
            rw [if_pos hh, if_neg hm, hAll]
      · rw [if_neg hh] at heq
        cases heq

/-- A completed added-node body computes `addedNodeAll`. -/
theorem addedNodeBody_done (env : Env) (d : Deadline) (element : Elem)
    (ci : Nat) (ch : Option (List Elem)) (s : RunSt) (k : Nat)
    (ci' : Nat) (ch' : Option (List Elem)) (s' : RunSt) (k' : Nat)
    (heq : addedNodeBody env d element ci ch s k = NodeBodyRes.cont ci' ch' s' k') :
    (ci', ch', s') = addedNodeAll env element ci ch s := by
  cases ch with
  | some children =>
      simp only [addedNodeBody] at heq
      obtain ⟨h1, h2, h3⟩ := runAddChildren_done env d children ci s k ci' ch' s' k' heq
      subst h1; subst h2; subst h3
      simp only [addedNodeAll]
  | none =>
      simp only [addedNodeBody] at heq
      by_cases hh : env.isHTMLElement element = true
      · rw [if_pos hh] at heq
        by_cases hm : element ∈ s.added
        · rw [if_pos hm] at heq
          injection heq with h1 h2 h3 h4
          subst h1; subst h2; subst h3
          simp only [addedNodeAll]
          rw [if_pos hh, if_pos hm]
        · rw [if_neg hm] at heq
          by_cases hd : d k = true
          · rw [if_pos hd] at heq
            cases heq
          · rw [if_neg hd] at heq
            obtain ⟨h1, h2, h3⟩ := runAddChildren_done env d _ ci _ (k + 1) ci' ch' s' k' heq
            subst h1; subst h2; subst h3
            simp only [addedNodeAll]
            rw [if_pos hh, if_neg hm]
      · rw [if_neg hh] at heq
        injection heq with h1 h2 h3 h4
        subst h1; subst h2; subst h3
        simp only [addedNodeAll]
        rw [if_neg hh]

/-- Unbounded run of one removed-node body computes `removedNodeAll`. -/
theorem removedNodeBody_inf (env : Env) (element : Elem) (ci : Nat)
    (ch : Option (List Elem)) (s : RunSt) (k : Nat) :
    ∃ k2, removedNodeBody env infiniteDeadline element ci ch s k =
      NodeBodyRes.cont (removedNodeAll env element ci ch s).1
        (removedNodeAll env element ci ch s).2.1
        (removedNodeAll env element ci ch s).2.2 k2 := by
  cases ch with
  | some children =>
      simp only [removedNodeBody, removedNodeAll]
      exact runRemovedChildren_inf env children ci s k
  | none =>
      simp only [removedNodeBody, removedNodeAll]
      by_cases hh : env.isHTMLElement element = true
      · rw [if_pos hh, if_pos hh]
        rw [if_neg (by simp [infiniteDeadline])]
        exact runRemovedChildren_inf env _ ci _ (k + 1)
      · rw [if_neg hh, if_neg hh]
        exact ⟨k, rfl⟩

/-- A yield of one removed-node body preserves `removedNodeAll`. -/
theorem removedNodeBody_yield (env : Env) (d : Deadline) (element : Elem)
    (ci : Nat) (ch : Option (List Elem)) (s : RunSt) (k : Nat)
    (ci' : Nat) (ch' : Option (List Elem)) (s' : RunSt)
    (heq : removedNodeBody env d element ci ch s k = NodeBodyRes.yielded ci' ch' s') :
    removedNodeAll env element ci' ch' s' = removedNodeAll env element ci ch s := by
  cases ch with
  | some children =>
      simp only [removedNodeBody] at heq
      obtain ⟨hch, hAll⟩ := runRemovedChildren_yield env d children ci s k ci' ch' s' heq
      subst hch
      simp only [removedNodeAll]
      rw [hAll]
  | none =>
      simp only [removedNodeBody] at heq
      by_cases hh : env.isHTMLElement element = true
      · rw [if_pos hh] at heq
        by_cases hd : d k = true
        · rw [if_pos hd] at heq
          injection heq with h1 h2 h3
          subst h1; subst h2; subst h3
          simp only [removedNodeAll]
          rw [if_pos hh]
        · rw [if_neg hd] at heq
          obtain ⟨hch, hAll⟩ := runRemovedChildren_yield env d _ ci _ (k + 1) ci' ch' s' heq
          subst hch
          simp only [removedNodeAll]
          rw [if_pos hh, hAll]
      · rw [if_neg hh] at heq
        cases heq

/-- A completed removed-node body computes `removedNodeAll`. -/
theorem removedNodeBody_done (env : Env) (d : Deadline) (element : Elem)
    (ci : Nat) (ch : Option (List Elem)) (s : RunSt) (k : Nat)
    (ci' : Nat) (ch' : Option (List Elem)) (s' : RunSt) (k' : Nat)
    (heq : removedNodeBody env d element ci ch s k = NodeBodyRes.cont ci' ch' s' k') :
    (ci', ch', s') = removedNodeAll env element ci ch s := by
  cases ch with
  | some children =>
      simp only [removedNodeBody] at heq
      obtain ⟨h1, h2, h3⟩ := runRemovedChildren_done env d children ci s k ci' ch' s' k' heq
      subst h1; subst h2; subst h3
      simp only [removedNodeAll]
  | none =>
      simp only [removedNodeBody] at heq
      by_cases hh : env.isHTMLElement element = true
      · rw [if_pos hh] at heq
        by_cases hd : d k = true
        · rw [if_pos hd] at heq
          cases heq
        · rw [if_neg hd] at heq
          obtain ⟨h1, h2, h3⟩ := runRemovedChildren_done env d _ ci _ (k + 1) ci' ch' s' k' heq
          subst h1; subst h2; subst h3
          simp only [removedNodeAll]
          rw [if_pos hh]
      · rw [if_neg hh] at heq
        injection heq with h1 h2 h3 h4
        subst h1; subst h2; subst h3
        simp only [removedNodeAll]
        rw [if_neg hh]

/-! ### Time-slice invariance: the node loops -/

/-- One unfolding step of `addedNodesAll`. -/
theorem addedNodesAll_step (env : Env) (rec : Rec) (cur : Cursors) (s : RunSt)
    (h : cur.addedNodeIndex < rec.addedNodes.length) :
    addedNodesAll env rec cur s =
      addedNodesAll env rec
        { cur with
            addedNodeIndex := cur.addedNodeIndex + 1,
            childIndex := (addedNodeAll env (rec.addedNodes.get ⟨cur.addedNodeIndex, h⟩)
              cur.childIndex cur.children s).1,
            children := (addedNodeAll env (rec.addedNodes.get ⟨cur.addedNodeIndex, h⟩)
              cur.childIndex cur.children s).2.1 }
        (addedNodeAll env (rec.addedNodes.get ⟨cur.addedNodeIndex, h⟩)
          cur.childIndex cur.children s).2.2 := by
  conv_lhs => rw [addedNodesAll]
  rw [dif_pos h]

/-- `addedNodesAll` on an exhausted cursor is the identity. -/
theorem addedNodesAll_of_ge (env : Env) (rec : Rec) (cur : Cursors) (s : RunSt)
    (h : ¬ cur.addedNodeIndex < rec.addedNodes.length) :
    addedNodesAll env rec cur s = (cur, s) := by
  rw [addedNodesAll]
  simp [h]

/-- One unfolding step of `removedNodesAll`. -/
theorem removedNodesAll_step (env : Env) (rec : Rec) (cur : Cursors) (s : RunSt)
    (h : cur.removedNodeIndex < rec.removedNodes.length) :
    removedNodesAll env rec cur s =
      removedNodesAll env rec
        { cur with
            removedNodeIndex := cur.removedNodeIndex + 1,
            childIndex := (removedNodeAll env (rec.removedNodes.get ⟨cur.removedNodeIndex, h⟩)
              cur.childIndex cur.children s).1,
            children := (removedNodeAll env (rec.removedNodes.get ⟨cur.removedNodeIndex, h⟩)
              cur.childIndex cur.children s).2.1 }
        (removedNodeAll env (rec.removedNodes.get ⟨cur.removedNodeIndex, h⟩)
          cur.childIndex cur.children s).2.2 := by
  conv_lhs => rw [removedNodesAll]
  rw [dif_pos h]

/-- `removedNodesAll` on an exhausted cursor is the identity. -/
theorem removedNodesAll_of_ge (env : Env) (rec : Rec) (cur : Cursors) (s : RunSt)
    (h : ¬ cur.removedNodeIndex < rec.removedNodes.length) :
    removedNodesAll env rec cur s = (cur, s) := by
  rw [removedNodesAll]
  simp [h]

/-- Under the unbounded budget the added-nodes loop never yields and
computes `addedNodesAll`. -/
theorem addedNodesLoop_inf (env : Env) (rec : Rec) :
    ∀ n startAddedNodeIndex cur s k,
      rec.addedNodes.length - cur.addedNodeIndex ≤ n →
      ∃ k2, addedNodesLoop env infiniteDeadline rec startAddedNodeIndex cur s k =
        CursorStep.done (addedNodesAll env rec cur s).1
          (addedNodesAll env rec cur s).2 k2 := by
  intro n
  induction n with
  | zero =>
      intro sa cur s k hle
      have hnot : ¬ cur.addedNodeIndex < rec.addedNodes.length := by omega
      rw [addedNodesLoop, addedNodesAll_of_ge env rec cur s hnot]
      simp [hnot]
  | succ n ih =>
      intro sa cur s k hle
      by_cases h : cur.addedNodeIndex < rec.addedNodes.length
      · rw [addedNodesAll_step env rec cur s h]
        rw [addedNodesLoop]
        rw [dif_pos h, if_neg (by simp [infiniteDeadline])]
        obtain ⟨kb, hinf⟩ := addedNodeBody_inf env
          (rec.addedNodes.get ⟨cur.addedNodeIndex, h⟩) cur.childIndex cur.children s
          (if cur.addedNodeIndex > sa then k + 1 else k)
        rw [hinf]
        exact ih sa _ _ _ (by simp; omega)
      · rw [addedNodesLoop, addedNodesAll_of_ge env rec cur s h]
        simp [h]

/-- A yield of the added-nodes loop preserves `addedNodesAll`. -/
theorem addedNodesLoop_yield (env : Env) (d : Deadline) (rec : Rec) :
    ∀ n startAddedNodeIndex cur s k cur' s',
      rec.addedNodes.length - cur.addedNodeIndex ≤ n →
      addedNodesLoop env d rec startAddedNodeIndex cur s k =
        CursorStep.yielded cur' s' →
      addedNodesAll env rec cur' s' = addedNodesAll env rec cur s := by
  intro n
  induction n with
  | zero =>
      intro sa cur s k cur' s' hle heq
      have hnot : ¬ cur.addedNodeIndex < rec.addedNodes.length := by omega
      rw [addedNodesLoop] at heq
      simp [hnot] at heq
  | succ n ih =>
      intro sa cur s k cur' s' hle heq
      by_cases h : cur.addedNodeIndex < rec.addedNodes.length
      · rw [addedNodesLoop] at heq
        rw [dif_pos h] at heq
        by_cases hg : cur.addedNodeIndex > sa ∧ d k = true
        · rw [if_pos hg] at heq
          injection heq with h1 h2
          subst h1; subst h2
          rfl
        · rw [if_neg hg] at heq
          cases hbody : addedNodeBody env d (rec.addedNodes.get ⟨cur.addedNodeIndex, h⟩)
              cur.childIndex cur.children s
              (if cur.addedNodeIndex > sa then k + 1 else k) with
          | yielded ci2 ch2 s2 =>
              rw [hbody] at heq
              injection heq with h1 h2
              subst h1; subst h2
              have hb := addedNodeBody_yield env d _ _ _ _ _ _ _ _ hbody
              rw [addedNodesAll_step env rec cur s h]
              have h2 : ({ cur with childIndex := ci2, children := ch2 } :
                  Cursors).addedNodeIndex < rec.addedNodes.length := h
              rw [addedNodesAll_step env rec _ _ h2]
              simp only [hb]
          | cont ci2 ch2 s2 k2 =>
              rw [hbody] at heq
              have hb := addedNodeBody_done env d _ _ _ _ _ _ _ _ _ hbody
              have hstep := addedNodesAll_step env rec cur s h
              rw [← hb] at hstep
              rw [hstep]
              exact ih sa _ _ _ cur' s' (by simp; omega) heq
      · rw [addedNodesLoop] at heq
        simp [h] at heq

/-- A completed run of the added-nodes loop computes `addedNodesAll`. -/
theorem addedNodesLoop_done (env : Env) (d : Deadline) (rec : Rec) :
    ∀ n startAddedNodeIndex cur s k cur' s' k',
      rec.addedNodes.length - cur.addedNodeIndex ≤ n →
      addedNodesLoop env d rec startAddedNodeIndex cur s k =
        CursorStep.done cur' s' k' →
      (cur', s') = addedNodesAll env rec cur s := by
  intro n
  induction n with
  | zero =>
      intro sa cur s k cur' s' k' hle heq
      have hnot : ¬ cur.addedNodeIndex < rec.addedNodes.length := by omega
      rw [addedNodesLoop] at heq
      rw [addedNodesAll_of_ge env rec cur s hnot]
      simp [hnot] at heq
      rw [heq.1, heq.2.1]
  | succ n ih =>
      intro sa cur s k cur' s' k' hle heq
      by_cases h : cur.addedNodeIndex < rec.addedNodes.length
      · rw [addedNodesLoop] at heq
        rw [dif_pos h] at heq
        by_cases hg : cur.addedNodeIndex > sa ∧ d k = true
        · rw [if_pos hg] at heq
          cases heq
        · rw [if_neg hg] at heq
          cases hbody : addedNodeBody env d (rec.addedNodes.get ⟨cur.addedNodeIndex, h⟩)
              cur.childIndex cur.children s
              (if cur.addedNodeIndex > sa then k + 1 else k) with
          | yielded ci2 ch2 s2 =>
              rw [hbody] at heq
              cases heq
          | cont ci2 ch2 s2 k2 =>
              rw [hbody] at heq
              have hb := addedNodeBody_done env d _ _ _ _ _ _ _ _ _ hbody
              have hstep := addedNodesAll_step env rec cur s h
              rw [← hb] at hstep
              rw [hstep]
              exact ih sa _ _ _ cur' s' k' (by simp; omega) heq
      · rw [addedNodesLoop] at heq
        rw [addedNodesAll_of_ge env rec cur s h]
        simp [h] at heq
        rw [heq.1, heq.2.1]

/-- Under the unbounded budget the removed-nodes loop never yields and
computes `removedNodesAll`. -/
theorem removedNodesLoop_inf (env : Env) (rec : Rec) :
    ∀ n startRemovedNodeIndex cur s k,
      rec.removedNodes.length - cur.removedNodeIndex ≤ n →
      ∃ k2, removedNodesLoop env infiniteDeadline rec startRemovedNodeIndex cur s k =
        CursorStep.done (removedNodesAll env rec cur s).1
          (removedNodesAll env rec cur s).2 k2 := by
  intro n
  induction n with
  | zero =>
      intro sa cur s k hle
      have hnot : ¬ cur.removedNodeIndex < rec.removedNodes.length := by omega
      rw [removedNodesLoop, removedNodesAll_of_ge env rec cur s hnot]
      simp [hnot]
  | succ n ih =>
      intro sa cur s k hle
      by_cases h : cur.removedNodeIndex < rec.removedNodes.length
      · rw [removedNodesAll_step env rec cur s h]
        rw [removedNodesLoop]
        rw [dif_pos h, if_neg (by simp [infiniteDeadline])]
        obtain ⟨kb, hinf⟩ := removedNodeBody_inf env
          (rec.removedNodes.get ⟨cur.removedNodeIndex, h⟩) cur.childIndex cur.children s
          (if cur.removedNodeIndex > sa then k + 1 else k)
        rw [hinf]
        exact ih sa _ _ _ (by simp; omega)
      · rw [removedNodesLoop, removedNodesAll_of_ge env rec cur s h]
        simp [h]

/-- A yield of the removed-nodes loop preserves `removedNodesAll`. -/
theorem removedNodesLoop_yield (env : Env) (d : Deadline) (rec : Rec) :
    ∀ n startRemovedNodeIndex cur s k cur' s',
      rec.removedNodes.length - cur.removedNodeIndex ≤ n →
      removedNodesLoop env d rec startRemovedNodeIndex cur s k =
        CursorStep.yielded cur' s' →
      removedNodesAll env rec cur' s' = removedNodesAll env rec cur s := by
  intro n
  induction n with
  | zero =>
      intro sa cur s k cur' s' hle heq
      have hnot : ¬ cur.removedNodeIndex < rec.removedNodes.length := by omega
      rw [removedNodesLoop] at heq
      simp [hnot] at heq
  | succ n ih =>
      intro sa cur s k cur' s' hle heq
      by_cases h : cur.removedNodeIndex < rec.removedNodes.length
      · rw [removedNodesLoop] at heq
        rw [dif_pos h] at heq
        by_cases hg : cur.removedNodeIndex > sa ∧ d k = true
        · rw [if_pos hg] at heq
          injection heq with h1 h2
          subst h1; subst h2
          rfl
        · rw [if_neg hg] at heq
          cases hbody : removedNodeBody env d (rec.removedNodes.get ⟨cur.removedNodeIndex, h⟩)
              cur.childIndex cur.children s
              (if cur.removedNodeIndex > sa then k + 1 else k) with
          | yielded ci2 ch2 s2 =>
              rw [hbody] at heq
              injection heq with h1 h2
              subst h1; subst h2
              have hb := removedNodeBody_yield env d _ _ _ _ _ _ _ _ hbody
              rw [removedNodesAll_step env rec cur s h]
              have h2 : ({ cur with childIndex := ci2, children := ch2 } :
                  Cursors).removedNodeIndex < rec.removedNodes.length := h
              rw [removedNodesAll_step env rec _ _ h2]
              simp only [hb]
          | cont ci2 ch2 s2 k2 =>
              rw [hbody] at heq
              have hb := removedNodeBody_done env d _ _ _ _ _ _ _ _ _ hbody
              have hstep := removedNodesAll_step env rec cur s h
              rw [← hb] at hstep
              rw [hstep]
              exact ih sa _ _ _ cur' s' (by simp; omega) heq
      · rw [removedNodesLoop] at heq
        simp [h] at heq

/-- A completed run of the removed-nodes loop computes `removedNodesAll`. -/
theorem removedNodesLoop_done (env : Env) (d : Deadline) (rec : Rec) :
    ∀ n startRemovedNodeIndex cur s k cur' s' k',
      rec.removedNodes.length - cur.removedNodeIndex ≤ n →
      removedNodesLoop env d rec startRemovedNodeIndex cur s k =
        CursorStep.done cur' s' k' →
      (cur', s') = removedNodesAll env rec cur s := by
  intro n
  induction n with
  | zero =>
      intro sa cur s k cur' s' k' hle heq
      have hnot : ¬ cur.removedNodeIndex < rec.removedNodes.length := by omega
      rw [removedNodesLoop] at heq
      rw [removedNodesAll_of_ge env rec cur s hnot]
      simp [hnot] at heq
      rw [heq.1, heq.2.1]
  | succ n ih =>
      intro sa cur s k cur' s' k' hle heq
      by_cases h : cur.removedNodeIndex < rec.removedNodes.length
      · rw [removedNodesLoop] at heq
        rw [dif_pos h] at heq
        by_cases hg : cur.removedNodeIndex > sa ∧ d k = true
        · rw [if_pos hg] at heq
          cases heq
        · rw [if_neg hg] at heq
          cases hbody : removedNodeBody env d (rec.removedNodes.get ⟨cur.removedNodeIndex, h⟩)
              cur.childIndex cur.children s
              (if cur.removedNodeIndex > sa then k + 1 else k) with
          | yielded ci2 ch2 s2 =>
              rw [hbody] at heq
              cases heq
          | cont ci2 ch2 s2 k2 =>
              rw [hbody] at heq
              have hb := removedNodeBody_done env d _ _ _ _ _ _ _ _ _ hbody
              have hstep := removedNodesAll_step env rec cur s h
              rw [← hb] at hstep
              rw [hstep]
              exact ih sa _ _ _ cur' s' k' (by simp; omega) heq
      · rw [removedNodesLoop] at heq
        rw [removedNodesAll_of_ge env rec cur s h]
        simp [h] at heq
        rw [heq.1, heq.2.1]

/-! ### Time-slice invariance: record bodies and the records loop -/

/-- The cursor returned by `addedNodesAll` has exhausted the added
nodes. -/
theorem addedNodesAll_fst_ge (env : Env) (rec : Rec) :
    ∀ n cur s, rec.addedNodes.length - cur.addedNodeIndex ≤ n →
      rec.addedNodes.length ≤ (addedNodesAll env rec cur s).1.addedNodeIndex := by
  intro n
  induction n with
  | zero =>
      intro cur s hle
      have hnot : ¬ cur.addedNodeIndex < rec.addedNodes.length := by omega
      rw [addedNodesAll_of_ge env rec cur s hnot]
      simp only []
      omega
  | succ n ih =>
      intro cur s hle
      by_cases h : cur.addedNodeIndex < rec.addedNodes.length
      · rw [addedNodesAll_step env rec cur s h]
        exact ih _ _ (by simp; omega)
      · rw [addedNodesAll_of_ge env rec cur s h]
        simp only []
        omega

/-- The removed-nodes loop never moves the added-node cursor of a yielded
state. -/
theorem removedNodesLoop_yield_ai (env : Env) (d : Deadline) (rec : Rec) :
    ∀ n startRemovedNodeIndex cur s k cur' s',
      rec.removedNodes.length - cur.removedNodeIndex ≤ n →
      removedNodesLoop env d rec startRemovedNodeIndex cur s k =
        CursorStep.yielded cur' s' →
      cur'.addedNodeIndex = cur.addedNodeIndex := by
  intro n
  induction n with
  | zero =>
      intro sr cur s k cur' s' hle heq
      have hnot : ¬ cur.removedNodeIndex < rec.removedNodes.length := by omega
      rw [removedNodesLoop] at heq
      simp [hnot] at heq
  | succ n ih =>
      intro sr cur s k cur' s' hle heq
      by_cases h : cur.removedNodeIndex < rec.removedNodes.length
      · rw [removedNodesLoop, dif_pos h] at heq
        by_cases hg : cur.removedNodeIndex > sr ∧ d k = true
        · rw [if_pos hg] at heq
          injection heq with h1 h2
          subst h1
          rfl
        · rw [if_neg hg] at heq
          cases hbody : removedNodeBody env d (rec.removedNodes.get ⟨cur.removedNodeIndex, h⟩)
              cur.childIndex cur.children s
              (if cur.removedNodeIndex > sr then k + 1 else k) with
          | yielded ci2 ch2 s2 =>
              rw [hbody] at heq
              injection heq with h1 h2
              subst h1
              rfl
          | cont ci2 ch2 s2 k2 =>
              rw [hbody] at heq
              exact ih sr
                { cur with
                    removedNodeIndex := cur.removedNodeIndex + 1,
                    childIndex := ci2, children := ch2 } s2 k2 cur' s'
                (by simp; omega) heq
      · rw [removedNodesLoop] at heq
        simp [h] at heq

/-- Unbounded run of the record tail computes `recordAfterAddedAll`. -/
theorem recordAfterAdded_inf (env : Env) (rec : Rec) (ro : Bool) (cur : Cursors)
    (s : RunSt) (k : Nat) :
    ∃ k2, recordAfterAdded env infiniteDeadline rec ro cur s k =
      CursorStep.done (recordAfterAddedAll env rec ro cur s).1
        (recordAfterAddedAll env rec ro cur s).2 k2 := by
  rw [recordAfterAdded]
  obtain ⟨k2, hrem⟩ := removedNodesLoop_inf env rec _ cur.removedNodeIndex cur s k le_rfl
  rw [hrem]
  exact ⟨k2, rfl⟩

/-- A yield of the record tail preserves the drain of the removed nodes
and the added-node cursor. -/
theorem recordAfterAdded_yield (env : Env) (d : Deadline) (rec : Rec) (ro : Bool)
    (cur : Cursors) (s : RunSt) (k : Nat) (cur' : Cursors) (s' : RunSt)
    (heq : recordAfterAdded env d rec ro cur s k = CursorStep.yielded cur' s') :
    removedNodesAll env rec cur' s' = removedNodesAll env rec cur s ∧
      cur'.addedNodeIndex = cur.addedNodeIndex := by
  rw [recordAfterAdded] at heq
  cases hrem : removedNodesLoop env d rec cur.removedNodeIndex cur s k with
  | yielded cur2 s2 =>
      rw [hrem] at heq
      injection heq with h1 h2
      subst h1; subst h2
      exact ⟨removedNodesLoop_yield env d rec _ cur.removedNodeIndex cur s k _ _ le_rfl hrem,
        removedNodesLoop_yield_ai env d rec _ cur.removedNodeIndex cur s k _ _ le_rfl hrem⟩
  | done cur2 s2 k2 =>
      rw [hrem] at heq
      cases heq

/-- A completed record tail computes `recordAfterAddedAll`. -/
theorem recordAfterAdded_done (env : Env) (d : Deadline) (rec : Rec) (ro : Bool)
    (cur : Cursors) (s : RunSt) (k : Nat) (cur' : Cursors) (s' : RunSt) (k' : Nat)
    (heq : recordAfterAdded env d rec ro cur s k = CursorStep.done cur' s' k') :
    (cur', s') = recordAfterAddedAll env rec ro cur s := by
  rw [recordAfterAdded] at heq
  cases hrem : removedNodesLoop env d rec cur.removedNodeIndex cur s k with
  | yielded cur2 s2 =>
      rw [hrem] at heq
      cases heq
  | done cur2 s2 k2 =>
      rw [hrem] at heq
      have h := removedNodesLoop_done env d rec _ cur.removedNodeIndex cur s k cur2 s2 k2
        le_rfl hrem
      injection heq with h1 h2 h3
      subst h1; subst h2
      rw [recordAfterAddedAll, recordFinish, ← h]

/-- `recordAll` on a yielded added-loop state: the added-node cursor is
mid-loop, so the drain replays from it. -/
theorem recordAll_not_ro (env : Env) (rec : Rec) (cur : Cursors) (s : RunSt) :
    recordAll env rec false cur s =
      recordAfterAddedAll env rec false (addedNodesAll env rec cur s).1
        (addedNodesAll env rec cur s).2 := by
  rw [recordAll]
  simp

/-- Unbounded run of one record body computes `recordAll`. -/
theorem recordBody_inf (env : Env) (rec : Rec) (ro : Bool) (cur : Cursors)
    (s : RunSt) (k : Nat) :
    ∃ k2, recordBody env infiniteDeadline rec ro cur s k =
      CursorStep.done (recordAll env rec ro cur s).1
        (recordAll env rec ro cur s).2 k2 := by
  rw [recordBody, recordAll]
  by_cases hro : ro = true
  · rw [if_pos hro, if_pos hro]
    exact recordAfterAdded_inf env rec ro cur s k
  · rw [if_neg hro, if_neg hro]
    obtain ⟨ka, hadd⟩ := addedNodesLoop_inf env rec _ cur.addedNodeIndex cur s k le_rfl
    rw [hadd]
    exact recordAfterAdded_inf env rec ro _ _ ka

/-- A yield of one record body preserves `recordAll`. -/
theorem recordBody_yield (env : Env) (d : Deadline) (rec : Rec) (ro : Bool)
    (cur : Cursors) (s : RunSt) (k : Nat) (cur' : Cursors) (s' : RunSt)
    (heq : recordBody env d rec ro cur s k = CursorStep.yielded cur' s') :
    recordAll env rec ro cur' s' = recordAll env rec ro cur s := by
  rw [recordBody] at heq
  by_cases hro : ro = true
  · rw [if_pos hro] at heq
    obtain ⟨hrem, _⟩ := recordAfterAdded_yield env d rec ro cur s k cur' s' heq
    rw [recordAll, recordAll, if_pos hro, if_pos hro,
      recordAfterAddedAll, recordAfterAddedAll, hrem]
  · rw [if_neg hro] at heq
    have hrofalse : ro = false := by
      cases ro
      · rfl
      · exact absurd rfl hro
    subst hrofalse
    cases hadd : addedNodesLoop env d rec cur.addedNodeIndex cur s k with
    | yielded cur1 s1 =>
        rw [hadd] at heq
        injection heq with h1 h2
        subst h1; subst h2
        have hAll := addedNodesLoop_yield env d rec _ cur.addedNodeIndex cur s k _ _
          le_rfl hadd
        rw [recordAll_not_ro, recordAll_not_ro, hAll]
    | done cur1 s1 k1 =>
        rw [hadd] at heq
        have hAll := addedNodesLoop_done env d rec _ cur.addedNodeIndex cur s k cur1 s1 k1
          le_rfl hadd
        obtain ⟨hrem, hai⟩ := recordAfterAdded_yield env d rec false cur1 s1 k1 cur' s' heq
        have hge : rec.addedNodes.length ≤ cur1.addedNodeIndex := by
          have := addedNodesAll_fst_ge env rec
            (rec.addedNodes.length - cur.addedNodeIndex) cur s le_rfl
          rw [← hAll] at this
          exact this
        have hge' : ¬ cur'.addedNodeIndex < rec.addedNodes.length := by omega
        rw [recordAll_not_ro, recordAll_not_ro,
          addedNodesAll_of_ge env rec cur' s' hge', ← hAll]
        rw [recordAfterAddedAll, recordAfterAddedAll, hrem]

/-- A completed record body computes `recordAll`. -/
theorem recordBody_done (env : Env) (d : Deadline) (rec : Rec) (ro : Bool)
    (cur : Cursors) (s : RunSt) (k : Nat) (cur' : Cursors) (s' : RunSt) (k' : Nat)
    (heq : recordBody env d rec ro cur s k = CursorStep.done cur' s' k') :
    (cur', s') = recordAll env rec ro cur s := by
  rw [recordBody] at heq
  by_cases hro : ro = true
  · rw [if_pos hro] at heq
    rw [recordAll, if_pos hro]
    exact recordAfterAdded_done env d rec ro cur s k cur' s' k' heq
  · rw [if_neg hro] at heq
    cases hadd : addedNodesLoop env d rec cur.addedNodeIndex cur s k with
    | yielded cur1 s1 =>
        rw [hadd] at heq
        cases heq
    | done cur1 s1 k1 =>
        rw [hadd] at heq
        have hAll := addedNodesLoop_done env d rec _ cur.addedNodeIndex cur s k cur1 s1 k1
          le_rfl hadd
        rw [recordAll, if_neg hro, ← hAll]
        exact recordAfterAdded_done env d rec ro cur1 s1 k1 cur' s' k' heq

/-- One unfolding step of `recordsAll`. -/
theorem recordsAll_step (env : Env) (records : List Rec) (ro : Bool)
    (ri : Nat) (cur : Cursors) (s : RunSt) (h : ri < records.length) :
    recordsAll env records ro ri cur s =
      recordsAll env records ro (ri + 1)
        (recordAll env (records.get ⟨ri, h⟩) ro cur s).1
        (recordAll env (records.get ⟨ri, h⟩) ro cur s).2 := by
  conv_lhs => rw [recordsAll]
  rw [dif_pos h]

/-- `recordsAll` on an exhausted record cursor is the identity. -/
theorem recordsAll_of_ge (env : Env) (records : List Rec) (ro : Bool)
    (ri : Nat) (cur : Cursors) (s : RunSt) (h : ¬ ri < records.length) :
    recordsAll env records ro ri cur s = s := by
  rw [recordsAll]
  simp [h]

/-- Under the unbounded budget the records loop never yields and computes
`recordsAll`. -/
theorem recordsLoop_inf (env : Env) (records : List Rec) (ro : Bool) :
    ∀ n startRecordIndex ri cur s k, records.length - ri ≤ n →
      ∃ ri2 cur2 k2, recordsLoop env infiniteDeadline records ro startRecordIndex ri cur s k =
        RecsStep.done ri2 cur2 (recordsAll env records ro ri cur s) k2 := by
  intro n
  induction n with
  | zero =>
      intro sr ri cur s k hle
      have hnot : ¬ ri < records.length := by omega
      rw [recordsLoop, recordsAll_of_ge env records ro ri cur s hnot]
      simp [hnot]
  | succ n ih =>
      intro sr ri cur s k hle
      by_cases h : ri < records.length
      · rw [recordsAll_step env records ro ri cur s h]
        rw [recordsLoop]
        rw [dif_pos h, if_neg (by simp [infiniteDeadline])]
        obtain ⟨kb, hbody⟩ := recordBody_inf env (records.get ⟨ri, h⟩) ro cur s
          (if ri > sr then k + 1 else k)
        rw [hbody]
        exact ih sr (ri + 1) _ _ _ (by omega)
      · rw [recordsLoop, recordsAll_of_ge env records ro ri cur s h]
        simp [h]

/-- A yield of the records loop preserves `recordsAll`. -/
theorem recordsLoop_yield (env : Env) (d : Deadline) (records : List Rec) (ro : Bool) :
    ∀ n startRecordIndex ri cur s k ri' cur' s',
      records.length - ri ≤ n →
      recordsLoop env d records ro startRecordIndex ri cur s k =
        RecsStep.yielded ri' cur' s' →
      recordsAll env records ro ri' cur' s' = recordsAll env records ro ri cur s := by
  intro n
  induction n with
  | zero =>
      intro sr ri cur s k ri' cur' s' hle heq
      have hnot : ¬ ri < records.length := by omega
      rw [recordsLoop] at heq
      simp [hnot] at heq
  | succ n ih =>
      intro sr ri cur s k ri' cur' s' hle heq
      by_cases h : ri < records.length
      · rw [recordsLoop, dif_pos h] at heq
        by_cases hg : ri > sr ∧ d k = true
        · rw [if_pos hg] at heq
          injection heq with h1 h2 h3
          subst h1; subst h2; subst h3
          rfl
        · rw [if_neg hg] at heq
          cases hbody : recordBody env d (records.get ⟨ri, h⟩) ro cur s
              (if ri > sr then k + 1 else k) with
          | yielded cur1 s1 =>
              rw [hbody] at heq
              injection heq with h1 h2 h3
              subst h1; subst h2; subst h3
              have hb := recordBody_yield env d _ ro cur s _ _ _ hbody
              rw [recordsAll_step env records ro ri cur1 s1 h,
                recordsAll_step env records ro ri cur s h, hb]
          | done cur1 s1 k1 =>
              rw [hbody] at heq
              have hb := recordBody_done env d _ ro cur s _ cur1 s1 k1 hbody
              have hstep := recordsAll_step env records ro ri cur s h
              rw [← hb] at hstep
              rw [hstep]
              exact ih sr (ri + 1) _ _ _ ri' cur' s' (by omega) heq
      · rw [recordsLoop] at heq
        simp [h] at heq

/-- A completed run of the records loop computes `recordsAll`. -/
theorem recordsLoop_done (env : Env) (d : Deadline) (records : List Rec) (ro : Bool) :
    ∀ n startRecordIndex ri cur s k ri' cur' s' k',
      records.length - ri ≤ n →
      recordsLoop env d records ro startRecordIndex ri cur s k =
        RecsStep.done ri' cur' s' k' →
      s' = recordsAll env records ro ri cur s := by
  intro n
  induction n with
  | zero =>
      intro sr ri cur s k ri' cur' s' k' hle heq
      have hnot : ¬ ri < records.length := by omega
      rw [recordsLoop] at heq
      rw [recordsAll_of_ge env records ro ri cur s hnot]
      simp [hnot] at heq
      exact heq.2.2.1.symm
  | succ n ih =>
      intro sr ri cur s k ri' cur' s' k' hle heq
      by_cases h : ri < records.length
      · rw [recordsLoop, dif_pos h] at heq
        by_cases hg : ri > sr ∧ d k = true
        · rw [if_pos hg] at heq
          cases heq
        · rw [if_neg hg] at heq
          cases hbody : recordBody env d (records.get ⟨ri, h⟩) ro cur s
              (if ri > sr then k + 1 else k) with
          | yielded cur1 s1 =>
              rw [hbody] at heq
              cases heq
          | done cur1 s1 k1 =>
              rw [hbody] at heq
              have hb := recordBody_done env d _ ro cur s _ cur1 s1 k1 hbody
              have hstep := recordsAll_step env records ro ri cur s h
              rw [← hb] at hstep
              rw [hstep]
              exact ih sr (ri + 1) _ _ _ ri' cur' s' k' (by omega) heq
      · rw [recordsLoop] at heq
        rw [recordsAll_of_ge env records ro ri cur s h]
        simp [h] at heq
        exact heq.2.2.1.symm

/-! ### Time-slice invariance: the queue loop -/

/-- One unfolding step of `flushItemsAll`. -/
theorem flushItemsAll_step (env : Env) (items : List QueueItem) (idx : Nat)
    (reg : MState) (added : List Elem) (h : idx < items.length) :
    flushItemsAll env items idx reg added =
      (match items.get ⟨idx, h⟩ with
       | QueueItem.records records ri cur ro =>
           flushItemsAll env items (idx + 1)
             (recordsAll env records ro ri cur (RunSt.mk reg added)).reg
             (recordsAll env records ro ri cur (RunSt.mk reg added)).added
       | QueueItem.clickableChanged target clickable =>
           flushItemsAll env items (idx + 1)
             (clickableChangedStep env target clickable reg) added
       | QueueItem.overflowChanged target =>
           flushItemsAll env items (idx + 1)
             (overflowChangedStep env target reg) added) := by
  conv_lhs => rw [flushItemsAll]
  rw [dif_pos h]

/-- `flushItemsAll` past the end of the items is the identity. -/
theorem flushItemsAll_of_ge (env : Env) (items : List QueueItem) (idx : Nat)
    (reg : MState) (added : List Elem) (h : ¬ idx < items.length) :
    flushItemsAll env items idx reg added = (reg, added) := by
  rw [flushItemsAll]
  simp [h]

/-- Setting an item strictly below the cursor does not change the drain. -/
theorem flushItemsAll_set_lt (env : Env) :
    ∀ n (items : List QueueItem) (i : Nat) (v : QueueItem) (j : Nat)
      (reg : MState) (added : List Elem), i < j → items.length - j ≤ n →
      flushItemsAll env (items.set i v) j reg added =
        flushItemsAll env items j reg added := by
  intro n
  induction n with
  | zero =>
      intro items i v j reg added hij hle
      have hnot : ¬ j < items.length := by omega
      rw [flushItemsAll_of_ge env _ j reg added (by simp [List.length_set]; omega),
        flushItemsAll_of_ge env items j reg added hnot]
  | succ n ih =>
      intro items i v j reg added hij hle
      by_cases h : j < items.length
      · have hset : j < (items.set i v).length := by simp [List.length_set]; omega
        have hget : (items.set i v).get ⟨j, hset⟩ = items.get ⟨j, h⟩ := by
          simp [List.get_eq_getElem]
          exact List.getElem_set_ne (by omega) ..
        rw [flushItemsAll_step env _ j reg added hset,
          flushItemsAll_step env items j reg added h, hget]
        cases items.get ⟨j, h⟩ with
        | records records ri cur ro =>
            exact ih items i v (j + 1) _ _ (by omega) (by omega)
        | clickableChanged target clickable =>
            exact ih items i v (j + 1) _ _ (by omega) (by omega)
        | overflowChanged target =>
            exact ih items i v (j + 1) _ _ (by omega) (by omega)
      · rw [flushItemsAll_of_ge env _ j reg added (by simp [List.length_set]; omega),
          flushItemsAll_of_ge env items j reg added h]

/-- The unbounded drain fixes states whose queue is empty. -/
theorem flushAll_empty (env : Env) (reg : MState) :
    flushAll env (FullState.mk makeEmptyQueue reg) = FullState.mk makeEmptyQueue reg := by
  rw [flushAll]
  show FullState.mk makeEmptyQueue (flushItemsAll env [] 0 reg []).1 = _
  rw [flushItemsAll_of_ge env [] 0 reg [] (by simp)]

/-- The key invariance of one `flushQueue` call under any deadline: the
unbounded drain of the resulting state equals the unbounded drain of the
input state, and if the call ran the queue to empty its result is exactly
the unbounded drain. -/
theorem flushLoop_main (env : Env) (d : Deadline) :
    ∀ n (fs : FullState) (sq k : Nat),
      fs.queue.items.length - fs.queue.index ≤ n →
      flushAll env (flushLoop env d sq fs k) = flushAll env fs ∧
      ((flushLoop env d sq fs k).queue.items = [] →
        flushLoop env d sq fs k = flushAll env fs) := by
  intro n
  induction n with
  | zero =>
      intro fs sq k hle
      have hnot : ¬ fs.queue.index < fs.queue.items.length := by omega
      rw [flushLoop]
      simp only [hnot, dif_neg, not_false_iff]
      constructor
      · rw [flushAll_empty, flushAll]
        rw [flushItemsAll_of_ge env fs.queue.items fs.queue.index fs.reg
          fs.queue.addedElements hnot]
      · intro _
        rw [flushAll]
        rw [flushItemsAll_of_ge env fs.queue.items fs.queue.index fs.reg
          fs.queue.addedElements hnot]
  | succ n ih =>
      intro fs sq k hle
      by_cases h : fs.queue.index < fs.queue.items.length
      · rw [flushLoop, dif_pos h]
        by_cases hg : fs.queue.index > sq ∧ d k = true
        · rw [if_pos hg]
          refine ⟨rfl, ?_⟩
          intro habs
          exfalso
          rw [habs] at h
          simp at h
        · rw [if_neg hg]
          cases hget : fs.queue.items.get ⟨fs.queue.index, h⟩ with
          | records records ri cur ro =>
              dsimp only
              cases hloop : recordsLoop env d records ro ri ri cur
                  (RunSt.mk fs.reg fs.queue.addedElements)
                  (if fs.queue.index > sq then k + 1 else k) with
              | yielded ri2 cur2 s2 =>
                  have hs2 := recordsLoop_yield env d records ro
                    (records.length - ri) ri ri cur
                    (RunSt.mk fs.reg fs.queue.addedElements) _ ri2 cur2 s2 le_rfl hloop
                  dsimp only
                  constructor
                  · rw [flushAll, flushAll]
                    dsimp only
                    have hset : fs.queue.index <
                        (fs.queue.items.set fs.queue.index
                          (QueueItem.records records ri2 cur2 ro)).length := by
                      simp [List.length_set]
                      omega
                    rw [flushItemsAll_step env _ fs.queue.index s2.reg s2.added hset]
                    have hget2 : (fs.queue.items.set fs.queue.index
                        (QueueItem.records records ri2 cur2 ro)).get
                          ⟨fs.queue.index, hset⟩ =
                        QueueItem.records records ri2 cur2 ro := by
                      simp [List.get_eq_getElem]
                    rw [hget2]
                    dsimp only
                    rw [flushItemsAll_step env fs.queue.items fs.queue.index fs.reg
                      fs.queue.addedElements h, hget]
                    dsimp only
                    rw [flushItemsAll_set_lt env
                      (fs.queue.items.length - (fs.queue.index + 1)) fs.queue.items
                      fs.queue.index _ (fs.queue.index + 1) _ _ (by omega) (by omega)]
                    rw [hs2]
                  · intro habs
                    exfalso
                    have hlcontra := congrArg List.length habs
                    rw [List.length_set, List.length_nil] at hlcontra
                    omega
              | done ri2 cur2 s2 k2 =>
                  have hs2 := recordsLoop_done env d records ro
                    (records.length - ri) ri ri cur
                    (RunSt.mk fs.reg fs.queue.addedElements) _ ri2 cur2 s2 k2 le_rfl hloop
                  dsimp only
                  have hlen : (fs.queue.items.set fs.queue.index
                      (QueueItem.records records ri2 cur2 ro)).length =
                      fs.queue.items.length := by simp [List.length_set]
                  have hihle : (fs.queue.items.set fs.queue.index
                      (QueueItem.records records ri2 cur2 ro)).length -
                      (fs.queue.index + 1) ≤ n := by
                    rw [hlen]; omega
                  have hrec := ih
                    (FullState.mk
                      (Queue.mk
                        (fs.queue.items.set fs.queue.index
                          (QueueItem.records records ri2 cur2 ro))
                        (fs.queue.index + 1) s2.added)
                      s2.reg) sq k2 hihle
                  have hfsAll : flushAll env
                      (FullState.mk
                        (Queue.mk
                          (fs.queue.items.set fs.queue.index
                            (QueueItem.records records ri2 cur2 ro))
                          (fs.queue.index + 1) s2.added)
                        s2.reg) = flushAll env fs := by
                    rw [flushAll, flushAll]
                    dsimp only
                    rw [flushItemsAll_set_lt env
                      (fs.queue.items.length - (fs.queue.index + 1)) fs.queue.items
                      fs.queue.index _ (fs.queue.index + 1) _ _ (by omega) (by omega)]
                    rw [flushItemsAll_step env fs.queue.items fs.queue.index fs.reg
                      fs.queue.addedElements h, hget]
                    dsimp only
                    rw [hs2]
                  exact ⟨hrec.1.trans hfsAll, fun hitems =>
                    (hrec.2 hitems).trans hfsAll⟩
          | clickableChanged target clickable =>
              dsimp only
              have hrec := ih
                (FullState.mk
                  (Queue.mk fs.queue.items (fs.queue.index + 1) fs.queue.addedElements)
                  (clickableChangedStep env target clickable fs.reg)) sq
                (if fs.queue.index > sq then k + 1 else k) (by simp; omega)
              have hfsAll : flushAll env
                  (FullState.mk
                    (Queue.mk fs.queue.items (fs.queue.index + 1) fs.queue.addedElements)
                    (clickableChangedStep env target clickable fs.reg)) =
                  flushAll env fs := by
                rw [flushAll, flushAll]
                dsimp only
                rw [flushItemsAll_step env fs.queue.items fs.queue.index fs.reg
                  fs.queue.addedElements h, hget]
              exact ⟨hrec.1.trans hfsAll, fun hitems => (hrec.2 hitems).trans hfsAll⟩
          | overflowChanged target =>
              dsimp only
              have hrec := ih
                (FullState.mk
                  (Queue.mk fs.queue.items (fs.queue.index + 1) fs.queue.addedElements)
                  (overflowChangedStep env target fs.reg)) sq
                (if fs.queue.index > sq then k + 1 else k) (by simp; omega)
              have hfsAll : flushAll env
                  (FullState.mk
                    (Queue.mk fs.queue.items (fs.queue.index + 1) fs.queue.addedElements)
                    (overflowChangedStep env target fs.reg)) =
                  flushAll env fs := by
                rw [flushAll, flushAll]
                dsimp only
                rw [flushItemsAll_step env fs.queue.items fs.queue.index fs.reg
                  fs.queue.addedElements h, hget]
              exact ⟨hrec.1.trans hfsAll, fun hitems => (hrec.2 hitems).trans hfsAll⟩
      · rw [flushLoop]
        simp only [h, dif_neg, not_false_iff]
        constructor
        · rw [flushAll_empty, flushAll]
          rw [flushItemsAll_of_ge env fs.queue.items fs.queue.index fs.reg
            fs.queue.addedElements h]
        · intro _
          rw [flushAll]
          rw [flushItemsAll_of_ge env fs.queue.items fs.queue.index fs.reg
            fs.queue.addedElements h]

/-- Under the infinite deadline, `flushLoop` runs the whole queue and
computes the unbounded drain. -/
theorem flushLoop_inf (env : Env) :
    ∀ n (fs : FullState) (sq k : Nat),
      fs.queue.items.length - fs.queue.index ≤ n →
      flushLoop env infiniteDeadline sq fs k = flushAll env fs := by
  intro n
  induction n with
  | zero =>
      intro fs sq k hle
      have hnot : ¬ fs.queue.index < fs.queue.items.length := by omega
      rw [flushLoop]
      simp only [hnot, dif_neg, not_false_iff]
      rw [flushAll]
      rw [flushItemsAll_of_ge env fs.queue.items fs.queue.index fs.reg
        fs.queue.addedElements hnot]
  | succ n ih =>
      intro fs sq k hle
      by_cases h : fs.queue.index < fs.queue.items.length
      · rw [flushLoop, dif_pos h, if_neg (by simp [infiniteDeadline])]
        cases hget : fs.queue.items.get ⟨fs.queue.index, h⟩ with
        | records records ri cur ro =>
            dsimp only
            obtain ⟨ri2, cur2, k2, hloop⟩ := recordsLoop_inf env records ro
              (records.length - ri) ri ri cur
              (RunSt.mk fs.reg fs.queue.addedElements)
              (if fs.queue.index > sq then k + 1 else k) le_rfl
            rw [hloop]
            dsimp only
            rw [ih
              (FullState.mk
                (Queue.mk
                  (fs.queue.items.set fs.queue.index
                    (QueueItem.records records ri2 cur2 ro))
                  (fs.queue.index + 1)
                  (recordsAll env records ro ri cur
                    (RunSt.mk fs.reg fs.queue.addedElements)).added)
                (recordsAll env records ro ri cur
                  (RunSt.mk fs.reg fs.queue.addedElements)).reg) sq k2
              (by simp [List.length_set]; omega)]
            rw [flushAll, flushAll]
            dsimp only
            rw [flushItemsAll_set_lt env
              (fs.queue.items.length - (fs.queue.index + 1)) fs.queue.items
              fs.queue.index _ (fs.queue.index + 1) _ _ (by omega) (by omega)]
            rw [flushItemsAll_step env fs.queue.items fs.queue.index fs.reg
              fs.queue.addedElements h, hget]
        | clickableChanged target clickable =>
            dsimp only
            rw [ih
              (FullState.mk
                (Queue.mk fs.queue.items (fs.queue.index + 1) fs.queue.addedElements)
                (clickableChangedStep env target clickable fs.reg)) sq
              (if fs.queue.index > sq then k + 1 else k) (by simp; omega)]
            rw [flushAll, flushAll]
            dsimp only
            rw [flushItemsAll_step env fs.queue.items fs.queue.index fs.reg
              fs.queue.addedElements h, hget]
        | overflowChanged target =>
            dsimp only
            rw [ih
              (FullState.mk
                (Queue.mk fs.queue.items (fs.queue.index + 1) fs.queue.addedElements)
                (overflowChangedStep env target fs.reg)) sq
              (if fs.queue.index > sq then k + 1 else k) (by simp; omega)]
            rw [flushAll, flushAll]
            dsimp only
            rw [flushItemsAll_step env fs.queue.items fs.queue.index fs.reg
              fs.queue.addedElements h, hget]
      · rw [flushLoop]
        simp only [h, dif_neg, not_false_iff]
        rw [flushAll]
        rw [flushItemsAll_of_ge env fs.queue.items fs.queue.index fs.reg
          fs.queue.addedElements h]

/-- A `flushQueue` call under the infinite deadline is exactly the
unbounded drain. -/
theorem flushQueue_inf (env : Env) (fs : FullState) :
    flushQueue env infiniteDeadline fs = flushAll env fs := by
  rw [flushQueue]
  exact flushLoop_inf env (fs.queue.items.length - fs.queue.index) fs
    fs.queue.index 0 le_rfl

/-- Any sequence of `flushQueue` calls preserves the unbounded drain of
the state. -/
theorem multiFlush_flushAll (env : Env) (ds : List Deadline) (fs : FullState) :
    flushAll env (multiFlush env ds fs) = flushAll env fs := by
  induction ds generalizing fs with
  | nil => rfl
  | cons d ds ih =>
      have hcons : multiFlush env (d :: ds) fs =
          multiFlush env ds (flushQueue env d fs) := rfl
      rw [hcons, ih (flushQueue env d fs), flushQueue]
      exact (flushLoop_main env d (fs.queue.items.length - fs.queue.index) fs
        fs.queue.index 0 le_rfl).1

/-- C1: Time-slice invariance of queue draining.  Running `flushQueue`
repeatedly under any non-empty sequence of deadlines - each call resuming
from the item, record and node cursors saved at the previous yield - such
that the last call runs the queue to empty, produces exactly the state of
one `flushQueue` call under an infinite budget: the same elements map,
added-elements set, click-listener and scrollbar marks (and every other
registry field); in particular no unit of work already committed to the
registry is re-applied on resume. -/
theorem flush_time_slice_invariance (env : Env) (fs : FullState)
    (ds : List Deadline) (hne : ds ≠ [])
    (hdrained : (multiFlush env ds fs).queue.items = []) :
    multiFlush env ds fs = flushQueue env infiniteDeadline fs := by
  obtain ⟨ds2, d, rfl⟩ := (List.eq_nil_or_concat ds).resolve_left hne
  rw [List.concat_eq_append] at hdrained ⊢
  have hsplit : multiFlush env (ds2 ++ [d]) fs =
      flushQueue env d (multiFlush env ds2 fs) := by
    rw [multiFlush, multiFlush, List.foldl_append, List.foldl_cons, List.foldl_nil]
  rw [hsplit] at hdrained ⊢
  rw [flushQueue] at hdrained ⊢
  rw [(flushLoop_main env d
    ((multiFlush env ds2 fs).queue.items.length - (multiFlush env ds2 fs).queue.index)
    (multiFlush env ds2 fs) (multiFlush env ds2 fs).queue.index 0 le_rfl).2 hdrained]
  rw [multiFlush_flushAll]
  exact (flushLoop_inf env (fs.queue.items.length - fs.queue.index) fs
    fs.queue.index 0 le_rfl).symm

/-- The time-slice invariance at a concrete queue: a mutation batch and a
clickable-changed message, drained across an already-expired deadline
followed by an unbounded one. -/
theorem flush_time_slice_invariance_witness :
    ([exExpired, infiniteDeadline] ≠ ([] : List Deadline)) ∧
    (multiFlush exEnvC1 [exExpired, infiniteDeadline] exFSC1).queue.items = [] ∧
    multiFlush exEnvC1 [exExpired, infiniteDeadline] exFSC1 =
      flushQueue exEnvC1 infiniteDeadline exFSC1 := by
  have hne : [exExpired, infiniteDeadline] ≠ ([] : List Deadline) := by simp
  have hdr : (multiFlush exEnvC1 [exExpired, infiniteDeadline] exFSC1).queue.items = [] := by
    show (flushQueue exEnvC1 infiniteDeadline
      (flushQueue exEnvC1 exExpired exFSC1)).queue.items = []
    rw [flushQueue_inf]
    rfl
  exact ⟨hne, hdr, flush_time_slice_invariance exEnvC1 exFSC1 _ hne hdr⟩

/-! ### Set and map bookkeeping -/

/-- `setDel` yields a sublist. -/
theorem setDel_sublist (x : Elem) : ∀ s : List Elem, List.Sublist (setDel x s) s := by
  intro s
  induction s with
  | nil => rw [setDel]
  | cons y rest ih =>
      rw [setDel]
      by_cases h : y = x
      · rw [if_pos h]
        exact List.sublist_cons_self y rest
      · rw [if_neg h]
        exact List.Sublist.cons₂ y ih

/-- `mapDel` yields a sublist. -/
theorem mapDel_sublist {α β : Type} [DecidableEq α] (k : α) :
    ∀ m : List (α × β), List.Sublist (mapDel k m) m := by
  intro m
  induction m with
  | nil => rw [mapDel]
  | cons p rest ih =>
      obtain ⟨a, b⟩ := p
      rw [mapDel]
      by_cases h : a = k
      · rw [if_pos h]
        exact List.sublist_cons_self (a, b) rest
      · rw [if_neg h]
        exact List.Sublist.cons₂ (a, b) ih

/-- A `mapLookup` miss is exactly absence from the key list. -/
theorem mapLookup_eq_none_iff {α β : Type} [DecidableEq α] (k : α) :
    ∀ m : List (α × β), mapLookup k m = none ↔ k ∉ m.map Prod.fst := by
  intro m
  induction m with
  | nil => simp [mapLookup]
  | cons p rest ih =>
      obtain ⟨a, b⟩ := p
      rw [mapLookup]
      by_cases h : a = k
      · simp [h]
      · simp [h, ih, Ne.symm h]

/-- Deleting an element from a duplicate-free set removes it. -/
theorem not_mem_setDel_self (x : Elem) :
    ∀ s : List Elem, s.Nodup → x ∉ setDel x s := by
  intro s
  induction s with
  | nil => intro _; rw [setDel]; exact List.not_mem_nil x
  | cons y rest ih =>
      intro hnd
      rw [setDel]
      by_cases h : y = x
      · rw [if_pos h]
        intro hmem
        exact (List.nodup_cons.mp hnd).1 (h ▸ hmem)
      · rw [if_neg h]
        intro hmem
        rcases List.mem_cons.mp hmem with heq | hmem2
        · exact h heq.symm
        · exact ih (List.nodup_cons.mp hnd).2 hmem2

/-- `setDel` never introduces an element. -/
theorem not_mem_setDel_of (c x : Elem) (s : List Elem) (h : x ∉ s) :
    x ∉ setDel c s :=
  fun hmem => h ((setDel_sublist c s).subset hmem)

/-- Deleting a key from a duplicate-free map removes it. -/
theorem not_mem_keys_mapDel_self {α β : Type} [DecidableEq α] (k : α) :
    ∀ m : List (α × β), (m.map Prod.fst).Nodup →
      k ∉ (mapDel k m).map Prod.fst := by
  intro m
  induction m with
  | nil => intro _; rw [mapDel]; simp
  | cons p rest ih =>
      obtain ⟨a, b⟩ := p
      intro hnd
      rw [List.map_cons] at hnd
      rw [mapDel]
      by_cases h : a = k
      · rw [if_pos h]
        intro hmem
        exact (List.nodup_cons.mp hnd).1 (h ▸ hmem)
      · rw [if_neg h]
        intro hmem
        rw [List.map_cons] at hmem
        rcases List.mem_cons.mp hmem with heq | hmem2
        · exact h heq.symm
        · exact ih (List.nodup_cons.mp hnd).2 hmem2

/-- `setAdd` preserves freedom from duplicates. -/
theorem setAdd_nodup (x : Elem) (s : List Elem) (h : s.Nodup) :
    (setAdd x s).Nodup := by
  rw [setAdd]
  by_cases hm : x ∈ s
  · rw [if_pos hm]; exact h
  · rw [if_neg hm]
    exact List.Nodup.append h (List.nodup_singleton x)
      (List.disjoint_singleton.mpr hm)

/-- The keys after `mapSet`. -/
theorem mem_keys_mapSet {α β : Type} [DecidableEq α] (k : α) (v : β) (a : α) :
    ∀ m : List (α × β),
      a ∈ (mapSet k v m).map Prod.fst ↔ a ∈ m.map Prod.fst ∨ a = k := by
  intro m
  induction m with
  | nil => simp [mapSet]
  | cons p rest ih =>
      obtain ⟨a0, b0⟩ := p
      rw [mapSet]
      by_cases h : a0 = k
      · subst h
        simp
        tauto
      · rw [if_neg h]
        simp [ih]
        tauto

/-- `mapSet` preserves duplicate-free keys. -/
theorem mapSet_keys_nodup {α β : Type} [DecidableEq α] (k : α) (v : β) :
    ∀ m : List (α × β), (m.map Prod.fst).Nodup →
      ((mapSet k v m).map Prod.fst).Nodup := by
  intro m
  induction m with
  | nil => intro _; simp [mapSet]
  | cons p rest ih =>
      obtain ⟨a0, b0⟩ := p
      intro hnd
      rw [List.map_cons] at hnd
      have hnotin := (List.nodup_cons.mp hnd).1
      have hrest := (List.nodup_cons.mp hnd).2
      rw [mapSet]
      by_cases h : a0 = k
      · subst h
        rw [if_pos rfl, List.map_cons]
        exact List.nodup_cons.mpr ⟨hnotin, hrest⟩
      · rw [if_neg h, List.map_cons]
        refine List.nodup_cons.mpr ⟨?_, ih hrest⟩
        intro hmem
        rcases (mem_keys_mapSet k v a0 rest).mp hmem with hin | heq
        · exact hnotin hin
        · exact h heq

/-! ### What `addOrRemoveElement` does to the elements map -/

/-- `consumeEventAttribute` never touches the elements map. -/
theorem consumeEventAttribute_elements (c : Elem) (st : MState) :
    (consumeEventAttribute c st).elements = st.elements := by
  cases h : mapLookup c st.eventAttrs with
  | none => simp [consumeEventAttribute, h]
  | some b => cases b <;> simp [consumeEventAttribute, h]

/-- `bail` never touches the elements map. -/
theorem bail_elements (st : MState) : (bail st).elements = st.elements := by
  rw [bail]
  split_ifs <;> rfl

/-- A removal leaves the elements map unchanged (frames) or deletes the
element's key. -/
theorem addOrRemove_removed_elements (env : Env) (c : Elem) (reg : MState) :
    (addOrRemoveElement env MutationType.removed c reg).elements =
      if env.isFrame c = true then reg.elements
      else mapDel c reg.elements := by
  have hel := consumeEventAttribute_elements c reg
  by_cases hf : env.isFrame c = true
  · simp only [addOrRemoveElement, hf]
    simp [hel]
  · simp only [addOrRemoveElement, hf]
    simp [hel]

/-- After any mutation step the elements map is unchanged, has lost the
touched key, or has been written at the touched key. -/
theorem addOrRemove_elements_cases (env : Env) (mt : MutationType) (c : Elem)
    (reg : MState) :
    (addOrRemoveElement env mt c reg).elements = reg.elements ∨
    (addOrRemoveElement env mt c reg).elements = mapDel c reg.elements ∨
    ∃ ty, (addOrRemoveElement env mt c reg).elements = mapSet c ty reg.elements := by
  have hel := consumeEventAttribute_elements c reg
  by_cases hf : env.isFrame c = true
  · cases mt <;> exact Or.inl (by simp [addOrRemoveElement, hf, hel])
  · cases mt with
    | removed =>
        refine Or.inr (Or.inl ?_)
        rw [addOrRemove_removed_elements, if_neg hf]
    | added =>
        cases hcl : classifyElem env (consumeEventAttribute c reg) c with
        | none => exact Or.inl (by simp [addOrRemoveElement, hf, hcl, hel])
        | some ty =>
            refine Or.inr (Or.inr ⟨ty, ?_⟩)
            simp only [addOrRemoveElement, hf]
            simp only [hcl]
            split_ifs <;> simp [bail_elements, hel] <;> tauto
    | changed =>
        cases hcl : classifyElem env (consumeEventAttribute c reg) c with
        | none => exact Or.inr (Or.inl (by simp [addOrRemoveElement, hf, hcl, hel]))
        | some ty =>
            refine Or.inr (Or.inr ⟨ty, ?_⟩)
            simp only [addOrRemoveElement, hf]
            simp only [hcl]
            split_ifs <;> simp [bail_elements, hel] <;> tauto

/-- Every mutation step keeps the elements map free of duplicate keys. -/
theorem addOrRemove_keysNodup (env : Env) (mt : MutationType) (c : Elem)
    (reg : MState) (h : (reg.elements.map Prod.fst).Nodup) :
    ((addOrRemoveElement env mt c reg).elements.map Prod.fst).Nodup := by
  rcases addOrRemove_elements_cases env mt c reg with hc | hc | ⟨ty, hc⟩
  · rw [hc]; exact h
  · rw [hc]
    exact List.Nodup.sublist (List.Sublist.map Prod.fst (mapDel_sublist c reg.elements)) h
  · rw [hc]
    exact mapSet_keys_nodup c ty reg.elements h

/-- A removal step preserves the absence of any key. -/
theorem addOrRemove_removed_lookup_none (env : Env) (c e : Elem) (reg : MState)
    (h : mapLookup e reg.elements = none) :
    mapLookup e (addOrRemoveElement env MutationType.removed c reg).elements = none := by
  rw [addOrRemove_removed_elements]
  split_ifs
  · exact h
  · rw [mapLookup_eq_none_iff] at h ⊢
    intro hmem
    exact h ((List.Sublist.map Prod.fst (mapDel_sublist c reg.elements)).subset hmem)

/-- Removing an element deletes its registry entry (ElementManager.js,
lines 604-618: a non-frame removal reaches the `delete` branch). -/
theorem addOrRemove_removed_lookup_self (env : Env) (e : Elem) (reg : MState)
    (hframe : env.isFrame e = false)
    (h : (reg.elements.map Prod.fst).Nodup) :
    mapLookup e (addOrRemoveElement env MutationType.removed e reg).elements = none := by
  rw [addOrRemove_removed_elements, if_neg (by simp [hframe])]
  rw [mapLookup_eq_none_iff]
  exact not_mem_keys_mapDel_self e reg.elements h

/-! ### The drain keeps sets and maps duplicate-free -/

/-- The added-children loop preserves duplicate-freedom of the elements
keys and of the added set. -/
theorem addChildrenAll_nodup (env : Env) (children : List Elem) :
    ∀ n ci (s : RunSt), children.length - ci ≤ n →
      (s.reg.elements.map Prod.fst).Nodup → s.added.Nodup →
      ((addChildrenAll env children ci s).reg.elements.map Prod.fst).Nodup ∧
        (addChildrenAll env children ci s).added.Nodup := by
  intro n
  induction n with
  | zero =>
      intro ci s hle h1 h2
      rw [addChildrenAll_of_ge env children ci s (by omega)]
      exact ⟨h1, h2⟩
  | succ n ih =>
      intro ci s hle h1 h2
      by_cases h : ci < children.length
      · rw [addChildrenAll, dif_pos h]
        dsimp only
        by_cases hmem : children.get ⟨ci, h⟩ ∈ s.added
        · rw [if_pos hmem]
          exact ih (ci + 1) s (by omega) h1 h2
        · rw [if_neg hmem]
          exact ih (ci + 1) _ (by omega)
            (addOrRemove_keysNodup env MutationType.added _ s.reg h1)
            (setAdd_nodup _ s.added h2)
      · rw [addChildrenAll_of_ge env children ci s h]
        exact ⟨h1, h2⟩

/-- The removed-children loop preserves duplicate-freedom. -/
theorem removedChildrenAll_nodup (env : Env) (children : List Elem) :
    ∀ n ci (s : RunSt), children.length - ci ≤ n →
      (s.reg.elements.map Prod.fst).Nodup → s.added.Nodup →
      ((removedChildrenAll env children ci s).reg.elements.map Prod.fst).Nodup ∧
        (removedChildrenAll env children ci s).added.Nodup := by
  intro n
  induction n with
  | zero =>
      intro ci s hle h1 h2
      rw [removedChildrenAll_of_ge env children ci s (by omega)]
      exact ⟨h1, h2⟩
  | succ n ih =>
      intro ci s hle h1 h2
      by_cases h : ci < children.length
      · rw [removedChildrenAll, dif_pos h]
        dsimp only
        exact ih (ci + 1) _ (by omega)
          (addOrRemove_keysNodup env MutationType.removed _ s.reg h1)
          (List.Nodup.sublist (setDel_sublist _ s.added) h2)
      · rw [removedChildrenAll_of_ge env children ci s h]
        exact ⟨h1, h2⟩

/-- The removed-children loop preserves the absence of an element from
the registry and from the added set. -/
theorem removedChildrenAll_absent (env : Env) (e : Elem) (children : List Elem) :
    ∀ n ci (s : RunSt), children.length - ci ≤ n →
      mapLookup e s.reg.elements = none → e ∉ s.added →
      mapLookup e (removedChildrenAll env children ci s).reg.elements = none ∧
        e ∉ (removedChildrenAll env children ci s).added := by
  intro n
  induction n with
  | zero =>
      intro ci s hle h1 h2
      rw [removedChildrenAll_of_ge env children ci s (by omega)]
      exact ⟨h1, h2⟩
  | succ n ih =>
      intro ci s hle h1 h2
      by_cases h : ci < children.length
      · rw [removedChildrenAll, dif_pos h]
        dsimp only
        exact ih (ci + 1) _ (by omega)
          (addOrRemove_removed_lookup_none env _ e s.reg h1)
          (not_mem_setDel_of _ e s.added h2)
      · rw [removedChildrenAll_of_ge env children ci s h]
        exact ⟨h1, h2⟩

/-- One added-node body preserves duplicate-freedom. -/
theorem addedNodeAll_nodup (env : Env) (element : Elem) (ci : Nat)
    (ch : Option (List Elem)) (s : RunSt)
    (h1 : (s.reg.elements.map Prod.fst).Nodup) (h2 : s.added.Nodup) :
    (((addedNodeAll env element ci ch s).2.2.reg.elements.map Prod.fst).Nodup) ∧
      (addedNodeAll env element ci ch s).2.2.added.Nodup := by
  cases ch with
  | some children =>
      simp only [addedNodeAll]
      exact addChildrenAll_nodup env children (children.length - ci) ci s le_rfl h1 h2
  | none =>
      simp only [addedNodeAll]
      by_cases hh : env.isHTMLElement element = true
      · rw [if_pos hh]
        by_cases hmem : element ∈ s.added
        · rw [if_pos hmem]
          exact ⟨h1, h2⟩
        · rw [if_neg hmem]
          dsimp only
          exact addChildrenAll_nodup env (env.descendants element)
            ((env.descendants element).length - ci) ci _ le_rfl
            (addOrRemove_keysNodup env MutationType.added element s.reg h1)
            (setAdd_nodup element s.added h2)
      · rw [if_neg hh]
        exact ⟨h1, h2⟩

/-- One removed-node body preserves duplicate-freedom. -/
theorem removedNodeAll_nodup (env : Env) (element : Elem) (ci : Nat)
    (ch : Option (List Elem)) (s : RunSt)
    (h1 : (s.reg.elements.map Prod.fst).Nodup) (h2 : s.added.Nodup) :
    (((removedNodeAll env element ci ch s).2.2.reg.elements.map Prod.fst).Nodup) ∧
      (removedNodeAll env element ci ch s).2.2.added.Nodup := by
  cases ch with
  | some children =>
      simp only [removedNodeAll]
      exact removedChildrenAll_nodup env children (children.length - ci) ci s le_rfl h1 h2
  | none =>
      simp only [removedNodeAll]
      by_cases hh : env.isHTMLElement element = true
      · rw [if_pos hh]
        dsimp only
        exact removedChildrenAll_nodup env (env.descendants element)
          ((env.descendants element).length - ci) ci _ le_rfl
          (addOrRemove_keysNodup env MutationType.removed element s.reg h1)
          (List.Nodup.sublist (setDel_sublist element s.added) h2)
      · rw [if_neg hh]
        exact ⟨h1, h2⟩

/-- The added-nodes loop preserves duplicate-freedom. -/
theorem addedNodesAll_nodup (env : Env) (rec : Rec) :
    ∀ n (cur : Cursors) (s : RunSt), rec.addedNodes.length - cur.addedNodeIndex ≤ n →
      (s.reg.elements.map Prod.fst).Nodup → s.added.Nodup →
      (((addedNodesAll env rec cur s).2.reg.elements.map Prod.fst).Nodup) ∧
        (addedNodesAll env rec cur s).2.added.Nodup := by
  intro n
  induction n with
  | zero =>
      intro cur s hle h1 h2
      rw [addedNodesAll_of_ge env rec cur s (by omega)]
      exact ⟨h1, h2⟩
  | succ n ih =>
      intro cur s hle h1 h2
      by_cases h : cur.addedNodeIndex < rec.addedNodes.length
      · rw [addedNodesAll_step env rec cur s h]
        have hb := addedNodeAll_nodup env (rec.addedNodes.get ⟨cur.addedNodeIndex, h⟩)
          cur.childIndex cur.children s h1 h2
        exact ih _ _ (by simp; omega) hb.1 hb.2
      · rw [addedNodesAll_of_ge env rec cur s h]
        exact ⟨h1, h2⟩

/-- The removed-nodes loop preserves duplicate-freedom. -/
theorem removedNodesAll_nodup (env : Env) (rec : Rec) :
    ∀ n (cur : Cursors) (s : RunSt), rec.removedNodes.length - cur.removedNodeIndex ≤ n →
      (s.reg.elements.map Prod.fst).Nodup → s.added.Nodup →
      (((removedNodesAll env rec cur s).2.reg.elements.map Prod.fst).Nodup) ∧
        (removedNodesAll env rec cur s).2.added.Nodup := by
  intro n
  induction n with
  | zero =>
      intro cur s hle h1 h2
      rw [removedNodesAll_of_ge env rec cur s (by omega)]
      exact ⟨h1, h2⟩
  | succ n ih =>
      intro cur s hle h1 h2
      by_cases h : cur.removedNodeIndex < rec.removedNodes.length
      · rw [removedNodesAll_step env rec cur s h]
        have hb := removedNodeAll_nodup env (rec.removedNodes.get ⟨cur.removedNodeIndex, h⟩)
          cur.childIndex cur.children s h1 h2
        exact ih _ _ (by simp; omega) hb.1 hb.2
      · rw [removedNodesAll_of_ge env rec cur s h]
        exact ⟨h1, h2⟩

/-- The record tail preserves duplicate-freedom. -/
theorem recordFinish_nodup (env : Env) (rec : Rec) (ro : Bool)
    (p : Cursors × RunSt)
    (h1 : (p.2.reg.elements.map Prod.fst).Nodup) (h2 : p.2.added.Nodup) :
    (((recordFinish env rec ro p).2.reg.elements.map Prod.fst).Nodup) ∧
      (recordFinish env rec ro p).2.added.Nodup := by
  rw [recordFinish]
  dsimp only
  split_ifs
  · exact ⟨addOrRemove_keysNodup env MutationType.changed rec.target p.2.reg h1, h2⟩
  · exact ⟨h1, h2⟩

/-- One record body preserves duplicate-freedom. -/
theorem recordAll_nodup (env : Env) (rec : Rec) (ro : Bool) (cur : Cursors)
    (s : RunSt)
    (h1 : (s.reg.elements.map Prod.fst).Nodup) (h2 : s.added.Nodup) :
    (((recordAll env rec ro cur s).2.reg.elements.map Prod.fst).Nodup) ∧
      (recordAll env rec ro cur s).2.added.Nodup := by
  cases ro with
  | true =>
      rw [recordAll, if_pos rfl, recordAfterAddedAll]
      have hr := removedNodesAll_nodup env rec
        (rec.removedNodes.length - cur.removedNodeIndex) cur s le_rfl h1 h2
      exact recordFinish_nodup env rec true _ hr.1 hr.2
  | false =>
      rw [recordAll_not_ro, recordAfterAddedAll]
      have ha := addedNodesAll_nodup env rec
        (rec.addedNodes.length - cur.addedNodeIndex) cur s le_rfl h1 h2
      have hr := removedNodesAll_nodup env rec
        (rec.removedNodes.length - (addedNodesAll env rec cur s).1.removedNodeIndex)
        (addedNodesAll env rec cur s).1 (addedNodesAll env rec cur s).2 le_rfl ha.1 ha.2
      exact recordFinish_nodup env rec false _ hr.1 hr.2

/-- The records loop preserves duplicate-freedom. -/
theorem recordsAll_nodup (env : Env) (records : List Rec) (ro : Bool) :
    ∀ n ri (cur : Cursors) (s : RunSt), records.length - ri ≤ n →
      (s.reg.elements.map Prod.fst).Nodup → s.added.Nodup →
      (((recordsAll env records ro ri cur s).reg.elements.map Prod.fst).Nodup) ∧
        (recordsAll env records ro ri cur s).added.Nodup := by
  intro n
  induction n with
  | zero =>
      intro ri cur s hle h1 h2
      rw [recordsAll_of_ge env records ro ri cur s (by omega)]
      exact ⟨h1, h2⟩
  | succ n ih =>
      intro ri cur s hle h1 h2
      by_cases h : ri < records.length
      · rw [recordsAll_step env records ro ri cur s h]
        have hb := recordAll_nodup env (records.get ⟨ri, h⟩) ro cur s h1 h2
        exact ih (ri + 1) _ _ (by omega) hb.1 hb.2
      · rw [recordsAll_of_ge env records ro ri cur s h]
        exact ⟨h1, h2⟩

/-- C3: an element processed as an addition and later as a removal within
the same queue lifetime (two mutation batches of one queue, no intervening
drain): once the queue finishes draining, the element has no entry in the
elements registry, and the added-elements state of the drain no longer
holds the element (so it could be legitimately re-added later in the same
lifetime).  The registry map keys and the added set are duplicate-free, as
JavaScript `Map`/`Set` objects are. -/
theorem add_then_remove_clears (env : Env) (e tgt1 tgt2 : Elem)
    (reg0 : MState) (added0 : List Elem)
    (hhtml : env.isHTMLElement e = true) (hframe : env.isFrame e = false)
    (hnd1 : (reg0.elements.map Prod.fst).Nodup) (hnd2 : added0.Nodup) :
    mapLookup e (flushQueue env infiniteDeadline
        (FullState.mk (Queue.mk
          [QueueItem.records [Rec.mk [e] [] none tgt1] 0 Cursors.fresh false,
           QueueItem.records [Rec.mk [] [e] none tgt2] 0 Cursors.fresh false]
          0 added0) reg0)).reg.elements = none ∧
    e ∉ (flushItemsAll env
        [QueueItem.records [Rec.mk [e] [] none tgt1] 0 Cursors.fresh false,
         QueueItem.records [Rec.mk [] [e] none tgt2] 0 Cursors.fresh false]
        0 reg0 added0).2 := by
  have hXnodup := recordsAll_nodup env [Rec.mk [e] [] none tgt1] false 1 0
    Cursors.fresh (RunSt.mk reg0 added0) (by simp) hnd1 hnd2
  generalize hX : recordsAll env [Rec.mk [e] [] none tgt1] false 0
    Cursors.fresh (RunSt.mk reg0 added0) = X at hXnodup
  have hnode : removedNodeAll env e 0 none X =
      (0, none, removedChildrenAll env (env.descendants e) 0
        (RunSt.mk (addOrRemoveElement env MutationType.removed e X.reg)
          (setDel e X.added))) := by
    simp only [removedNodeAll, hhtml]
    rw [if_pos trivial]
  have hY : recordsAll env [Rec.mk [] [e] none tgt2] false 0 Cursors.fresh X =
      removedChildrenAll env (env.descendants e) 0
        (RunSt.mk (addOrRemoveElement env MutationType.removed e X.reg)
          (setDel e X.added)) := by
    rw [recordsAll_step env [Rec.mk [] [e] none tgt2] false 0 Cursors.fresh X (by simp)]
    dsimp only [List.get]
    rw [recordsAll_of_ge env [Rec.mk [] [e] none tgt2] false 1 _ _ (by simp)]
    rw [recordAll_not_ro]
    rw [addedNodesAll_of_ge env (Rec.mk [] [e] none tgt2) Cursors.fresh X (by simp)]
    dsimp only
    rw [recordAfterAddedAll]
    rw [removedNodesAll_step env (Rec.mk [] [e] none tgt2) Cursors.fresh X
      (by simp [Cursors.fresh])]
    dsimp only [List.get, Cursors.fresh]
    rw [hnode]
    dsimp only
    rw [removedNodesAll_of_ge env (Rec.mk [] [e] none tgt2) _ _ (by simp)]
    rw [recordFinish]
    dsimp only
    rw [if_neg (by simp)]
  have hdrain : flushItemsAll env
      [QueueItem.records [Rec.mk [e] [] none tgt1] 0 Cursors.fresh false,
       QueueItem.records [Rec.mk [] [e] none tgt2] 0 Cursors.fresh false]
      0 reg0 added0 =
      ((removedChildrenAll env (env.descendants e) 0
        (RunSt.mk (addOrRemoveElement env MutationType.removed e X.reg)
          (setDel e X.added))).reg,
       (removedChildrenAll env (env.descendants e) 0
        (RunSt.mk (addOrRemoveElement env MutationType.removed e X.reg)
          (setDel e X.added))).added) := by
    rw [flushItemsAll_step env _ 0 reg0 added0 (by simp)]
    dsimp only [List.get]
    rw [hX]
    rw [flushItemsAll_step env _ 1 X.reg X.added (by simp)]
    dsimp only [List.get]
    rw [flushItemsAll_of_ge env _ 2 _ _ (by simp)]
    have heta : RunSt.mk X.reg X.added = X := rfl
    rw [heta, hY]
  have habs := removedChildrenAll_absent env e (env.descendants e)
    ((env.descendants e).length) 0
    (RunSt.mk (addOrRemoveElement env MutationType.removed e X.reg)
      (setDel e X.added)) (by omega)
    (addOrRemove_removed_lookup_self env e X.reg hframe hXnodup.1)
    (not_mem_setDel_self e X.added hXnodup.2)
  constructor
  · rw [flushQueue_inf]
    show mapLookup e (flushItemsAll env
      [QueueItem.records [Rec.mk [e] [] none tgt1] 0 Cursors.fresh false,
       QueueItem.records [Rec.mk [] [e] none tgt2] 0 Cursors.fresh false]
      0 reg0 added0).1.elements = none
    rw [hdrain]
    exact habs.1
  · rw [hdrain]
    exact habs.2

/-- The add-then-remove scenario at a concrete element with a descendant,
in the small concrete DOM. -/
theorem add_then_remove_clears_witness :
    exEnvC3.isHTMLElement 1 = true ∧ exEnvC3.isFrame 1 = false ∧
    (exRegC3.elements.map Prod.fst).Nodup ∧ ([] : List Elem).Nodup ∧
    mapLookup 1 (flushQueue exEnvC3 infiniteDeadline
        (FullState.mk (Queue.mk
          [QueueItem.records [Rec.mk [1] [] none 0] 0 Cursors.fresh false,
           QueueItem.records [Rec.mk [] [1] none 0] 0 Cursors.fresh false]
          0 []) exRegC3)).reg.elements = none ∧
    (1 : Elem) ∉ (flushItemsAll exEnvC3
        [QueueItem.records [Rec.mk [1] [] none 0] 0 Cursors.fresh false,
         QueueItem.records [Rec.mk [] [1] none 0] 0 Cursors.fresh false]
        0 exRegC3 []).2 := by
  have h := add_then_remove_clears exEnvC3 1 0 0 exRegC3 [] rfl rfl
    (by simp [exRegC3]) List.nodup_nil
  exact ⟨rfl, rfl, by simp [exRegC3], List.nodup_nil, h.1, h.2⟩

/-! ### The bailed flag is one-way -/

/-- `consumeEventAttribute` never touches the bailed flag. -/
theorem consumeEventAttribute_bailed (c : Elem) (st : MState) :
    (consumeEventAttribute c st).bailed = st.bailed := by
  cases h : mapLookup c st.eventAttrs with
  | none => simp [consumeEventAttribute, h]
  | some b => cases b <;> simp [consumeEventAttribute, h]

/-- `bail` leaves the flag set. -/
theorem bail_bailed_of (st : MState) (h : st.bailed = true) : bail st = st := by
  rw [bail, if_pos h]

/-- No mutation step ever clears the bailed flag. -/
theorem addOrRemove_bailed (env : Env) (mt : MutationType) (c : Elem)
    (st : MState) (h : st.bailed = true) :
    (addOrRemoveElement env mt c st).bailed = true := by
  have hb := consumeEventAttribute_bailed c st
  simp only [addOrRemoveElement]
  by_cases hf : env.isFrame c = true
  · simp only [hf]
    cases mt <;> simp [hb, h]
  · simp only [hf]
    cases mt with
    | removed => simp [hb, h]
    | added =>
        cases hcl : classifyElem env (consumeEventAttribute c st) c with
        | none => simp [hcl, hb, h]
        | some ty => simp [hcl, hb, h]
    | changed =>
        cases hcl : classifyElem env (consumeEventAttribute c st) c with
        | none => simp [hcl, hb, h]
        | some ty => simp [hcl, hb, h]

/-- The clickable-changed step never clears the bailed flag. -/
theorem clickableChangedStep_bailed (env : Env) (t2 : Elem) (c : Bool)
    (reg : MState) (h : reg.bailed = true) :
    (clickableChangedStep env t2 c reg).bailed = true := by
  rw [clickableChangedStep]
  by_cases hh : env.isHTMLElement t2 = true
  · rw [if_pos hh]
    refine addOrRemove_bailed env MutationType.changed t2 _ ?_
    cases c <;> simp [h]
  · rw [if_neg hh]
    exact h

/-- The overflow-changed step never clears the bailed flag. -/
theorem overflowChangedStep_bailed (env : Env) (t2 : Elem) (reg : MState)
    (h : reg.bailed = true) :
    (overflowChangedStep env t2 reg).bailed = true := by
  rw [overflowChangedStep]
  by_cases hh : env.isHTMLElement t2 = true
  · rw [if_pos hh]
    by_cases hs : env.isScrollable t2 = true
    · rw [if_pos hs]
      by_cases hm : t2 ∉ reg.elementsWithScrollbars
      · rw [if_pos hm]
        exact addOrRemove_bailed env MutationType.changed t2 _ (by simp [h])
      · rw [if_neg hm]
        exact h
    · rw [if_neg hs]
      by_cases hm : t2 ∈ reg.elementsWithScrollbars
      · rw [if_pos hm]
        exact addOrRemove_bailed env MutationType.changed t2 _ (by simp [h])
      · rw [if_neg hm]
        exact h
  · rw [if_neg hh]
    exact h

/-- The added-children loop never clears the bailed flag. -/
theorem addChildrenLoop_bailed (env : Env) (d : Deadline) (children : List Elem) :
    ∀ n sci ci (s : RunSt) k, children.length - ci ≤ n → s.reg.bailed = true →
      (addChildrenLoop env d children sci ci s k).st.reg.bailed = true := by
  intro n
  induction n with
  | zero =>
      intro sci ci s k hle h
      rw [addChildrenLoop]
      have hnot : ¬ ci < children.length := by omega
      simp only [hnot, dif_neg, not_false_iff]
      exact h
  | succ n ih =>
      intro sci ci s k hle h
      by_cases hlt : ci < children.length
      · rw [addChildrenLoop, dif_pos hlt]
        by_cases hg : ci > sci ∧ d k = true
        · rw [if_pos hg]
          exact h
        · rw [if_neg hg]
          dsimp only
          by_cases hmem : children.get ⟨ci, hlt⟩ ∈ s.added
          · rw [if_pos hmem]
            exact ih sci (ci + 1) s _ (by omega) h
          · rw [if_neg hmem]
            exact ih sci (ci + 1) _ _ (by omega)
              (addOrRemove_bailed env MutationType.added _ s.reg h)
      · rw [addChildrenLoop]
        simp only [hlt, dif_neg, not_false_iff]
        exact h

/-- The removed-children loop never clears the bailed flag. -/
theorem removedChildrenLoop_bailed (env : Env) (d : Deadline) (children : List Elem) :
    ∀ n sci ci (s : RunSt) k, children.length - ci ≤ n → s.reg.bailed = true →
      (removedChildrenLoop env d children sci ci s k).st.reg.bailed = true := by
  intro n
  induction n with
  | zero =>
      intro sci ci s k hle h
      rw [removedChildrenLoop]
      have hnot : ¬ ci < children.length := by omega
      simp only [hnot, dif_neg, not_false_iff]
      exact h
  | succ n ih =>
      intro sci ci s k hle h
      by_cases hlt : ci < children.length
      · rw [removedChildrenLoop, dif_pos hlt]
        by_cases hg : ci > sci ∧ d k = true
        · rw [if_pos hg]
          exact h
        · rw [if_neg hg]
          dsimp only
          exact ih sci (ci + 1) _ _ (by omega)
            (addOrRemove_bailed env MutationType.removed _ s.reg h)
      · rw [removedChildrenLoop]
        simp only [hlt, dif_neg, not_false_iff]
        exact h

/-- The added-children block never clears the bailed flag. -/
theorem runAddChildren_bailed (env : Env) (d : Deadline) (children : List Elem)
    (ci : Nat) (s : RunSt) (k : Nat) (h : s.reg.bailed = true) :
    (runAddChildren env d children ci s k).st.reg.bailed = true := by
  rw [runAddChildren]
  by_cases hp : children.length > 0
  · rw [if_pos hp]
    have hc := addChildrenLoop_bailed env d children (children.length - ci) ci ci s k
      le_rfl h
    cases hr : addChildrenLoop env d children ci ci s k with
    | yielded ci2 s2 =>
        rw [hr] at hc
        exact hc
    | done s2 k2 =>
        rw [hr] at hc
        exact hc
  · rw [if_neg hp]
    exact h

/-- The removed-children block never clears the bailed flag. -/
theorem runRemovedChildren_bailed (env : Env) (d : Deadline) (children : List Elem)
    (ci : Nat) (s : RunSt) (k : Nat) (h : s.reg.bailed = true) :
    (runRemovedChildren env d children ci s k).st.reg.bailed = true := by
  rw [runRemovedChildren]
  by_cases hp : children.length > 0
  · rw [if_pos hp]
    have hc := removedChildrenLoop_bailed env d children (children.length - ci) ci ci s k
      le_rfl h
    cases hr : removedChildrenLoop env d children ci ci s k with
    | yielded ci2 s2 =>
        rw [hr] at hc
        exact hc
    | done s2 k2 =>
        rw [hr] at hc
        exact hc
  · rw [if_neg hp]
    exact h

/-- One added-node body never clears the bailed flag. -/
theorem addedNodeBody_bailed (env : Env) (d : Deadline) (element : Elem)
    (ci : Nat) (ch : Option (List Elem)) (s : RunSt) (k : Nat)
    (h : s.reg.bailed = true) :
    (addedNodeBody env d element ci ch s k).st.reg.bailed = true := by
  cases ch with
  | some children =>
      simp only [addedNodeBody]
      exact runAddChildren_bailed env d children ci s k h
  | none =>
      simp only [addedNodeBody]
      by_cases hh : env.isHTMLElement element = true
      · rw [if_pos hh]
        by_cases hmem : element ∈ s.added
        · rw [if_pos hmem]
          exact h
        · rw [if_neg hmem]
          by_cases hd : d k = true
          · rw [if_pos hd]
            exact addOrRemove_bailed env MutationType.added element s.reg h
          · rw [if_neg hd]
            exact runAddChildren_bailed env d (env.descendants element) ci _ (k + 1)
              (addOrRemove_bailed env MutationType.added element s.reg h)
      · rw [if_neg hh]
        exact h

/-- One removed-node body never clears the bailed flag. -/
theorem removedNodeBody_bailed (env : Env) (d : Deadline) (element : Elem)
    (ci : Nat) (ch : Option (List Elem)) (s : RunSt) (k : Nat)
    (h : s.reg.bailed = true) :
    (removedNodeBody env d element ci ch s k).st.reg.bailed = true := by
  cases ch with
  | some children =>
      simp only [removedNodeBody]
      exact runRemovedChildren_bailed env d children ci s k h
  | none =>
      simp only [removedNodeBody]
      by_cases hh : env.isHTMLElement element = true
      · rw [if_pos hh]
        by_cases hd : d k = true
        · rw [if_pos hd]
          exact addOrRemove_bailed env MutationType.removed element s.reg h
        · rw [if_neg hd]
          exact runRemovedChildren_bailed env d (env.descendants element) ci _ (k + 1)
            (addOrRemove_bailed env MutationType.removed element s.reg h)
      · rw [if_neg hh]
        exact h

/-- The added-nodes loop never clears the bailed flag. -/
theorem addedNodesLoop_bailed (env : Env) (d : Deadline) (rec : Rec) :
    ∀ n sai (cur : Cursors) (s : RunSt) k,
      rec.addedNodes.length - cur.addedNodeIndex ≤ n → s.reg.bailed = true →
      (addedNodesLoop env d rec sai cur s k).st.reg.bailed = true := by
  intro n
  induction n with
  | zero =>
      intro sai cur s k hle h
      rw [addedNodesLoop]
      have hnot : ¬ cur.addedNodeIndex < rec.addedNodes.length := by omega
      simp only [hnot, dif_neg, not_false_iff]
      exact h
  | succ n ih =>
      intro sai cur s k hle h
      by_cases hlt : cur.addedNodeIndex < rec.addedNodes.length
      · rw [addedNodesLoop, dif_pos hlt]
        by_cases hg : cur.addedNodeIndex > sai ∧ d k = true
        · rw [if_pos hg]
          exact h
        · rw [if_neg hg]
          have hb := addedNodeBody_bailed env d
            (rec.addedNodes.get ⟨cur.addedNodeIndex, hlt⟩) cur.childIndex cur.children s
            (if cur.addedNodeIndex > sai then k + 1 else k) h
          cases hr : addedNodeBody env d (rec.addedNodes.get ⟨cur.addedNodeIndex, hlt⟩)
              cur.childIndex cur.children s
              (if cur.addedNodeIndex > sai then k + 1 else k) with
          | yielded ci2 ch2 s2 =>
              rw [hr] at hb
              exact hb
          | cont ci2 ch2 s2 k2 =>
              rw [hr] at hb
              exact ih sai _ s2 k2 (by simp; omega) hb
      · rw [addedNodesLoop]
        simp only [hlt, dif_neg, not_false_iff]
        exact h

/-- The removed-nodes loop never clears the bailed flag. -/
theorem removedNodesLoop_bailed (env : Env) (d : Deadline) (rec : Rec) :
    ∀ n sri (cur : Cursors) (s : RunSt) k,
      rec.removedNodes.length - cur.removedNodeIndex ≤ n → s.reg.bailed = true →
      (removedNodesLoop env d rec sri cur s k).st.reg.bailed = true := by
  intro n
  induction n with
  | zero =>
      intro sri cur s k hle h
      rw [removedNodesLoop]
      have hnot : ¬ cur.removedNodeIndex < rec.removedNodes.length := by omega
      simp only [hnot, dif_neg, not_false_iff]
      exact h
  | succ n ih =>
      intro sri cur s k hle h
      by_cases hlt : cur.removedNodeIndex < rec.removedNodes.length
      · rw [removedNodesLoop, dif_pos hlt]
        by_cases hg : cur.removedNodeIndex > sri ∧ d k = true
        · rw [if_pos hg]
          exact h
        · rw [if_neg hg]
          have hb := removedNodeBody_bailed env d
            (rec.removedNodes.get ⟨cur.removedNodeIndex, hlt⟩) cur.childIndex cur.children s
            (if cur.removedNodeIndex > sri then k + 1 else k) h
          cases hr : removedNodeBody env d (rec.removedNodes.get ⟨cur.removedNodeIndex, hlt⟩)
              cur.childIndex cur.children s
              (if cur.removedNodeIndex > sri then k + 1 else k) with
          | yielded ci2 ch2 s2 =>
              rw [hr] at hb
              exact hb
          | cont ci2 ch2 s2 k2 =>
              rw [hr] at hb
              exact ih sri _ s2 k2 (by simp; omega) hb
      · rw [removedNodesLoop]
        simp only [hlt, dif_neg, not_false_iff]
        exact h

/-- The record tail never clears the bailed flag. -/
theorem recordAfterAdded_bailed (env : Env) (d : Deadline) (rec : Rec) (ro : Bool)
    (cur : Cursors) (s : RunSt) (k : Nat) (h : s.reg.bailed = true) :
    (recordAfterAdded env d rec ro cur s k).st.reg.bailed = true := by
  rw [recordAfterAdded]
  have hb := removedNodesLoop_bailed env d rec
    (rec.removedNodes.length - cur.removedNodeIndex) cur.removedNodeIndex cur s k
    le_rfl h
  cases hr : removedNodesLoop env d rec cur.removedNodeIndex cur s k with
  | yielded cur2 s2 =>
      rw [hr] at hb
      exact hb
  | done cur2 s2 k2 =>
      rw [hr] at hb
      dsimp only [RecsStep.st, CursorStep.st] at hb ⊢
      split_ifs
      · exact addOrRemove_bailed env MutationType.changed rec.target s2.reg hb
      · exact hb

/-- One record body never clears the bailed flag. -/
theorem recordBody_bailed (env : Env) (d : Deadline) (rec : Rec) (ro : Bool)
    (cur : Cursors) (s : RunSt) (k : Nat) (h : s.reg.bailed = true) :
    (recordBody env d rec ro cur s k).st.reg.bailed = true := by
  rw [recordBody]
  by_cases hro : ro = true
  · rw [if_pos hro]
    exact recordAfterAdded_bailed env d rec ro cur s k h
  · rw [if_neg hro]
    have hb := addedNodesLoop_bailed env d rec
      (rec.addedNodes.length - cur.addedNodeIndex) cur.addedNodeIndex cur s k le_rfl h
    cases hr : addedNodesLoop env d rec cur.addedNodeIndex cur s k with
    | yielded cur2 s2 =>
        rw [hr] at hb
        exact hb
    | done cur2 s2 k2 =>
        rw [hr] at hb
        exact recordAfterAdded_bailed env d rec ro cur2 s2 k2 hb

/-- The records loop never clears the bailed flag. -/
theorem recordsLoop_bailed (env : Env) (d : Deadline) (records : List Rec) (ro : Bool) :
    ∀ n sri ri (cur : Cursors) (s : RunSt) k,
      records.length - ri ≤ n → s.reg.bailed = true →
      (recordsLoop env d records ro sri ri cur s k).st.reg.bailed = true := by
  intro n
  induction n with
  | zero =>
      intro sri ri cur s k hle h
      rw [recordsLoop]
      have hnot : ¬ ri < records.length := by omega
      simp only [hnot, dif_neg, not_false_iff]
      exact h
  | succ n ih =>
      intro sri ri cur s k hle h
      by_cases hlt : ri < records.length
      · rw [recordsLoop, dif_pos hlt]
        by_cases hg : ri > sri ∧ d k = true
        · rw [if_pos hg]
          exact h
        · rw [if_neg hg]
          have hb := recordBody_bailed env d (records.get ⟨ri, hlt⟩) ro cur s
            (if ri > sri then k + 1 else k) h
          cases hr : recordBody env d (records.get ⟨ri, hlt⟩) ro cur s
              (if ri > sri then k + 1 else k) with
          | yielded cur2 s2 =>
              rw [hr] at hb
              exact hb
          | done cur2 s2 k2 =>
              rw [hr] at hb
              exact ih sri (ri + 1) cur2 s2 k2 (by omega) hb
      · rw [recordsLoop]
        simp only [hlt, dif_neg, not_false_iff]
        exact h

/-- The queue loop never clears the bailed flag. -/
theorem flushLoop_bailed (env : Env) (d : Deadline) :
    ∀ n (fs : FullState) sq k,
      fs.queue.items.length - fs.queue.index ≤ n → fs.reg.bailed = true →
      (flushLoop env d sq fs k).reg.bailed = true := by
  intro n
  induction n with
  | zero =>
      intro fs sq k hle h
      rw [flushLoop]
      have hnot : ¬ fs.queue.index < fs.queue.items.length := by omega
      simp only [hnot, dif_neg, not_false_iff]
      exact h
  | succ n ih =>
      intro fs sq k hle h
      by_cases hlt : fs.queue.index < fs.queue.items.length
      · rw [flushLoop, dif_pos hlt]
        by_cases hg : fs.queue.index > sq ∧ d k = true
        · rw [if_pos hg]
          exact h
        · rw [if_neg hg]
          cases hget : fs.queue.items.get ⟨fs.queue.index, hlt⟩ with
          | records records ri cur ro =>
              dsimp only
              have hb := recordsLoop_bailed env d records ro
                (records.length - ri) ri ri cur
                (RunSt.mk fs.reg fs.queue.addedElements)
                (if fs.queue.index > sq then k + 1 else k) le_rfl h
              cases hloop : recordsLoop env d records ro ri ri cur
                  (RunSt.mk fs.reg fs.queue.addedElements)
                  (if fs.queue.index > sq then k + 1 else k) with
              | yielded ri2 cur2 s2 =>
                  rw [hloop] at hb
                  exact hb
              | done ri2 cur2 s2 k2 =>
                  rw [hloop] at hb
                  exact ih _ sq k2 (by simp [List.length_set]; omega) hb
          | clickableChanged target clickable =>
              dsimp only
              exact ih _ sq _ (by simp; omega)
                (clickableChangedStep_bailed env target clickable fs.reg h)
          | overflowChanged target =>
              dsimp only
              exact ih _ sq _ (by simp; omega)
                (overflowChangedStep_bailed env target fs.reg h)
      · rw [flushLoop]
        simp only [hlt, dif_neg, not_false_iff]
        exact h

/-- A lifetime run never clears the bailed flag. -/
theorem runOps_bailed (env : Env) :
    ∀ (ops : List MOp) (fs : FullState), fs.reg.bailed = true →
      (runOps env ops fs).reg.bailed = true := by
  intro ops
  induction ops with
  | nil =>
      intro fs h
      exact h
  | cons op ops ih =>
      intro fs h
      have hcons : runOps env (op :: ops) fs = runOps env ops (mopStep env op fs) := rfl
      rw [hcons]
      refine ih (mopStep env op fs) ?_
      cases op with
      | flush d =>
          exact flushLoop_bailed env d
            (fs.queue.items.length - fs.queue.index) fs fs.queue.index 0 le_rfl h
      | enqueue item => exact h
      | intersect e isIn =>
          rw [mopStep, onIntersectionStep]
          split_ifs <;> exact h
      | frameIntersect e isIn =>
          rw [mopStep, onFrameIntersectionStep]
          split_ifs <;> exact h

/-- A bailed manager queried without passed candidates and outside
selectable mode scans the registry keys, but an update query (one passed
an explicit candidates list, as position updates during hints mode are)
keeps its passed list even when bailed. -/
theorem bail_candidates_counterexample :
    ∃ (st : MState) (passed allElements : List Elem),
      st.bailed = true ∧
      getVisibleElementsCandidates (some passed) false allElements st ≠
        st.elements.map Prod.fst := by
  refine ⟨⟨[(1, ElementType.link)], [], [], [], [], [], [], [], true⟩, [2], [], rfl, ?_⟩
  decide

/-- C2 (amended): one-way bail degradation.  `bail` is a no-op once the
flag is set; its first activation sets the flag, clears the
intersection-tracked visible set and drops the observation set; crossing
the tracking ceiling during a non-removal mutation step activates it; no
lifetime step (flushes under any deadlines, queueing, observer callbacks)
ever clears the flag; and every subsequent non-selectable
`getVisibleElements` query in which no candidates list is passed uses the
entire registry (`this.elements.keys()`) as its candidate set. -/
theorem bail_one_way (env : Env) :
    (∀ st : MState, st.bailed = true → bail st = st) ∧
    (∀ st : MState, st.bailed = false →
      (bail st).bailed = true ∧ (bail st).visibleElements = [] ∧
        (bail st).observed = []) ∧
    (∀ (mt : MutationType) (c : Elem) (st : MState) (ty : ElementType),
      mt ≠ MutationType.removed → env.isFrame c = false → st.bailed = false →
      classifyElem env (consumeEventAttribute c st) c = some ty →
      (mapSet c ty (consumeEventAttribute c st).elements).length > env.maxTracked →
      (addOrRemoveElement env mt c st).bailed = true) ∧
    (∀ (fs : FullState) (ops : List MOp), fs.reg.bailed = true →
      (runOps env ops fs).reg.bailed = true) ∧
    (∀ (st : MState) (allElements : List Elem), st.bailed = true →
      getVisibleElementsCandidates none false allElements st =
        st.elements.map Prod.fst) := by
  refine ⟨?_, ?_, ?_, ?_, ?_⟩
  · intro st h
    exact bail_bailed_of st h
  · intro st h
    rw [bail, if_neg (by simp [h])]
    exact ⟨rfl, rfl, rfl⟩
  · intro mt c st ty hmt hf hb hcl hlen
    cases mt with
    | removed => exact absurd rfl hmt
    | added =>
        simp only [addOrRemoveElement]
        rw [if_neg (by simp [hf])]
        rw [hcl]
        dsimp only
        rw [if_pos (by simp [consumeEventAttribute_bailed, hb])]
        rw [if_pos (by simpa using hlen)]
        rw [bail, if_neg (by simp [consumeEventAttribute_bailed, hb])]
    | changed =>
        simp only [addOrRemoveElement]
        rw [if_neg (by simp [hf])]
        rw [hcl]
        dsimp only
        rw [if_pos (by simp [consumeEventAttribute_bailed, hb])]
        rw [if_pos (by simpa using hlen)]
        rw [bail, if_neg (by simp [consumeEventAttribute_bailed, hb])]
  · intro fs ops h
    exact runOps_bailed env ops fs h
  · intro st allElements h
    simp [getVisibleElementsCandidates, h]

/-- The one-way bail degradation at concrete states: a no-op second
`bail`, a clearing first `bail`, a ceiling crossing, a five-step lifetime
keeping the flag, and a registry-keys candidate set. -/
theorem bail_one_way_witness :
    (exStBailedC2.bailed = true ∧ bail exStBailedC2 = exStBailedC2) ∧
    (exStFreshC2.bailed = false ∧ (bail exStFreshC2).bailed = true ∧
      (bail exStFreshC2).visibleElements = [] ∧ (bail exStFreshC2).observed = []) ∧
    (exEnvC2.isFrame 1 = false ∧ exStTrigC2.bailed = false ∧
      classifyElem exEnvC2 (consumeEventAttribute 1 exStTrigC2) 1 =
        some ElementType.clickable ∧
      (mapSet 1 ElementType.clickable
        (consumeEventAttribute 1 exStTrigC2).elements).length > exEnvC2.maxTracked ∧
      (addOrRemoveElement exEnvC2 MutationType.added 1 exStTrigC2).bailed = true) ∧
    (exFSC2.reg.bailed = true ∧ (runOps exEnvC2 exOpsC2 exFSC2).reg.bailed = true) ∧
    getVisibleElementsCandidates none false [9] exStBailedC2 =
      exStBailedC2.elements.map Prod.fst := by
  have h := bail_one_way exEnvC2
  refine ⟨⟨rfl, h.1 exStBailedC2 rfl⟩, ⟨rfl, (h.2.1 exStFreshC2 rfl).1,
      (h.2.1 exStFreshC2 rfl).2.1, (h.2.1 exStFreshC2 rfl).2.2⟩,
    ⟨rfl, rfl, by decide, by decide,
      h.2.2.1 MutationType.added 1 exStTrigC2 ElementType.clickable (by decide) rfl rfl
        (by decide) (by decide)⟩,
    ⟨rfl, h.2.2.2.1 exFSC2 exOpsC2 rfl⟩,
    h.2.2.2.2 exStBailedC2 [9] rfl⟩

/-! ### Per-slice progress: measure bookkeeping -/

/-- Splitting the mapped sum of a dropped list at its head. -/
theorem sum_map_drop_succ {α : Type} (l : List α) (f : α → Nat) (i : Nat)
    (h : i < l.length) :
    ((l.drop i).map f).sum = f (l.get ⟨i, h⟩) + ((l.drop (i + 1)).map f).sum := by
  rw [List.drop_eq_getElem_cons h, List.map_cons, List.sum_cons]
  rw [List.get_eq_getElem]

/-- Splitting the remaining node work at the current node. -/
theorem listWorkFrom_succ (env : Env) (nodes : List Elem) (i : Nat)
    (h : i < nodes.length) :
    listWorkFrom env nodes i =
      nodeFull env (nodes.get ⟨i, h⟩) + listWorkFrom env nodes (i + 1) := by
  rw [listWorkFrom, listWorkFrom]
  exact sum_map_drop_succ nodes (nodeFull env) i h

/-- A write strictly below the drop point is invisible. -/
theorem drop_set_of_lt {α : Type} :
    ∀ (l : List α) (i : Nat) (v : α) (j : Nat), i < j →
      (l.set i v).drop j = l.drop j := by
  intro l
  induction l with
  | nil => intro i v j _; rfl
  | cons a l ih =>
      intro i v j hij
      cases i with
      | zero =>
          cases j with
          | zero => omega
          | succ j => rfl
      | succ i =>
          cases j with
          | zero => omega
          | succ j =>
              show (a :: l.set i v).drop (j + 1) = _
              show (l.set i v).drop j = l.drop j
              exact ih i v j (by omega)

/-- Dropping at the written position exposes the written value. -/
theorem drop_set_self {α : Type} (l : List α) (i : Nat) (v : α)
    (h : i < l.length) :
    (l.set i v).drop i = v :: l.drop (i + 1) := by
  have hset : i < (l.set i v).length := by simp [List.length_set]; omega
  rw [List.drop_eq_getElem_cons hset]
  have hv : (l.set i v)[i] = v := List.getElem_set_self ..
  rw [hv, drop_set_of_lt l i v (i + 1) (by omega)]

/-- Membership after a write. -/
theorem mem_set_of {α : Type} :
    ∀ (l : List α) (i : Nat) (v x : α), x ∈ l.set i v → x = v ∨ x ∈ l := by
  intro l
  induction l with
  | nil => intro i v x hx; simp [List.set] at hx
  | cons a l ih =>
      intro i v x hx
      cases i with
      | zero =>
          rcases List.mem_cons.mp hx with h | h
          · exact Or.inl h
          · exact Or.inr (List.mem_cons.mpr (Or.inr h))
      | succ i =>
          rcases List.mem_cons.mp hx with h | h
          · exact Or.inr (List.mem_cons.mpr (Or.inl h))
          · rcases ih i v x h with h2 | h2
            · exact Or.inl h2
            · exact Or.inr (List.mem_cons.mpr (Or.inr h2))

/-- Fresh cursors are consistent. -/
theorem curInv_fresh (rec : Rec) (ro : Bool) : curInv rec ro Cursors.fresh := by
  constructor
  · intro _; rfl
  · intro hne
    exact absurd rfl hne

/-- Every queue item costs at least one unit. -/
theorem itemWork_pos (env : Env) (item : QueueItem) : 1 ≤ itemWork env item := by
  cases item <;> simp [itemWork]

/-- A node always has remaining work. -/
theorem nodeRem_pos (env : Env) (n : Elem) (ci : Nat) (ch : Option (List Elem)) :
    1 ≤ nodeRem env n ci ch := by
  cases ch with
  | none =>
      simp only [nodeRem, nodeFull]
      omega
  | some cs =>
      simp only [nodeRem]
      omega

/-- A yield of the added-children loop sits strictly past the captured
start index and strictly inside the list. -/
theorem addChildrenLoop_yield_bounds (env : Env) (d : Deadline) (cs : List Elem) :
    ∀ n sci ci (s : RunSt) k, cs.length - ci ≤ n →
      ∀ ci2 s2, addChildrenLoop env d cs sci ci s k = ChildStep.yielded ci2 s2 →
        sci < ci2 ∧ ci2 < cs.length := by
  intro n
  induction n with
  | zero =>
      intro sci ci s k hle ci2 s2 heq
      rw [addChildrenLoop] at heq
      have hnot : ¬ ci < cs.length := by omega
      simp [hnot] at heq
  | succ n ih =>
      intro sci ci s k hle ci2 s2 heq
      by_cases h : ci < cs.length
      · rw [addChildrenLoop, dif_pos h] at heq
        by_cases hg : ci > sci ∧ d k = true
        · rw [if_pos hg] at heq
          injection heq with h1 h2
          subst h1
          exact ⟨hg.1, h⟩
        · rw [if_neg hg] at heq
          exact ih sci (ci + 1) _ _ (by omega) ci2 s2 heq
      · rw [addChildrenLoop] at heq
        simp [h] at heq

/-- A yield of the removed-children loop sits strictly past the captured
start index and strictly inside the list. -/
theorem removedChildrenLoop_yield_bounds (env : Env) (d : Deadline) (cs : List Elem) :
    ∀ n sci ci (s : RunSt) k, cs.length - ci ≤ n →
      ∀ ci2 s2, removedChildrenLoop env d cs sci ci s k = ChildStep.yielded ci2 s2 →
        sci < ci2 ∧ ci2 < cs.length := by
  intro n
  induction n with
  | zero =>
      intro sci ci s k hle ci2 s2 heq
      rw [removedChildrenLoop] at heq
      have hnot : ¬ ci < cs.length := by omega
      simp [hnot] at heq
  | succ n ih =>
      intro sci ci s k hle ci2 s2 heq
      by_cases h : ci < cs.length
      · rw [removedChildrenLoop, dif_pos h] at heq
        by_cases hg : ci > sci ∧ d k = true
        · rw [if_pos hg] at heq
          injection heq with h1 h2
          subst h1
          exact ⟨hg.1, h⟩
        · rw [if_neg hg] at heq
          exact ih sci (ci + 1) _ _ (by omega) ci2 s2 heq
      · rw [removedChildrenLoop] at heq
        simp [h] at heq

/-- A yield of the added-children block keeps the same children list and
advances the child index. -/
theorem runAddChildren_yield_keeps (env : Env) (d : Deadline) (cs : List Elem)
    (ci : Nat) (s : RunSt) (k : Nat) (ci2 : Nat) (ch2 : Option (List Elem))
    (s2 : RunSt)
    (heq : runAddChildren env d cs ci s k = NodeBodyRes.yielded ci2 ch2 s2) :
    ch2 = some cs ∧ ci < ci2 ∧ ci2 < cs.length := by
  rw [runAddChildren] at heq
  by_cases hp : cs.length > 0
  · rw [if_pos hp] at heq
    cases hr : addChildrenLoop env d cs ci ci s k with
    | yielded ci3 s3 =>
        rw [hr] at heq
        injection heq with h1 h2 h3
        subst h1; subst h2
        have := addChildrenLoop_yield_bounds env d cs (cs.length - ci) ci ci s k
          le_rfl ci3 s3 hr
        exact ⟨rfl, this.1, this.2⟩
    | done s3 k3 =>
        rw [hr] at heq
        exact absurd heq (by simp)
  · rw [if_neg hp] at heq
    exact absurd heq (by simp)

/-- A yield of the removed-children block keeps the same children list and
advances the child index. -/
theorem runRemovedChildren_yield_keeps (env : Env) (d : Deadline) (cs : List Elem)
    (ci : Nat) (s : RunSt) (k : Nat) (ci2 : Nat) (ch2 : Option (List Elem))
    (s2 : RunSt)
    (heq : runRemovedChildren env d cs ci s k = NodeBodyRes.yielded ci2 ch2 s2) :
    ch2 = some cs ∧ ci < ci2 ∧ ci2 < cs.length := by
  rw [runRemovedChildren] at heq
  by_cases hp : cs.length > 0
  · rw [if_pos hp] at heq
    cases hr : removedChildrenLoop env d cs ci ci s k with
    | yielded ci3 s3 =>
        rw [hr] at heq
        injection heq with h1 h2 h3
        subst h1; subst h2
        have := removedChildrenLoop_yield_bounds env d cs (cs.length - ci) ci ci s k
          le_rfl ci3 s3 hr
        exact ⟨rfl, this.1, this.2⟩
    | done s3 k3 =>
        rw [hr] at heq
        exact absurd heq (by simp)
  · rw [if_neg hp] at heq
    exact absurd heq (by simp)

/-- A continuation of the added-children block resets the child cursor. -/
theorem runAddChildren_cont (env : Env) (d : Deadline) (cs : List Elem)
    (ci : Nat) (s : RunSt) (k : Nat) (ci2 : Nat) (ch2 : Option (List Elem))
    (s2 : RunSt) (k2 : Nat)
    (heq : runAddChildren env d cs ci s k = NodeBodyRes.cont ci2 ch2 s2 k2) :
    ci2 = 0 ∧ ch2 = none := by
  rw [runAddChildren] at heq
  by_cases hp : cs.length > 0
  · rw [if_pos hp] at heq
    cases hr : addChildrenLoop env d cs ci ci s k with
    | yielded ci3 s3 =>
        rw [hr] at heq
        exact absurd heq (by simp)
    | done s3 k3 =>
        rw [hr] at heq
        injection heq with h1 h2 h3 h4
        exact ⟨h1.symm, h2.symm⟩
  · rw [if_neg hp] at heq
    injection heq with h1 h2 h3 h4
    exact ⟨h1.symm, h2.symm⟩

/-- A continuation of the removed-children block resets the child
cursor. -/
theorem runRemovedChildren_cont (env : Env) (d : Deadline) (cs : List Elem)
    (ci : Nat) (s : RunSt) (k : Nat) (ci2 : Nat) (ch2 : Option (List Elem))
    (s2 : RunSt) (k2 : Nat)
    (heq : runRemovedChildren env d cs ci s k = NodeBodyRes.cont ci2 ch2 s2 k2) :
    ci2 = 0 ∧ ch2 = none := by
  rw [runRemovedChildren] at heq
  by_cases hp : cs.length > 0
  · rw [if_pos hp] at heq
    cases hr : removedChildrenLoop env d cs ci ci s k with
    | yielded ci3 s3 =>
        rw [hr] at heq
        exact absurd heq (by simp)
    | done s3 k3 =>
        rw [hr] at heq
        injection heq with h1 h2 h3 h4
        exact ⟨h1.symm, h2.symm⟩
  · rw [if_neg hp] at heq
    injection heq with h1 h2 h3 h4
    exact ⟨h1.symm, h2.symm⟩

/-- A yield of one added-node body strictly reduces the node's remaining
work and leaves a saved children list. -/
theorem addedNodeBody_yield_work (env : Env) (d : Deadline) (n : Elem)
    (ci : Nat) (ch0 : Option (List Elem)) (s : RunSt) (k : Nat)
    (hci : ch0 = none → ci = 0) (ci2 : Nat) (ch2 : Option (List Elem)) (s2 : RunSt)
    (heq : addedNodeBody env d n ci ch0 s k = NodeBodyRes.yielded ci2 ch2 s2) :
    nodeRem env n ci2 ch2 < nodeRem env n ci ch0 ∧ ch2 ≠ none := by
  cases ch0 with
  | some cs =>
      simp only [addedNodeBody] at heq
      have hr := runAddChildren_yield_keeps env d cs ci s k ci2 ch2 s2 heq
      refine ⟨?_, by simp [hr.1]⟩
      rw [hr.1]
      simp only [nodeRem]
      have h1 := hr.2.1
      have h2 := hr.2.2
      omega
  | none =>
      have hci0 := hci rfl
      subst hci0
      simp only [addedNodeBody] at heq
      by_cases hh : env.isHTMLElement n = true
      · rw [if_pos hh] at heq
        by_cases hmem : n ∈ s.added
        · rw [if_pos hmem] at heq
          exact absurd heq (by simp)
        · rw [if_neg hmem] at heq
          by_cases hd : d k = true
          · rw [if_pos hd] at heq
            injection heq with h1 h2 h3
            subst h1; subst h2
            refine ⟨?_, by simp⟩
            simp only [nodeRem, nodeFull]
            omega
          · rw [if_neg hd] at heq
            have hr := runAddChildren_yield_keeps env d (env.descendants n) 0 _ (k + 1)
              ci2 ch2 s2 heq
            refine ⟨?_, by simp [hr.1]⟩
            rw [hr.1]
            simp only [nodeRem, nodeFull]
            have h2 := hr.2.2
            omega
      · rw [if_neg hh] at heq
        exact absurd heq (by simp)

/-- A yield of one removed-node body strictly reduces the node's remaining
work and leaves a saved children list. -/
theorem removedNodeBody_yield_work (env : Env) (d : Deadline) (n : Elem)
    (ci : Nat) (ch0 : Option (List Elem)) (s : RunSt) (k : Nat)
    (hci : ch0 = none → ci = 0) (ci2 : Nat) (ch2 : Option (List Elem)) (s2 : RunSt)
    (heq : removedNodeBody env d n ci ch0 s k = NodeBodyRes.yielded ci2 ch2 s2) :
    nodeRem env n ci2 ch2 < nodeRem env n ci ch0 ∧ ch2 ≠ none := by
  cases ch0 with
  | some cs =>
      simp only [removedNodeBody] at heq
      have hr := runRemovedChildren_yield_keeps env d cs ci s k ci2 ch2 s2 heq
      refine ⟨?_, by simp [hr.1]⟩
      rw [hr.1]
      simp only [nodeRem]
      have h1 := hr.2.1
      have h2 := hr.2.2
      omega
  | none =>
      have hci0 := hci rfl
      subst hci0
      simp only [removedNodeBody] at heq
      by_cases hh : env.isHTMLElement n = true
      · rw [if_pos hh] at heq
        by_cases hd : d k = true
        · rw [if_pos hd] at heq
          injection heq with h1 h2 h3
          subst h1; subst h2
          refine ⟨?_, by simp⟩
          simp only [nodeRem, nodeFull]
          omega
        · rw [if_neg hd] at heq
          have hr := runRemovedChildren_yield_keeps env d (env.descendants n) 0 _ (k + 1)
            ci2 ch2 s2 heq
          refine ⟨?_, by simp [hr.1]⟩
          rw [hr.1]
          simp only [nodeRem, nodeFull]
          have h2 := hr.2.2
          omega
      · rw [if_neg hh] at heq
        exact absurd heq (by simp)

/-- A continuation of one added-node body resets the child cursor. -/
theorem addedNodeBody_cont_reset (env : Env) (d : Deadline) (n : Elem)
    (ci : Nat) (ch0 : Option (List Elem)) (s : RunSt) (k : Nat)
    (hci : ch0 = none → ci = 0) (ci2 : Nat) (ch2 : Option (List Elem)) (s2 : RunSt)
    (k2 : Nat)
    (heq : addedNodeBody env d n ci ch0 s k = NodeBodyRes.cont ci2 ch2 s2 k2) :
    ci2 = 0 ∧ ch2 = none := by
  cases ch0 with
  | some cs =>
      simp only [addedNodeBody] at heq
      exact runAddChildren_cont env d cs ci s k ci2 ch2 s2 k2 heq
  | none =>
      have hci0 := hci rfl
      subst hci0
      simp only [addedNodeBody] at heq
      by_cases hh : env.isHTMLElement n = true
      · rw [if_pos hh] at heq
        by_cases hmem : n ∈ s.added
        · rw [if_pos hmem] at heq
          injection heq with h1 h2 h3 h4
          exact ⟨h1.symm, h2.symm⟩
        · rw [if_neg hmem] at heq
          by_cases hd : d k = true
          · rw [if_pos hd] at heq
            exact absurd heq (by simp)
          · rw [if_neg hd] at heq
            exact runAddChildren_cont env d (env.descendants n) 0 _ (k + 1)
              ci2 ch2 s2 k2 heq
      · rw [if_neg hh] at heq
        injection heq with h1 h2 h3 h4
        exact ⟨h1.symm, h2.symm⟩

/-- A continuation of one removed-node body resets the child cursor. -/
theorem removedNodeBody_cont_reset (env : Env) (d : Deadline) (n : Elem)
    (ci : Nat) (ch0 : Option (List Elem)) (s : RunSt) (k : Nat)
    (hci : ch0 = none → ci = 0) (ci2 : Nat) (ch2 : Option (List Elem)) (s2 : RunSt)
    (k2 : Nat)
    (heq : removedNodeBody env d n ci ch0 s k = NodeBodyRes.cont ci2 ch2 s2 k2) :
    ci2 = 0 ∧ ch2 = none := by
  cases ch0 with
  | some cs =>
      simp only [removedNodeBody] at heq
      exact runRemovedChildren_cont env d cs ci s k ci2 ch2 s2 k2 heq
  | none =>
      have hci0 := hci rfl
      subst hci0
      simp only [removedNodeBody] at heq
      by_cases hh : env.isHTMLElement n = true
      · rw [if_pos hh] at heq
        by_cases hd : d k = true
        · rw [if_pos hd] at heq
          exact absurd heq (by simp)
        · rw [if_neg hd] at heq
          exact runRemovedChildren_cont env d (env.descendants n) 0 _ (k + 1)
            ci2 ch2 s2 k2 heq
      · rw [if_neg hh] at heq
        injection heq with h1 h2 h3 h4
        exact ⟨h1.symm, h2.symm⟩

/-- Splitting the remaining phase work at the current node. -/
theorem phaseWork_eq (env : Env) (nodes : List Elem) (idx ci : Nat)
    (ch : Option (List Elem)) (h : idx < nodes.length) :
    phaseWork env nodes idx ci ch =
      nodeRem env (nodes.get ⟨idx, h⟩) ci ch + listWorkFrom env nodes (idx + 1) := by
  cases ch with
  | none =>
      simp only [phaseWork, nodeRem]
      exact listWorkFrom_succ env nodes idx h
  | some cs => rfl

/-- A yield of the added-nodes loop: either the loop yielded immediately
at its budget check, or it strictly reduced the phase work; either way the
cursor points at an active node and stays consistent. -/
theorem addedNodesLoop_yield_work (env : Env) (d : Deadline) (rec : Rec) :
    ∀ n sai (cur : Cursors) (s : RunSt) k,
      rec.addedNodes.length - cur.addedNodeIndex ≤ n →
      (cur.children = none → cur.childIndex = 0) →
      ∀ cur2 s2, addedNodesLoop env d rec sai cur s k = CursorStep.yielded cur2 s2 →
        (cur2 = cur ∧ s2 = s ∧ sai < cur.addedNodeIndex ∧
          cur.addedNodeIndex < rec.addedNodes.length) ∨
        (phaseWork env rec.addedNodes cur2.addedNodeIndex cur2.childIndex cur2.children <
            phaseWork env rec.addedNodes cur.addedNodeIndex cur.childIndex cur.children ∧
          cur2.addedNodeIndex < rec.addedNodes.length ∧
          cur2.removedNodeIndex = cur.removedNodeIndex ∧
          (cur2.children = none → cur2.childIndex = 0)) := by
  intro n
  induction n with
  | zero =>
      intro sai cur s k hle hci cur2 s2 heq
      rw [addedNodesLoop] at heq
      have hnot : ¬ cur.addedNodeIndex < rec.addedNodes.length := by omega
      simp [hnot] at heq
  | succ n ih =>
      intro sai cur s k hle hci cur2 s2 heq
      by_cases h : cur.addedNodeIndex < rec.addedNodes.length
      · rw [addedNodesLoop, dif_pos h] at heq
        by_cases hg : cur.addedNodeIndex > sai ∧ d k = true
        · rw [if_pos hg] at heq
          injection heq with h1 h2
          exact Or.inl ⟨h1.symm, h2.symm, hg.1, h⟩
        · rw [if_neg hg] at heq
          cases hb : addedNodeBody env d (rec.addedNodes.get ⟨cur.addedNodeIndex, h⟩)
              cur.childIndex cur.children s
              (if cur.addedNodeIndex > sai then k + 1 else k) with
          | yielded ci2 ch2 s2b =>
              rw [hb] at heq
              injection heq with h1 h2
              have hw := addedNodeBody_yield_work env d
                (rec.addedNodes.get ⟨cur.addedNodeIndex, h⟩) cur.childIndex cur.children
                s _ hci ci2 ch2 s2b hb
              refine Or.inr ?_
              rw [← h1]
              refine ⟨?_, by simp [h], by simp, ?_⟩
              · rw [phaseWork_eq env rec.addedNodes _ _ _ (by simp [h]),
                  phaseWork_eq env rec.addedNodes _ _ _ h]
                simp only []
                have := hw.1
                omega
              · intro habs
                simp only [] at habs
                exact absurd habs hw.2
          | cont ci2 ch2 s2b k2 =>
              rw [hb] at heq
              have hreset := addedNodeBody_cont_reset env d
                (rec.addedNodes.get ⟨cur.addedNodeIndex, h⟩) cur.childIndex cur.children
                s _ hci ci2 ch2 s2b k2 hb
              have hihci : ({ cur with
                  addedNodeIndex := cur.addedNodeIndex + 1,
                  childIndex := ci2, children := ch2 } : Cursors).children = none →
                  ({ cur with
                    addedNodeIndex := cur.addedNodeIndex + 1,
                    childIndex := ci2, children := ch2 } : Cursors).childIndex = 0 := by
                intro _
                simp [hreset.1]
              have hrec := ih sai _ s2b k2 (by simp; omega) hihci cur2 s2 heq
              have hlt : phaseWork env rec.addedNodes (cur.addedNodeIndex + 1) ci2 ch2 <
                  phaseWork env rec.addedNodes cur.addedNodeIndex cur.childIndex
                    cur.children := by
                rw [hreset.1, hreset.2]
                rw [phaseWork_eq env rec.addedNodes _ _ _ h]
                have hpos := nodeRem_pos env (rec.addedNodes.get ⟨cur.addedNodeIndex, h⟩)
                  cur.childIndex cur.children
                have : phaseWork env rec.addedNodes (cur.addedNodeIndex + 1) 0 none =
                    listWorkFrom env rec.addedNodes (cur.addedNodeIndex + 1) := rfl
                omega
              rcases hrec with ⟨hc2, hs2, hsai, hlt2⟩ | ⟨hw, hlt2, hrmi, hinv⟩
              · refine Or.inr ?_
                rw [hc2]
                exact ⟨hlt, hlt2, rfl, hihci⟩
              · exact Or.inr ⟨lt_trans hw hlt, hlt2, hrmi, hinv⟩
      · rw [addedNodesLoop] at heq
        simp [h] at heq

/-- A yield of the removed-nodes loop: immediate budget yield or strict
phase-work decrease, with a consistent cursor at an active node. -/
theorem removedNodesLoop_yield_work (env : Env) (d : Deadline) (rec : Rec) :
    ∀ n sri (cur : Cursors) (s : RunSt) k,
      rec.removedNodes.length - cur.removedNodeIndex ≤ n →
      (cur.children = none → cur.childIndex = 0) →
      ∀ cur2 s2, removedNodesLoop env d rec sri cur s k = CursorStep.yielded cur2 s2 →
        (cur2 = cur ∧ s2 = s ∧ sri < cur.removedNodeIndex ∧
          cur.removedNodeIndex < rec.removedNodes.length) ∨
        (phaseWork env rec.removedNodes cur2.removedNodeIndex cur2.childIndex cur2.children <
            phaseWork env rec.removedNodes cur.removedNodeIndex cur.childIndex cur.children ∧
          cur2.removedNodeIndex < rec.removedNodes.length ∧
          cur2.addedNodeIndex = cur.addedNodeIndex ∧
          (cur2.children = none → cur2.childIndex = 0)) := by
  intro n
  induction n with
  | zero =>
      intro sri cur s k hle hci cur2 s2 heq
      rw [removedNodesLoop] at heq
      have hnot : ¬ cur.removedNodeIndex < rec.removedNodes.length := by omega
      simp [hnot] at heq
  | succ n ih =>
      intro sri cur s k hle hci cur2 s2 heq
      by_cases h : cur.removedNodeIndex < rec.removedNodes.length
      · rw [removedNodesLoop, dif_pos h] at heq
        by_cases hg : cur.removedNodeIndex > sri ∧ d k = true
        · rw [if_pos hg] at heq
          injection heq with h1 h2
          exact Or.inl ⟨h1.symm, h2.symm, hg.1, h⟩
        · rw [if_neg hg] at heq
          cases hb : removedNodeBody env d (rec.removedNodes.get ⟨cur.removedNodeIndex, h⟩)
              cur.childIndex cur.children s
              (if cur.removedNodeIndex > sri then k + 1 else k) with
          | yielded ci2 ch2 s2b =>
              rw [hb] at heq
              injection heq with h1 h2
              have hw := removedNodeBody_yield_work env d
                (rec.removedNodes.get ⟨cur.removedNodeIndex, h⟩) cur.childIndex cur.children
                s _ hci ci2 ch2 s2b hb
              refine Or.inr ?_
              rw [← h1]
              refine ⟨?_, by simp [h], by simp, ?_⟩
              · rw [phaseWork_eq env rec.removedNodes _ _ _ (by simp [h]),
                  phaseWork_eq env rec.removedNodes _ _ _ h]
                simp only []
                have := hw.1
                omega
              · intro habs
                simp only [] at habs
                exact absurd habs hw.2
          | cont ci2 ch2 s2b k2 =>
              rw [hb] at heq
              have hreset := removedNodeBody_cont_reset env d
                (rec.removedNodes.get ⟨cur.removedNodeIndex, h⟩) cur.childIndex cur.children
                s _ hci ci2 ch2 s2b k2 hb
              have hihci : ({ cur with
                  removedNodeIndex := cur.removedNodeIndex + 1,
                  childIndex := ci2, children := ch2 } : Cursors).children = none →
                  ({ cur with
                    removedNodeIndex := cur.removedNodeIndex + 1,
                    childIndex := ci2, children := ch2 } : Cursors).childIndex = 0 := by
                intro _
                simp [hreset.1]
              have hrec := ih sri _ s2b k2 (by simp; omega) hihci cur2 s2 heq
              have hlt : phaseWork env rec.removedNodes (cur.removedNodeIndex + 1) ci2 ch2 <
                  phaseWork env rec.removedNodes cur.removedNodeIndex cur.childIndex
                    cur.children := by
                rw [hreset.1, hreset.2]
                rw [phaseWork_eq env rec.removedNodes _ _ _ h]
                have hpos := nodeRem_pos env (rec.removedNodes.get ⟨cur.removedNodeIndex, h⟩)
                  cur.childIndex cur.children
                have : phaseWork env rec.removedNodes (cur.removedNodeIndex + 1) 0 none =
                    listWorkFrom env rec.removedNodes (cur.removedNodeIndex + 1) := rfl
                omega
              rcases hrec with ⟨hc2, hs2, hsri, hlt2⟩ | ⟨hw, hlt2, hai, hinv⟩
              · refine Or.inr ?_
                rw [hc2]
                exact ⟨hlt, hlt2, rfl, hihci⟩
              · exact Or.inr ⟨lt_trans hw hlt, hlt2, hai, hinv⟩
      · rw [removedNodesLoop] at heq
        simp [h] at heq

/-- Completion of the added-nodes loop: the cursor runs off the list, the
removed index is untouched, and the child cursor is reset whenever any
node was pending. -/
theorem addedNodesLoop_done_reset (env : Env) (d : Deadline) (rec : Rec) :
    ∀ n sai (cur : Cursors) (s : RunSt) k,
      rec.addedNodes.length - cur.addedNodeIndex ≤ n →
      (cur.children = none → cur.childIndex = 0) →
      ∀ cur2 s2 k2, addedNodesLoop env d rec sai cur s k = CursorStep.done cur2 s2 k2 →
        ¬ cur2.addedNodeIndex < rec.addedNodes.length ∧
        cur2.removedNodeIndex = cur.removedNodeIndex ∧
        (cur.addedNodeIndex < rec.addedNodes.length →
          cur2.children = none ∧ cur2.childIndex = 0) ∧
        (¬ cur.addedNodeIndex < rec.addedNodes.length → cur2 = cur) := by
  intro n
  induction n with
  | zero =>
      intro sai cur s k hle hci cur2 s2 k2 heq
      have hnot : ¬ cur.addedNodeIndex < rec.addedNodes.length := by omega
      rw [addedNodesLoop] at heq
      simp only [hnot, dif_neg, not_false_iff] at heq
      injection heq with h1 h2 h3
      subst h1
      exact ⟨hnot, rfl, fun habs => absurd habs hnot, fun _ => rfl⟩
  | succ n ih =>
      intro sai cur s k hle hci cur2 s2 k2 heq
      by_cases h : cur.addedNodeIndex < rec.addedNodes.length
      · rw [addedNodesLoop, dif_pos h] at heq
        by_cases hg : cur.addedNodeIndex > sai ∧ d k = true
        · rw [if_pos hg] at heq
          exact absurd heq (by simp)
        · rw [if_neg hg] at heq
          cases hb : addedNodeBody env d (rec.addedNodes.get ⟨cur.addedNodeIndex, h⟩)
              cur.childIndex cur.children s
              (if cur.addedNodeIndex > sai then k + 1 else k) with
          | yielded ci2 ch2 s2b =>
              rw [hb] at heq
              exact absurd heq (by simp)
          | cont ci2 ch2 s2b k3 =>
              rw [hb] at heq
              have hreset := addedNodeBody_cont_reset env d
                (rec.addedNodes.get ⟨cur.addedNodeIndex, h⟩) cur.childIndex cur.children
                s _ hci ci2 ch2 s2b k3 hb
              have hihci : ({ cur with
                  addedNodeIndex := cur.addedNodeIndex + 1,
                  childIndex := ci2, children := ch2 } : Cursors).children = none →
                  ({ cur with
                    addedNodeIndex := cur.addedNodeIndex + 1,
                    childIndex := ci2, children := ch2 } : Cursors).childIndex = 0 := by
                intro _
                simp [hreset.1]
              have hrec := ih sai _ s2b k3 (by simp; omega) hihci cur2 s2 k2 heq
              refine ⟨hrec.1, by simpa using hrec.2.1, fun _ => ?_, fun habs => absurd h habs⟩
              by_cases h2 : cur.addedNodeIndex + 1 < rec.addedNodes.length
              · exact hrec.2.2.1 (by simpa using h2)
              · have hc2 := hrec.2.2.2 (by simpa using h2)
                rw [hc2]
                exact ⟨by simpa using hreset.2, by simpa using hreset.1⟩
      · rw [addedNodesLoop] at heq
        simp only [h, dif_neg, not_false_iff] at heq
        injection heq with h1 h2 h3
        subst h1
        exact ⟨h, rfl, fun habs => absurd habs h, fun _ => rfl⟩

/-- Completion of the removed-nodes loop: the cursor runs off the list,
the added index is untouched, and the child cursor is reset whenever any
node was pending. -/
theorem removedNodesLoop_done_reset (env : Env) (d : Deadline) (rec : Rec) :
    ∀ n sri (cur : Cursors) (s : RunSt) k,
      rec.removedNodes.length - cur.removedNodeIndex ≤ n →
      (cur.children = none → cur.childIndex = 0) →
      ∀ cur2 s2 k2, removedNodesLoop env d rec sri cur s k = CursorStep.done cur2 s2 k2 →
        ¬ cur2.removedNodeIndex < rec.removedNodes.length ∧
        cur2.addedNodeIndex = cur.addedNodeIndex ∧
        (cur.removedNodeIndex < rec.removedNodes.length →
          cur2.children = none ∧ cur2.childIndex = 0) ∧
        (¬ cur.removedNodeIndex < rec.removedNodes.length → cur2 = cur) := by
  intro n
  induction n with
  | zero =>
      intro sri cur s k hle hci cur2 s2 k2 heq
      have hnot : ¬ cur.removedNodeIndex < rec.removedNodes.length := by omega
      rw [removedNodesLoop] at heq
      simp only [hnot, dif_neg, not_false_iff] at heq
      injection heq with h1 h2 h3
      subst h1
      exact ⟨hnot, rfl, fun habs => absurd habs hnot, fun _ => rfl⟩
  | succ n ih =>
      intro sri cur s k hle hci cur2 s2 k2 heq
      by_cases h : cur.removedNodeIndex < rec.removedNodes.length
      · rw [removedNodesLoop, dif_pos h] at heq
        by_cases hg : cur.removedNodeIndex > sri ∧ d k = true
        · rw [if_pos hg] at heq
          exact absurd heq (by simp)
        · rw [if_neg hg] at heq
          cases hb : removedNodeBody env d (rec.removedNodes.get ⟨cur.removedNodeIndex, h⟩)
              cur.childIndex cur.children s
              (if cur.removedNodeIndex > sri then k + 1 else k) with
          | yielded ci2 ch2 s2b =>
              rw [hb] at heq
              exact absurd heq (by simp)
          | cont ci2 ch2 s2b k3 =>
              rw [hb] at heq
              have hreset := removedNodeBody_cont_reset env d
                (rec.removedNodes.get ⟨cur.removedNodeIndex, h⟩) cur.childIndex cur.children
                s _ hci ci2 ch2 s2b k3 hb
              have hihci : ({ cur with
                  removedNodeIndex := cur.removedNodeIndex + 1,
                  childIndex := ci2, children := ch2 } : Cursors).children = none →
                  ({ cur with
                    removedNodeIndex := cur.removedNodeIndex + 1,
                    childIndex := ci2, children := ch2 } : Cursors).childIndex = 0 := by
                intro _
                simp [hreset.1]
              have hrec := ih sri _ s2b k3 (by simp; omega) hihci cur2 s2 k2 heq
              refine ⟨hrec.1, by simpa using hrec.2.1, fun _ => ?_, fun habs => absurd h habs⟩
              by_cases h2 : cur.removedNodeIndex + 1 < rec.removedNodes.length
              · exact hrec.2.2.1 (by simpa using h2)
              · have hc2 := hrec.2.2.2 (by simpa using h2)
                rw [hc2]
                exact ⟨by simpa using hreset.2, by simpa using hreset.1⟩
      · rw [removedNodesLoop] at heq
        simp only [h, dif_neg, not_false_iff] at heq
        injection heq with h1 h2 h3
        subst h1
        exact ⟨h, rfl, fun habs => absurd habs h, fun _ => rfl⟩

/-- Record work in removals-only mode. -/
theorem recordWork_true (env : Env) (rec : Rec) (cur : Cursors) :
    recordWork env rec true cur =
      1 + phaseWork env rec.removedNodes cur.removedNodeIndex cur.childIndex
        cur.children := rfl

/-- Record work while the added phase is active. -/
theorem recordWork_false_lt (env : Env) (rec : Rec) (cur : Cursors)
    (h : cur.addedNodeIndex < rec.addedNodes.length) :
    recordWork env rec false cur =
      1 + (phaseWork env rec.addedNodes cur.addedNodeIndex cur.childIndex cur.children +
        listWorkFrom env rec.removedNodes cur.removedNodeIndex) := by
  simp only [recordWork]
  rw [if_pos h]

/-- Record work once the added phase is exhausted. -/
theorem recordWork_false_ge (env : Env) (rec : Rec) (cur : Cursors)
    (h : ¬ cur.addedNodeIndex < rec.addedNodes.length) :
    recordWork env rec false cur =
      1 + phaseWork env rec.removedNodes cur.removedNodeIndex cur.childIndex
        cur.children := by
  simp only [recordWork]
  rw [if_neg h]

/-- Every record costs at least one unit. -/
theorem recordWork_pos (env : Env) (rec : Rec) (ro : Bool) (cur : Cursors) :
    1 ≤ recordWork env rec ro cur := by
  cases ro <;> simp only [recordWork] <;> omega

/-- A yield of one record body strictly reduces the record's work and
keeps the cursor consistent; its completion resets the cursors. -/
theorem recordBody_progress (env : Env) (d : Deadline) (rec : Rec) (ro : Bool)
    (cur : Cursors) (s : RunSt) (k : Nat) (hinv : curInv rec ro cur) :
    (∃ cur2 s2, recordBody env d rec ro cur s k = CursorStep.yielded cur2 s2 ∧
      recordWork env rec ro cur2 < recordWork env rec ro cur ∧ curInv rec ro cur2) ∨
    (∃ s2 k2, recordBody env d rec ro cur s k = CursorStep.done Cursors.fresh s2 k2) := by
  have hci := hinv.1
  cases ro with
  | true =>
      rw [recordBody, if_pos rfl, recordAfterAdded]
      cases hr : removedNodesLoop env d rec cur.removedNodeIndex cur s k with
      | yielded cur2 s2 =>
          rcases removedNodesLoop_yield_work env d rec
              (rec.removedNodes.length - cur.removedNodeIndex) cur.removedNodeIndex
              cur s k le_rfl hci cur2 s2 hr with
            ⟨_, _, hsri, _⟩ | ⟨hw, hrmi2, _, hci2⟩
          · omega
          · refine Or.inl ⟨cur2, s2, rfl, ?_, hci2, fun _ => hrmi2⟩
            rw [recordWork_true, recordWork_true]
            omega
      | done cur3 s3 k3 =>
          rcases removedNodesLoop_done_reset env d rec
              (rec.removedNodes.length - cur.removedNodeIndex) cur.removedNodeIndex
              cur s k le_rfl hci cur3 s3 k3 hr with ⟨g1, g2, g3, g4⟩
          have hch : cur3.children = none ∧ cur3.childIndex = 0 := by
            by_cases hentry : cur.removedNodeIndex < rec.removedNodes.length
            · exact ⟨(g3 hentry).1, (g3 hentry).2⟩
            · rw [g4 hentry]
              have hchnone : cur.children = none := by
                by_contra hne
                exact hentry (hinv.2 hne)
              exact ⟨hchnone, hci hchnone⟩
          have hfresh : ({ cur3 with addedNodeIndex := 0, removedNodeIndex := 0 } :
              Cursors) = Cursors.fresh := by
            cases cur3 with
            | mk a r c ch =>
                simp only [] at hch
                rw [Cursors.fresh, hch.1, hch.2]
          refine Or.inr ?_
          dsimp only
          rw [hfresh]
          exact ⟨_, _, rfl⟩
  | false =>
      rw [recordBody, if_neg (by simp)]
      cases ha : addedNodesLoop env d rec cur.addedNodeIndex cur s k with
      | yielded cur2 s2 =>
          have hentry : cur.addedNodeIndex < rec.addedNodes.length := by
            by_contra hnot
            rw [addedNodesLoop] at ha
            simp [hnot] at ha
          rcases addedNodesLoop_yield_work env d rec
              (rec.addedNodes.length - cur.addedNodeIndex) cur.addedNodeIndex
              cur s k le_rfl hci cur2 s2 ha with
            ⟨_, _, hsai, _⟩ | ⟨hw, hai2, hrmi2, hci2⟩
          · omega
          · refine Or.inl ⟨cur2, s2, rfl, ?_, hci2, fun _ => Or.inl hai2⟩
            rw [recordWork_false_lt env rec cur2 hai2, recordWork_false_lt env rec cur hentry,
              hrmi2]
            omega
      | done cur3 s3 k3 =>
          rcases addedNodesLoop_done_reset env d rec
              (rec.addedNodes.length - cur.addedNodeIndex) cur.addedNodeIndex
              cur s k le_rfl hci cur3 s3 k3 ha with ⟨h1, h2, h3, h4⟩
          have hci3 : cur3.children = none → cur3.childIndex = 0 := by
            intro hch3
            by_cases hentry : cur.addedNodeIndex < rec.addedNodes.length
            · exact (h3 hentry).2
            · rw [h4 hentry] at hch3 ⊢
              exact hci hch3
          dsimp only
          rw [recordAfterAdded]
          cases hr : removedNodesLoop env d rec cur3.removedNodeIndex cur3 s3 k3 with
          | yielded cur2 s2 =>
              rcases removedNodesLoop_yield_work env d rec
                  (rec.removedNodes.length - cur3.removedNodeIndex) cur3.removedNodeIndex
                  cur3 s3 k3 le_rfl hci3 cur2 s2 hr with
                ⟨_, _, hsri, _⟩ | ⟨hw, hrmi2, hai2, hci2⟩
              · omega
              · refine Or.inl ⟨cur2, s2, rfl, ?_, hci2, fun _ => Or.inr hrmi2⟩
                have hai2' : ¬ cur2.addedNodeIndex < rec.addedNodes.length := by
                  rw [hai2]
                  exact h1
                rw [recordWork_false_ge env rec cur2 hai2']
                by_cases hentry : cur.addedNodeIndex < rec.addedNodes.length
                · rw [recordWork_false_lt env rec cur hentry]
                  have hc3 : phaseWork env rec.removedNodes cur3.removedNodeIndex
                      cur3.childIndex cur3.children =
                      listWorkFrom env rec.removedNodes cur.removedNodeIndex := by
                    rw [(h3 hentry).1, (h3 hentry).2, h2]
                    rfl
                  rw [hc3] at hw
                  omega
                · rw [recordWork_false_ge env rec cur hentry]
                  rw [h4 hentry] at hw
                  omega
          | done cur4 s4 k4 =>
              rcases removedNodesLoop_done_reset env d rec
                  (rec.removedNodes.length - cur3.removedNodeIndex) cur3.removedNodeIndex
                  cur3 s3 k3 le_rfl hci3 cur4 s4 k4 hr with ⟨g1, g2, g3, g4⟩
              have hch : cur4.children = none ∧ cur4.childIndex = 0 := by
                by_cases hentry3 : cur3.removedNodeIndex < rec.removedNodes.length
                · exact ⟨(g3 hentry3).1, (g3 hentry3).2⟩
                · rw [g4 hentry3]
                  by_cases hentry : cur.addedNodeIndex < rec.addedNodes.length
                  · exact ⟨(h3 hentry).1, (h3 hentry).2⟩
                  · rw [h4 hentry] at hentry3 ⊢
                    have hchnone : cur.children = none := by
                      by_contra hne
                      rcases hinv.2 hne with hlt | hlt
                      · exact hentry hlt
                      · exact hentry3 hlt
                    exact ⟨hchnone, hci hchnone⟩
              have hfresh : ({ cur4 with addedNodeIndex := 0, removedNodeIndex := 0 } :
                  Cursors) = Cursors.fresh := by
                cases cur4 with
                | mk a r c ch =>
                    simp only [] at hch
                    rw [Cursors.fresh, hch.1, hch.2]
              refine Or.inr ?_
              dsimp only
              rw [hfresh]
              exact ⟨_, _, rfl⟩

/-- Splitting the remaining records work at the current record. -/
theorem recordsWork_step (env : Env) (records : List Rec) (ro : Bool) (ri : Nat)
    (cur : Cursors) (h : ri < records.length) :
    recordsWork env records ro ri cur =
      recordWork env (records.get ⟨ri, h⟩) ro cur +
        ((records.drop (ri + 1)).map (fun r => recordFullWork env r ro)).sum := by
  simp only [recordsWork]
  rw [dif_pos h]

/-- Remaining records work of a fresh successor cursor is the full work of
the remaining records. -/
theorem recordsWork_succ_fresh (env : Env) (records : List Rec) (ro : Bool)
    (ri : Nat) :
    recordsWork env records ro (ri + 1) Cursors.fresh =
      ((records.drop (ri + 1)).map (fun r => recordFullWork env r ro)).sum := by
  by_cases h : ri + 1 < records.length
  · rw [recordsWork_step env records ro (ri + 1) Cursors.fresh h]
    rw [sum_map_drop_succ records (fun r => recordFullWork env r ro) (ri + 1) h]
    rfl
  · simp only [recordsWork]
    rw [dif_neg h]
    rw [List.drop_eq_nil_of_le (by omega)]
    rfl

/-- The records loop: an immediate budget yield, a yield with strictly
reduced records work and a consistent cursor, or completion past the last
record. -/
theorem recordsLoop_progress (env : Env) (d : Deadline) (records : List Rec)
    (ro : Bool) :
    ∀ n sri ri (cur : Cursors) (s : RunSt) k, records.length - ri ≤ n →
      (∀ h : ri < records.length, curInv (records.get ⟨ri, h⟩) ro cur) →
      (recordsLoop env d records ro sri ri cur s k = RecsStep.yielded ri cur s ∧
        sri < ri) ∨
      (∃ ri2 cur2 s2, recordsLoop env d records ro sri ri cur s k =
          RecsStep.yielded ri2 cur2 s2 ∧
        recordsWork env records ro ri2 cur2 < recordsWork env records ro ri cur ∧
        ∀ h : ri2 < records.length, curInv (records.get ⟨ri2, h⟩) ro cur2) ∨
      (∃ ri2 cur2 s2 k2, recordsLoop env d records ro sri ri cur s k =
          RecsStep.done ri2 cur2 s2 k2 ∧ ¬ ri2 < records.length) := by
  intro n
  induction n with
  | zero =>
      intro sri ri cur s k hle hinv
      have hnot : ¬ ri < records.length := by omega
      rw [recordsLoop]
      simp only [hnot, dif_neg, not_false_iff]
      exact Or.inr (Or.inr ⟨ri, cur, s, k, rfl, hnot⟩)
  | succ n ih =>
      intro sri ri cur s k hle hinv
      by_cases h : ri < records.length
      · rw [recordsLoop, dif_pos h]
        by_cases hg : ri > sri ∧ d k = true
        · rw [if_pos hg]
          exact Or.inl ⟨rfl, hg.1⟩
        · rw [if_neg hg]
          rcases recordBody_progress env d (records.get ⟨ri, h⟩) ro cur s
              (if ri > sri then k + 1 else k) (hinv h) with
            ⟨cur2, s2, hb, hlt, hinv2⟩ | ⟨s2, k2, hb⟩
          · rw [hb]
            refine Or.inr (Or.inl ⟨ri, cur2, s2, rfl, ?_, fun h2 => hinv2⟩)
            rw [recordsWork_step env records ro ri cur2 h,
              recordsWork_step env records ro ri cur h]
            omega
          · rw [hb]
            dsimp only
            have hrec := ih sri (ri + 1) Cursors.fresh s2 k2 (by omega)
              (fun h2 => curInv_fresh (records.get ⟨ri + 1, h2⟩) ro)
            have hless : recordsWork env records ro (ri + 1) Cursors.fresh <
                recordsWork env records ro ri cur := by
              rw [recordsWork_succ_fresh env records ro ri,
                recordsWork_step env records ro ri cur h]
              have := recordWork_pos env (records.get ⟨ri, h⟩) ro cur
              omega
            rcases hrec with ⟨heq2, hsri2⟩ | ⟨ri2, cur2, s3, heq2, hlt2, hinv2⟩ |
              ⟨ri2, cur2, s3, k3, heq2, hge2⟩
            · rw [heq2]
              exact Or.inr (Or.inl ⟨ri + 1, Cursors.fresh, s2, rfl, hless,
                fun h2 => curInv_fresh (records.get ⟨ri + 1, h2⟩) ro⟩)
            · rw [heq2]
              exact Or.inr (Or.inl ⟨ri2, cur2, s3, rfl, lt_trans hlt2 hless, hinv2⟩)
            · rw [heq2]
              exact Or.inr (Or.inr ⟨ri2, cur2, s3, k3, rfl, hge2⟩)
      · rw [recordsLoop]
        simp only [h, dif_neg, not_false_iff]
        exact Or.inr (Or.inr ⟨ri, cur, s, k, rfl, h⟩)

/-- The queue loop under any deadline: an immediate budget yield (only
possible past the captured start index), a drained queue, or a strict
decrease of the remaining work with the cursors kept consistent. -/
theorem flushLoop_progress (env : Env) (d : Deadline) :
    ∀ n (fs : FullState) sq k, fs.queue.items.length - fs.queue.index ≤ n →
      queueInv fs →
      (fs.queue.index > sq ∧ flushLoop env d sq fs k = fs) ∨
      (flushLoop env d sq fs k).queue.items = [] ∨
      (queueWork env (flushLoop env d sq fs k) < queueWork env fs ∧
        queueInv (flushLoop env d sq fs k)) := by
  intro n
  induction n with
  | zero =>
      intro fs sq k hle hinv
      have hnot : ¬ fs.queue.index < fs.queue.items.length := by omega
      rw [flushLoop]
      simp only [hnot, dif_neg, not_false_iff]
      exact Or.inr (Or.inl rfl)
  | succ n ih =>
      intro fs sq k hle hinv
      by_cases h : fs.queue.index < fs.queue.items.length
      · rw [flushLoop, dif_pos h]
        by_cases hg : fs.queue.index > sq ∧ d k = true
        · rw [if_pos hg]
          exact Or.inl ⟨hg.1, rfl⟩
        · rw [if_neg hg]
          cases hget : fs.queue.items.get ⟨fs.queue.index, h⟩ with
          | records records ri cur ro =>
              dsimp only
              have hitem := hinv _ (List.get_mem fs.queue.items fs.queue.index h)
              rw [hget] at hitem
              have hcur : ∀ h2 : ri < records.length,
                  curInv (records.get ⟨ri, h2⟩) ro cur := hitem
              rcases recordsLoop_progress env d records ro (records.length - ri) ri ri
                  cur (RunSt.mk fs.reg fs.queue.addedElements)
                  (if fs.queue.index > sq then k + 1 else k) le_rfl hcur with
                ⟨heq, hsri⟩ | ⟨ri2, cur2, s2, heq, hlt, hinv2⟩ |
                ⟨ri2, cur2, s2, k2, heq, hge⟩
              · omega
              · rw [heq]
                dsimp only
                refine Or.inr (Or.inr ⟨?_, ?_⟩)
                · show ((((fs.queue.items.set fs.queue.index
                      (QueueItem.records records ri2 cur2 ro)).drop fs.queue.index).map
                      (itemWork env)).sum) <
                    (((fs.queue.items.drop fs.queue.index).map (itemWork env)).sum)
                  rw [drop_set_self fs.queue.items fs.queue.index _ h]
                  rw [List.map_cons, List.sum_cons]
                  rw [sum_map_drop_succ fs.queue.items (itemWork env) fs.queue.index h,
                    hget]
                  simp only [itemWork]
                  omega
                · intro item hmem
                  rcases mem_set_of fs.queue.items fs.queue.index _ item hmem with
                    hv | hold
                  · rw [hv]
                    exact fun h2 => hinv2 h2
                  · exact hinv item hold
              · rw [heq]
                dsimp only
                have hlen : (fs.queue.items.set fs.queue.index
                    (QueueItem.records records ri2 cur2 ro)).length =
                    fs.queue.items.length := by simp [List.length_set]
                have hqw : queueWork env
                    (FullState.mk
                      (Queue.mk
                        (fs.queue.items.set fs.queue.index
                          (QueueItem.records records ri2 cur2 ro))
                        (fs.queue.index + 1) s2.added)
                      s2.reg) < queueWork env fs := by
                  show ((((fs.queue.items.set fs.queue.index
                      (QueueItem.records records ri2 cur2 ro)).drop
                      (fs.queue.index + 1)).map (itemWork env)).sum) <
                    (((fs.queue.items.drop fs.queue.index).map (itemWork env)).sum)
                  rw [drop_set_of_lt fs.queue.items fs.queue.index _ (fs.queue.index + 1)
                    (by omega)]
                  rw [sum_map_drop_succ fs.queue.items (itemWork env) fs.queue.index h]
                  have := itemWork_pos env (fs.queue.items.get ⟨fs.queue.index, h⟩)
                  omega
                have hinv' : queueInv
                    (FullState.mk
                      (Queue.mk
                        (fs.queue.items.set fs.queue.index
                          (QueueItem.records records ri2 cur2 ro))
                        (fs.queue.index + 1) s2.added)
                      s2.reg) := by
                  intro item hmem
                  rcases mem_set_of fs.queue.items fs.queue.index _ item hmem with
                    hv | hold
                  · rw [hv]
                    exact fun h2 => absurd h2 hge
                  · exact hinv item hold
                have hrec := ih
                  (FullState.mk
                    (Queue.mk
                      (fs.queue.items.set fs.queue.index
                        (QueueItem.records records ri2 cur2 ro))
                      (fs.queue.index + 1) s2.added)
                    s2.reg) sq k2 (by rw [hlen]; simp; omega) hinv'
                rcases hrec with ⟨hgt, heq2⟩ | hdr | ⟨hlt2, hinv2⟩
                · rw [heq2]
                  exact Or.inr (Or.inr ⟨hqw, hinv'⟩)
                · exact Or.inr (Or.inl hdr)
                · exact Or.inr (Or.inr ⟨lt_trans hlt2 hqw, hinv2⟩)
          | clickableChanged target clickable =>
              dsimp only
              have hqw : queueWork env
                  (FullState.mk
                    (Queue.mk fs.queue.items (fs.queue.index + 1) fs.queue.addedElements)
                    (clickableChangedStep env target clickable fs.reg)) <
                  queueWork env fs := by
                show (((fs.queue.items.drop (fs.queue.index + 1)).map
                    (itemWork env)).sum) <
                  (((fs.queue.items.drop fs.queue.index).map (itemWork env)).sum)
                rw [sum_map_drop_succ fs.queue.items (itemWork env) fs.queue.index h]
                have := itemWork_pos env (fs.queue.items.get ⟨fs.queue.index, h⟩)
                omega
              have hinv' : queueInv
                  (FullState.mk
                    (Queue.mk fs.queue.items (fs.queue.index + 1) fs.queue.addedElements)
                    (clickableChangedStep env target clickable fs.reg)) := hinv
              have hrec := ih
                (FullState.mk
                  (Queue.mk fs.queue.items (fs.queue.index + 1) fs.queue.addedElements)
                  (clickableChangedStep env target clickable fs.reg)) sq
                (if fs.queue.index > sq then k + 1 else k) (by simp; omega) hinv'
              rcases hrec with ⟨hgt, heq2⟩ | hdr | ⟨hlt2, hinv2⟩
              · rw [heq2]
                exact Or.inr (Or.inr ⟨hqw, hinv'⟩)
              · exact Or.inr (Or.inl hdr)
              · exact Or.inr (Or.inr ⟨lt_trans hlt2 hqw, hinv2⟩)
          | overflowChanged target =>
              dsimp only
              have hqw : queueWork env
                  (FullState.mk
                    (Queue.mk fs.queue.items (fs.queue.index + 1) fs.queue.addedElements)
                    (overflowChangedStep env target fs.reg)) <
                  queueWork env fs := by
                show (((fs.queue.items.drop (fs.queue.index + 1)).map
                    (itemWork env)).sum) <
                  (((fs.queue.items.drop fs.queue.index).map (itemWork env)).sum)
                rw [sum_map_drop_succ fs.queue.items (itemWork env) fs.queue.index h]
                have := itemWork_pos env (fs.queue.items.get ⟨fs.queue.index, h⟩)
                omega
              have hinv' : queueInv
                  (FullState.mk
                    (Queue.mk fs.queue.items (fs.queue.index + 1) fs.queue.addedElements)
                    (overflowChangedStep env target fs.reg)) := hinv
              have hrec := ih
                (FullState.mk
                  (Queue.mk fs.queue.items (fs.queue.index + 1) fs.queue.addedElements)
                  (overflowChangedStep env target fs.reg)) sq
                (if fs.queue.index > sq then k + 1 else k) (by simp; omega) hinv'
              rcases hrec with ⟨hgt, heq2⟩ | hdr | ⟨hlt2, hinv2⟩
              · rw [heq2]
                exact Or.inr (Or.inr ⟨hqw, hinv'⟩)
              · exact Or.inr (Or.inl hdr)
              · exact Or.inr (Or.inr ⟨lt_trans hlt2 hqw, hinv2⟩)
      · rw [flushLoop]
        simp only [h, dif_neg, not_false_iff]
        exact Or.inr (Or.inl rfl)

/-- One `flushQueue` call under any deadline either drains the queue or
strictly decreases its remaining work. -/
theorem flushQueue_progress (env : Env) (d : Deadline) (fs : FullState)
    (hinv : queueInv fs) :
    (flushQueue env d fs).queue.items = [] ∨
      (queueWork env (flushQueue env d fs) < queueWork env fs ∧
        queueInv (flushQueue env d fs)) := by
  rw [flushQueue]
  rcases flushLoop_progress env d (fs.queue.items.length - fs.queue.index) fs
      fs.queue.index 0 le_rfl hinv with ⟨hgt, _⟩ | hdr | hstrict
  · omega
  · exact Or.inl hdr
  · exact Or.inr hstrict

/-- A drained queue stays drained. -/
theorem flushQueue_empty_items (env : Env) (d : Deadline) (fs : FullState)
    (h : fs.queue.items = []) : (flushQueue env d fs).queue.items = [] := by
  have hnot : ¬ fs.queue.index < fs.queue.items.length := by rw [h]; simp
  rw [flushQueue, flushLoop, dif_neg hnot]
  rfl

/-- A drained queue stays drained under any further calls. -/
theorem multiFlush_keeps_empty (env : Env) :
    ∀ (ds : List Deadline) (fs : FullState), fs.queue.items = [] →
      (multiFlush env ds fs).queue.items = [] := by
  intro ds
  induction ds with
  | nil => intro fs h; exact h
  | cons d ds ih =>
      intro fs h
      exact ih (flushQueue env d fs) (flushQueue_empty_items env d fs h)

/-- More calls than remaining work drain the queue. -/
theorem multiFlush_drains (env : Env) :
    ∀ (ds : List Deadline) (fs : FullState), queueInv fs →
      queueWork env fs < ds.length →
      (multiFlush env ds fs).queue.items = [] := by
  intro ds
  induction ds with
  | nil =>
      intro fs _ hlt
      simp at hlt
  | cons d ds ih =>
      intro fs hinv hlt
      have hcons : multiFlush env (d :: ds) fs =
          multiFlush env ds (flushQueue env d fs) := rfl
      rw [hcons]
      rcases flushQueue_progress env d fs hinv with hdr | ⟨hlt2, hinv2⟩
      · exact multiFlush_keeps_empty env ds _ hdr
      · refine ih (flushQueue env d fs) hinv2 ?_
        have hlen : queueWork env fs < ds.length + 1 := by simpa using hlt
        omega

/-- C10: guaranteed per-slice progress.  For every queue whose stored
cursors are consistent: under every deadline - including one whose
`timeRemaining()` is already `≤ 0` when `flushQueue` is called - a call on
a non-empty queue either drains it or strictly decreases its remaining
work and keeps the cursors consistent, because every loop level skips its
budget check until its index has advanced past the value captured at
entry; consequently any sequence of `flushQueue` calls longer than the
queue's total work drains the queue in finitely many calls. -/
theorem flush_per_slice_progress (env : Env) (fs : FullState)
    (hinv : queueInv fs) :
    (∀ d : Deadline, fs.queue.items ≠ [] →
      (flushQueue env d fs).queue.items = [] ∨
        (queueWork env (flushQueue env d fs) < queueWork env fs ∧
          queueInv (flushQueue env d fs))) ∧
    (∀ ds : List Deadline, queueWork env fs < ds.length →
      (multiFlush env ds fs).queue.items = []) :=
  ⟨fun d _ => flushQueue_progress env d fs hinv,
    fun ds hlt => multiFlush_drains env ds fs hinv hlt⟩

/-- Per-slice progress at a concrete queue: a mutation batch with one
added and one removed node plus a clickable-changed message, flushed
under deadlines that are already expired at every check. -/
theorem flush_per_slice_progress_witness :
    queueInv exFSC10 ∧ exFSC10.queue.items ≠ [] ∧
    ((flushQueue exEnvC10 exExpired exFSC10).queue.items = [] ∨
      (queueWork exEnvC10 (flushQueue exEnvC10 exExpired exFSC10) <
          queueWork exEnvC10 exFSC10 ∧
        queueInv (flushQueue exEnvC10 exExpired exFSC10))) ∧
    queueWork exEnvC10 exFSC10 < 20 ∧
    (multiFlush exEnvC10 (List.replicate 20 exExpired) exFSC10).queue.items = [] := by
  have hinv : queueInv exFSC10 := by
    intro item hmem
    simp only [exFSC10] at hmem
    rcases List.mem_cons.mp hmem with rfl | hmem2
    · intro h2
      exact curInv_fresh _ false
    · rcases List.mem_cons.mp hmem2 with rfl | hmem3
      · exact trivial
      · exact absurd hmem3 (List.not_mem_nil _)
  have h := flush_per_slice_progress exEnvC10 exFSC10 hinv
  refine ⟨hinv, by simp [exFSC10], h.1 exExpired (by simp [exFSC10]), by decide, ?_⟩
  exact h.2 (List.replicate 20 exExpired)
    (by simpa using (show queueWork exEnvC10 exFSC10 < 20 by decide))

end LinkHints
